import Mathlib

/-!
Verification of the Sankey layout engine of the uncharted repository.

The definitions below are a shallow embedding of the renderer in
src/renderers/sankey.js (referred to as V1 below) and of the variant
renderer carrying the proportional option (referred to as P5 below).
JavaScript strings are modelled as lists of characters, JavaScript
numbers as exact rationals, JavaScript Map objects as insertion-ordered
association lists, and the possibly throwing construction as an Except
value.  The breadth-first level-assignment loop, which the source runs
without any bound, is modelled with an explicit fuel parameter: a result
of none means the loop was still running when the fuel ran out.
-/

/-- Characters of a JavaScript string. -/
abbrev Str := List Char

/-- Model of the JavaScript String.prototype.trim call used on source and
target labels (sankey.js lines 39 and 40). -/
def jsTrim (s : Str) : Str :=
  ((s.dropWhile Char.isWhitespace).reverse.dropWhile Char.isWhitespace).reverse

/-- True when the string contains the two-character substring of two colons,
the separator used by the edge aggregator key (sankey.js line 63). -/
def hasCC : Str → Bool
  | [] => false
  | [_] => false
  | c1 :: c2 :: rest => (c1 = ':' && c2 = ':') || hasCC (c2 :: rest)

/-- True when the string ends with a colon character. -/
def endsColon : Str → Bool
  | [] => false
  | [c] => c = ':'
  | _ :: rest => endsColon rest

/-- Model of the JavaScript split on the two-colon separator, as in
key.split at sankey.js line 68: leftmost non-overlapping matches. -/
def splitCC : Str → List Str
  | [] => [[]]
  | [c] => [[c]]
  | c1 :: c2 :: rest =>
    if c1 = ':' ∧ c2 = ':' then [] :: splitCC rest
    else
      match splitCC (c2 :: rest) with
      | seg :: more => (c1 :: seg) :: more
      | [] => [[c1]]

/-- Aggregation key of an edge: source, two colons, target
(sankey.js line 63). -/
def keyOf (s t : Str) : Str := s ++ ':' :: ':' :: t

/-- Lookup in an insertion-ordered association list, modelling
Map.prototype.get. -/
def mget {α : Type} (m : List (Str × α)) (k : Str) : Option α :=
  match m with
  | [] => none
  | (k2, v) :: rest => if k2 = k then some v else mget rest k

/-- Update of an insertion-ordered association list, modelling
Map.prototype.set: an existing key keeps its position, a new key is
appended at the end. -/
def mset {α : Type} (m : List (Str × α)) (k : Str) (v : α) : List (Str × α) :=
  match m with
  | [] => [(k, v)]
  | (k2, v2) :: rest => if k2 = k then (k, v) :: rest else (k2, v2) :: mset rest k v

/-- Append a string to a list unless already present, modelling
Set.prototype.add iteration order. -/
def insertUnique (l : List Str) (s : Str) : List Str :=
  if s ∈ l then l else l ++ [s]

theorem mget_cons {α : Type} (k2 k : Str) (v : α) (m : List (Str × α)) :
    mget ((k2, v) :: m) k = if k2 = k then some v else mget m k := rfl

theorem mset_cons {α : Type} (k2 k : Str) (v2 v : α) (m : List (Str × α)) :
    mset ((k2, v2) :: m) k v = if k2 = k then (k, v) :: m else (k2, v2) :: mset m k v := rfl

/-- Input row as the renderer reads it positionally: first column source,
second column target, third column value.  The value field holds the
number the JavaScript coercion at sankey.js line 41 produces, or none when
the field is non-numeric so that parseFloat yields NaN and the
or-zero fallback applies. -/
structure Row where
  source : Str
  target : Str
  value : Option ℚ
deriving DecidableEq

/-- Coerced numeric value of a row, as at sankey.js line 41. -/
def rowValue (r : Row) : ℚ := r.value.getD 0

/-- Edge of the flow graph: a parsed (source, target, value) triple. -/
structure Edge where
  source : Str
  target : Str
  value : ℚ
deriving DecidableEq

/-- Error thrown at sankey.js line 46: row is the 1-based data position
plus the header offset (rowIndex + 2), label the offending node label. -/
structure SelfLoopError where
  row : Nat
  label : Str
deriving DecidableEq

instance {e a : Type} [DecidableEq e] [DecidableEq a] : DecidableEq (Except e a) := fun x y =>
  match x, y with
  | .error a1, .error b1 =>
    if h : a1 = b1 then isTrue (by rw [h]) else isFalse (fun hc => h (by injection hc))
  | .ok a1, .ok b1 =>
    if h : a1 = b1 then isTrue (by rw [h]) else isFalse (fun hc => h (by injection hc))
  | .error _, .ok _ => isFalse (fun hc => Except.noConfusion hc)
  | .ok _, .error _ => isFalse (fun hc => Except.noConfusion hc)

/-- Worker of the edge builder loop of sankey.js lines 38 to 54, with the
running 0-based row index made explicit. -/
def buildEdgesGo : Nat → List Row → Except SelfLoopError (List Edge)
  | _, [] => .ok []
  | i, r :: rs =>
    let source := jsTrim r.source
    let target := jsTrim r.target
    let value := rowValue r
    if source ≠ [] ∧ target ≠ [] ∧ 0 < value then
      if source = target then .error ⟨i + 2, source⟩
      else
        match buildEdgesGo (i + 1) rs with
        | .error e => .error e
        | .ok rest => .ok (⟨source, target, value⟩ :: rest)
    else buildEdgesGo (i + 1) rs

/-- Edge builder: parses rows into edges, dropping rows with an empty
trimmed source or target or a non-positive value, and failing on a
self-loop among the retained rows (sankey.js lines 38 to 54). -/
def buildEdges (data : List Row) : Except SelfLoopError (List Edge) :=
  buildEdgesGo 0 data

/-- Node set in first-appearance order, source before target per edge
(sankey.js lines 49 and 50). -/
def nodeSet (edges : List Edge) : List Str :=
  edges.foldl (fun acc e => insertUnique (insertUnique acc e.source) e.target) []

/-- Total flow into each node, keyed by raw target labels
(sankey.js line 52). -/
def nodeInFlow (edges : List Edge) : List (Str × ℚ) :=
  edges.foldl (fun m e => mset m e.target ((mget m e.target).getD 0 + e.value)) []

/-- Total flow out of each node, keyed by raw source labels
(sankey.js line 51). -/
def nodeOutFlow (edges : List Edge) : List (Str × ℚ) :=
  edges.foldl (fun m e => mset m e.source ((mget m e.source).getD 0 + e.value)) []

/-- Aggregation map from keys to summed values (sankey.js lines 61 to 65). -/
def edgeMap (edges : List Edge) : List (Str × ℚ) :=
  edges.foldl (fun m e =>
    let k := keyOf e.source e.target
    mset m k ((mget m k).getD 0 + e.value)) []

/-- Recover an edge from an aggregation map entry by splitting the key on
the two-colon separator and keeping the first two segments
(sankey.js lines 67 to 70).  The fallback arms are unreachable because
every key contains the separator. -/
def recoverEdge (p : Str × ℚ) : Edge :=
  match splitCC p.1 with
  | s :: t :: _ => ⟨s, t, p.2⟩
  | [s] => ⟨s, [], p.2⟩
  | [] => ⟨[], [], p.2⟩

/-- Aggregated edge list in key insertion order (sankey.js lines 67 to 70). -/
def aggregatedEdges (edges : List Edge) : List Edge :=
  (edgeMap edges).map recoverEdge

/-- Specification-side aggregation step: merge an edge into the
accumulator by its exact (source, target) pair, appending on first
occurrence. -/
def insertMerge (acc : List Edge) (e : Edge) : List Edge :=
  if acc.any (fun a => a.source = e.source ∧ a.target = e.target) then
    acc.map (fun a =>
      if a.source = e.source ∧ a.target = e.target then
        ⟨a.source, a.target, a.value + e.value⟩
      else a)
  else acc ++ [e]

/-- Specification-side aggregator, following the words of the
specification: one edge per distinct (source, target) pair among the
input edges, carrying the sum of their values, listed in order of first
occurrence. -/
def aggregateSpec (edges : List Edge) : List Edge :=
  edges.foldl insertMerge []

/-- Number of aggregated flows out of each node (sankey.js lines 73 to 78). -/
def nodeOutFlowCount (agg : List Edge) : List (Str × Nat) :=
  agg.foldl (fun m e => mset m e.source ((mget m e.source).getD 0 + 1)) []

/-- Number of aggregated flows into each node (sankey.js lines 73 to 78). -/
def nodeInFlowCount (agg : List Edge) : List (Str × Nat) :=
  agg.foldl (fun m e => mset m e.target ((mget m e.target).getD 0 + 1)) []

/-- Source nodes: nodes with no recorded inbound flow or an inbound flow
of zero (sankey.js line 85). -/
def sourceNodes (edges : List Edge) : List Str :=
  (nodeSet edges).filter (fun n => (mget (nodeInFlow edges) n).getD 0 = 0)

/-- State of the breadth-first level-assignment loop of sankey.js
lines 88 to 108: the pending worklist and the level map. -/
structure BfsState where
  queue : List (Str × Nat)
  level : List (Str × Nat)
deriving DecidableEq

/-- Processing of one aggregated edge while the node dequeued at the given
level is handled (sankey.js lines 96 to 107). -/
def stepEdge (node : Str) (lvl : Nat) (s : BfsState) (e : Edge) : BfsState :=
  if e.source = node then
    match mget s.level e.target with
    | some cur =>
      if lvl + 1 > cur then
        ⟨s.queue ++ [(e.target, lvl + 1)], mset s.level e.target (lvl + 1)⟩
      else s
    | none => ⟨s.queue ++ [(e.target, lvl + 1)], mset s.level e.target (lvl + 1)⟩
  else s

/-- One iteration of the while loop at sankey.js lines 92 to 108: shift the
head of the queue and scan every aggregated edge from that node. -/
def bfsStep (agg : List Edge) (st : BfsState) : BfsState :=
  match st.queue with
  | [] => st
  | (node, lvl) :: rest => agg.foldl (stepEdge node lvl) ⟨rest, st.level⟩

/-- Fueled run of the level-assignment loop.  The JavaScript loop has no
bound; none reports that the loop was still running after the given
number of iterations. -/
def bfsRun (agg : List Edge) : Nat → BfsState → Option (List (Str × Nat))
  | fuel, st =>
    if st.queue = [] then some st.level
    else
      match fuel with
      | 0 => none
      | fuel + 1 => bfsRun agg fuel (bfsStep agg st)

/-- Initial loop state: every source node queued at level 0 and recorded in
the level map (sankey.js lines 88 and 89). -/
def bfsInit (edges : List Edge) : BfsState :=
  ⟨(sourceNodes edges).map (fun n => (n, 0)),
   (sourceNodes edges).foldl (fun m n => mset m n 0) []⟩

/-- Default-fill pass of sankey.js lines 110 to 115: any node without an
assigned level gets level 0. -/
def fillLevels (edges : List Edge) (lv : List (Str × Nat)) : List (Str × Nat) :=
  (nodeSet edges).foldl (fun m n =>
    match mget m n with
    | some _ => m
    | none => mset m n 0) lv

/-- Final level of a node after the default-fill pass. -/
def levelOf (edges : List Edge) (lv : List (Str × Nat)) (n : Str) : Nat :=
  (mget (fillLevels edges lv) n).getD 0

/-- Number of levels: one more than the largest assigned level
(sankey.js line 118).  The level map is nonempty whenever edges exist, so
folding the maximum from 0 agrees with the spread maximum. -/
def levelCount (edges : List Edge) (lv : List (Str × Nat)) : Nat :=
  ((fillLevels edges lv).map (fun p => p.2)).foldl max 0 + 1

/-- Nodes grouped by level in node-set order (sankey.js lines 119 to 122). -/
def levelsOf (edges : List Edge) (lv : List (Str × Nat)) : List (List Str) :=
  (List.range (levelCount edges lv)).map (fun i =>
    (nodeSet edges).filter (fun n => levelOf edges lv n = i))

/-- Node throughput: the larger of total inflow and total outflow
(sankey.js lines 147 to 152). -/
def nodeThroughput (edges : List Edge) (n : Str) : ℚ :=
  max ((mget (nodeInFlow edges) n).getD 0) ((mget (nodeOutFlow edges) n).getD 0)

/-- Total throughput per level (sankey.js lines 155 to 157). -/
def levelThroughput (edges : List Edge) (lv : List (Str × Nat)) : List ℚ :=
  (levelsOf edges lv).map (fun L => L.foldl (fun s n => s + nodeThroughput edges n) 0)

/-- Largest level throughput (sankey.js line 158).  Level sums are
nonnegative and the level list nonempty in every reachable use, so the
fold from 0 agrees with the spread maximum. -/
def maxLevelThroughput (edges : List Edge) (lv : List (Str × Nat)) : ℚ :=
  (levelThroughput edges lv).foldl max 0

/-- Configuration knobs of the V1 renderer that the layout core reads. -/
structure Config where
  nodePadding : ℚ := 10

/-- Vertical padding between nodes as a percentage (sankey.js line 163). -/
def paddingPct (cfg : Config) : ℚ := cfg.nodePadding / 400 * 100

/-- Minimum node height in percentage points (sankey.js line 164). -/
def minNodeHeight : ℚ := 2

/-- Minimum gap preventing label overlap (sankey.js line 165). -/
def minGapHeight : ℚ := 4

/-- Base minimum flow height before scaling (sankey.js line 166). -/
def minFlowHeightBase : ℚ := 3 / 2

/-- Node position and size, percentages of the vertical band
(sankey.js line 162). -/
structure Pos where
  top : ℚ
  height : ℚ
  level : Nat
deriving DecidableEq

/-- Position lookup; in the source every lookup hits an assigned entry, the
default only keeps the function total. -/
def pget (m : List (Str × Pos)) (n : Str) : Pos :=
  (mget m n).getD ⟨0, 0, 0⟩

/-- Proportional (pre-floor) node height (sankey.js lines 188 to 194). -/
def rawHeight (edges : List Edge) (lv : List (Str × Nat)) (n : Str) : ℚ :=
  nodeThroughput edges n / maxLevelThroughput edges lv * 100

/-- Minimum height of one node: tall enough for visibility and for all of
its aggregated flows (sankey.js lines 199 to 202). -/
def nodeMinHeight (agg : List Edge) (n : Str) : ℚ :=
  max minNodeHeight
    ((max ((mget (nodeOutFlowCount agg) n).getD 0) ((mget (nodeInFlowCount agg) n).getD 0) : ℚ)
      * minFlowHeightBase)

/-- Node height after the minimum-height floor (sankey.js lines 198 to 206). -/
def flooredHeight (edges : List Edge) (lv : List (Str × Nat)) (n : Str) : ℚ :=
  let h := rawHeight edges lv n
  let nm := nodeMinHeight (aggregatedEdges edges) n
  if h < nm then nm else h

/-- Effective padding of one level: raised to the minimum gap when more
than half of the nodes fall below the minimum height
(sankey.js lines 175 to 184). -/
def effectivePadding (cfg : Config) (edges : List Edge) (lv : List (Str × Nat))
    (L : List Str) : ℚ :=
  let smallNodeCount := (L.filter (fun n => rawHeight edges lv n < minNodeHeight)).length
  if (smallNodeCount : ℚ) > (L.length : ℚ) / 2 then max (paddingPct cfg) minGapHeight
  else paddingPct cfg

/-- Stacking pass of sankey.js lines 208 to 217, assigning tops from the
running offset. -/
def stackLevel (edges : List Edge) (lv : List (Str × Nat)) (li : Nat) (ep : ℚ) :
    List Str → ℚ → List (Str × Pos)
  | [], _ => []
  | n :: ns, top =>
    (n, ⟨top, flooredHeight edges lv n, li⟩)
      :: stackLevel edges lv li ep ns (top + flooredHeight edges lv n + ep)

/-- Running offset after stacking a whole level (the currentTop variable of
sankey.js line 209). -/
def stackEnd (edges : List Edge) (lv : List (Str × Nat)) (ep : ℚ) :
    List Str → ℚ → ℚ
  | [], top => top
  | n :: ns, top => stackEnd edges lv ep ns (top + flooredHeight edges lv n + ep)

/-- Height actually needed by one level: last node bottom, i.e. the running
offset minus the final padding (sankey.js line 220). -/
def levelHeight (cfg : Config) (edges : List Edge) (lv : List (Str × Nat))
    (L : List Str) : ℚ :=
  stackEnd edges lv (effectivePadding cfg edges lv L) L 0 - effectivePadding cfg edges lv L

/-- Node positions before scaling, level by level
(sankey.js lines 171 to 224). -/
def nodePositionSized (cfg : Config) (edges : List Edge) (lv : List (Str × Nat)) :
    List (Str × Pos) :=
  ((levelsOf edges lv).enum).foldl (fun m p =>
    (stackLevel edges lv p.1 (effectivePadding cfg edges lv p.2) p.2 0).foldl
      (fun m2 q => mset m2 q.1 q.2) m) []

/-- Largest height needed across levels, starting from the nominal 100
(sankey.js lines 169 and 219 to 224). -/
def maxLevelHeight (cfg : Config) (edges : List Edge) (lv : List (Str × Nat)) : ℚ :=
  (levelsOf edges lv).foldl (fun acc L =>
    let lh := levelHeight cfg edges lv L
    if lh > acc then lh else acc) 100

/-- Height scale factor (sankey.js line 227). -/
def heightScale (cfg : Config) (edges : List Edge) (lv : List (Str × Nat)) : ℚ :=
  maxLevelHeight cfg edges lv / 100

/-- Positions after the global normalization of sankey.js lines 230 to 235:
when the scale factor exceeds 1 every top and height is divided by it. -/
def nodePositionScaled (cfg : Config) (edges : List Edge) (lv : List (Str × Nat)) :
    List (Str × Pos) :=
  let hs := heightScale cfg edges lv
  if hs > 1 then
    (nodePositionSized cfg edges lv).map (fun p =>
      (p.1, ⟨p.2.top / hs, p.2.height / hs, p.2.level⟩))
  else nodePositionSized cfg edges lv

/-- Vertical centering of one level (sankey.js lines 238 to 257). -/
def centerLevel (L : List Str) (m : List (Str × Pos)) : List (Str × Pos) :=
  if L = [] then m
  else
    let maxBottom := L.foldl (fun mb n => max mb ((pget m n).top + (pget m n).height)) 0
    let off := (100 - maxBottom) / 2
    if off > 0 then
      L.foldl (fun m2 n =>
        let p := pget m2 n
        mset m2 n ⟨p.top + off, p.height, p.level⟩) m
    else m

/-- Final node positions after scaling and per-level centering. -/
def nodePosition (cfg : Config) (edges : List Edge) (lv : List (Str × Nat)) :
    List (Str × Pos) :=
  (levelsOf edges lv).foldl (fun m L => centerLevel L m) (nodePositionScaled cfg edges lv)

/-- Strict comparator order of the edge sort at sankey.js lines 269 to 276:
ascending source level, then ascending target level. -/
def edgeKeyLt (edges : List Edge) (lv : List (Str × Nat)) (a b : Edge) : Bool :=
  decide (levelOf edges lv a.source < levelOf edges lv b.source ∨
    (levelOf edges lv a.source = levelOf edges lv b.source ∧
      levelOf edges lv a.target < levelOf edges lv b.target))

/-- Insertion into a sorted list, placing the new element after every
element strictly below it, so that elements comparing equal keep their
original relative order. -/
def insertByLt {α : Type} (lt : α → α → Bool) (x : α) : List α → List α
  | [] => [x]
  | y :: ys => if lt y x then y :: insertByLt lt x ys else x :: y :: ys

/-- Stable insertion sort.  The ECMAScript sort at sankey.js line 269 is
specified stable, and every stable sort for the same comparator produces
the same list. -/
def isortByLt {α : Type} (lt : α → α → Bool) : List α → List α
  | [] => []
  | x :: xs => insertByLt lt x (isortByLt lt xs)

/-- Aggregated edges in rendering order (sankey.js lines 269 to 276). -/
def sortedAggregatedEdges (edges : List Edge) (lv : List (Str × Nat)) : List Edge :=
  isortByLt (edgeKeyLt edges lv) (aggregatedEdges edges)

/-- Flow geometry (sankey.js lines 279 to 307). -/
structure FlowGeom where
  source : Str
  target : Str
  value : ℚ
  fromLevel : Nat
  fromTop : ℚ
  fromHeight : ℚ
  toLevel : Nat
  toTop : ℚ
  toHeight : ℚ
  index : Nat
deriving DecidableEq

/-- Flow construction loop of sankey.js lines 279 to 307, carrying the
per-node outgoing and incoming offsets. -/
def mkFlowsGo (pos : List (Str × Pos)) (T : Str → ℚ) :
    List Edge → Nat → List (Str × ℚ) → List (Str × ℚ) → List FlowGeom
  | [], _, _, _ => []
  | e :: es, i, outOff, inOff =>
    let sp := pget pos e.source
    let tp := pget pos e.target
    let fh := e.value / T e.source * sp.height
    let th := e.value / T e.target * tp.height
    let so := (mget outOff e.source).getD 0
    let ti := (mget inOff e.target).getD 0
    ⟨e.source, e.target, e.value, sp.level, sp.top + so, fh, tp.level, tp.top + ti, th, i⟩
      :: mkFlowsGo pos T es (i + 1) (mset outOff e.source (so + fh)) (mset inOff e.target (ti + th))

/-- Flows before the minimum-height adjustment passes. -/
def flowsInit (cfg : Config) (edges : List Edge) (lv : List (Str × Nat)) : List FlowGeom :=
  mkFlowsGo (nodePosition cfg edges lv) (nodeThroughput edges)
    (sortedAggregatedEdges edges lv) 0 [] []

/-- Minimum flow height, scaled down when the container grew
(sankey.js line 312). -/
def minFlowHeight (cfg : Config) (edges : List Edge) (lv : List (Str × Nat)) : ℚ :=
  minFlowHeightBase /
    (if heightScale cfg edges lv > 1 then heightScale cfg edges lv else 1)

/-- Tops obtained by restacking the given heights from a starting offset
(sankey.js lines 342 to 347). -/
def stackTops (start : ℚ) : List ℚ → List ℚ
  | [] => []
  | h :: hs => start :: stackTops (start + h) hs

/-- Redistribution of sankey.js lines 315 to 348 on the (height, top) pairs
of the flows at one side of one node.  The nodeHeight parameter is unused,
exactly as in the source. -/
def enforceMinHeights (minFH nodeTop _nodeHeight : ℚ) (fl : List (ℚ × ℚ)) :
    List (ℚ × ℚ) :=
  if fl = [] then fl
  else
    let small := fl.filter (fun f => f.1 < minFH)
    let large := fl.filter (fun f => ¬ f.1 < minFH)
    if small = [] then fl
    else
      let spaceNeeded := (small.map (fun f => minFH - f.1)).sum
      let largeTotal := (large.map (fun f => f.1)).sum
      let newHs :=
        if largeTotal ≤ 0 then
          fl.map (fun f => if f.1 < minFH then minFH else f.1)
        else
          let borrowFrac := min 1 (spaceNeeded / largeTotal)
          fl.map (fun f => if f.1 < minFH then minFH else f.1 * (1 - borrowFrac))
      newHs.zip (stackTops nodeTop newHs)

/-- Distinct flow sources in first-appearance order, modelling the key
order of the flowsBySource map (sankey.js lines 351 to 355). -/
def firstSources (fl : List FlowGeom) : List Str :=
  fl.foldl (fun acc f => insertUnique acc f.source) []

/-- Distinct flow targets in first-appearance order, modelling the key
order of the flowsByTarget map (sankey.js lines 362 to 366). -/
def firstTargets (fl : List FlowGeom) : List Str :=
  fl.foldl (fun acc f => insertUnique acc f.target) []

/-- Write the adjusted (height, top) pairs back into the flows with the
given source, in order, leaving every other flow untouched.  This models
the in-place mutation of the group members. -/
def replaceGroupFrom (n : Str) : List (ℚ × ℚ) → List FlowGeom → List FlowGeom
  | _, [] => []
  | vals, f :: fs =>
    if f.source = n then
      match vals with
      | [] => f :: replaceGroupFrom n [] fs
      | v :: vs => { f with fromHeight := v.1, fromTop := v.2 } :: replaceGroupFrom n vs fs
    else f :: replaceGroupFrom n vals fs

/-- Write the adjusted (height, top) pairs back into the flows with the
given target, in order, leaving every other flow untouched. -/
def replaceGroupTo (n : Str) : List (ℚ × ℚ) → List FlowGeom → List FlowGeom
  | _, [] => []
  | vals, f :: fs =>
    if f.target = n then
      match vals with
      | [] => f :: replaceGroupTo n [] fs
      | v :: vs => { f with toHeight := v.1, toTop := v.2 } :: replaceGroupTo n vs fs
    else f :: replaceGroupTo n vals fs

/-- Source-side adjustment pass of sankey.js lines 350 to 359: for every
node, the fromHeight and fromTop of its outgoing flows are redistributed. -/
def adjustFromPass (minFH : ℚ) (pos : List (Str × Pos)) (fl : List FlowGeom) : List FlowGeom :=
  (firstSources fl).foldl (fun cur n =>
    let group := cur.filter (fun f => f.source = n)
    let adjusted := enforceMinHeights minFH (pget pos n).top (pget pos n).height
      (group.map (fun f => (f.fromHeight, f.fromTop)))
    replaceGroupFrom n adjusted cur) fl

/-- Target-side adjustment pass of sankey.js lines 361 to 370. -/
def adjustToPass (minFH : ℚ) (pos : List (Str × Pos)) (fl : List FlowGeom) : List FlowGeom :=
  (firstTargets fl).foldl (fun cur n =>
    let group := cur.filter (fun f => f.target = n)
    let adjusted := enforceMinHeights minFH (pget pos n).top (pget pos n).height
      (group.map (fun f => (f.toHeight, f.toTop)))
    replaceGroupTo n adjusted cur) fl

/-- Final flow list after both adjustment passes. -/
def flowsFinal (cfg : Config) (edges : List Edge) (lv : List (Str × Nat)) : List FlowGeom :=
  adjustToPass (minFlowHeight cfg edges lv) (nodePosition cfg edges lv)
    (adjustFromPass (minFlowHeight cfg edges lv) (nodePosition cfg edges lv)
      (flowsInit cfg edges lv))

/-- Layout result of a successful render: the node set, the node geometry
and the flow geometry that the markup assembly consumes. -/
structure SankeyLayout where
  nodes : List Str
  position : List (Str × Pos)
  flows : List FlowGeom
deriving DecidableEq

/-- Render outcome: either one of the two placeholder comment strings or a
computed layout. -/
inductive RenderResult
  | comment (s : Str)
  | layout (L : SankeyLayout)
deriving DecidableEq

/-- Placeholder returned at sankey.js line 21. -/
def noDataComment : Str := "<!-- Sankey chart: no data provided -->".toList

/-- Placeholder returned at sankey.js line 57. -/
def noValidEdgesComment : Str := "<!-- Sankey chart: no valid edges -->".toList

/-- Layout pipeline of renderSankey (sankey.js lines 17 to 370), up to the
markup assembly.  The data option models the absent-or-present check at
line 20; the fuel bounds the unbounded level-assignment loop, a some none
result meaning the loop was still running when the fuel ran out. -/
def renderSankey (cfg : Config) (data : Option (List Row)) (fuel : Nat) :
    Except SelfLoopError (Option RenderResult) :=
  match data with
  | none => .ok (some (.comment noDataComment))
  | some rows =>
    if rows = [] then .ok (some (.comment noDataComment))
    else
      match buildEdges rows with
      | .error e => .error e
      | .ok edges =>
        if edges = [] then .ok (some (.comment noValidEdgesComment))
        else
          match bfsRun (aggregatedEdges edges) fuel (bfsInit edges) with
          | none => .ok none
          | some lv =>
            .ok (some (.layout ⟨nodeSet edges, nodePosition cfg edges lv, flowsFinal cfg edges lv⟩))

namespace P5

/-!
Embedding of the variant renderer in src/unnamed/part_005, which extends
the V1 renderer with the proportional configuration flag.  The edge
builder, aggregator, flow-count maps, level assignment, edge sort, flow
construction and both minimum-height adjustment passes are character for
character the same code as in V1 and are shared; only the node sizing
stage and the minimum flow height constant differ.
-/

/-- Base minimum flow height of the variant renderer (part_005 line 167). -/
def minFlowHeightBase : ℚ := 2 / 5

/-- Configuration knobs of the variant renderer that the layout core
reads (part_005 line 19). -/
structure Config where
  nodePadding : ℚ := 10
  proportional : Bool := false

/-- Vertical padding between nodes as a percentage (part_005 line 164). -/
def paddingPct (cfg : Config) : ℚ := cfg.nodePadding / 400 * 100

/-- Smallest proportional node height that the proportional mode keeps
visible (part_005 line 175). -/
def proportionalMinHeight : ℚ := 2 / 5

/-- Smallest raw proportional height across all nodes (part_005 line 178).
The node set is nonempty in every reachable use. -/
def smallestRawHeight (edges : List Edge) (lv : List (Str × Nat)) : ℚ :=
  match nodeSet edges with
  | [] => 0
  | n :: ns => ns.foldl (fun a x => min a (rawHeight edges lv x)) (rawHeight edges lv n)

/-- Uniform scale-up factor of the proportional mode
(part_005 lines 176 to 182). -/
def proportionalScale (cfg : Config) (edges : List Edge) (lv : List (Str × Nat)) : ℚ :=
  if cfg.proportional then
    let s := smallestRawHeight edges lv
    if 0 < s ∧ s < proportionalMinHeight then proportionalMinHeight / s else 1
  else 1

/-- Node height before flooring: proportional height times the uniform
scale factor (part_005 lines 186 to 192). -/
def scaledRawHeight (cfg : Config) (edges : List Edge) (lv : List (Str × Nat))
    (n : Str) : ℚ :=
  rawHeight edges lv n * proportionalScale cfg edges lv

/-- Minimum height of one node in the variant renderer
(part_005 lines 208 to 211), using the variant minimum flow height. -/
def nodeMinHeight (agg : List Edge) (n : Str) : ℚ :=
  max minNodeHeight
    ((max ((mget (nodeOutFlowCount agg) n).getD 0) ((mget (nodeInFlowCount agg) n).getD 0) : ℚ)
      * minFlowHeightBase)

/-- Node height used for stacking: the minimum-height floor applies only
when the proportional flag is off (part_005 lines 196 to 216). -/
def nodeHeightP5 (cfg : Config) (edges : List Edge) (lv : List (Str × Nat))
    (n : Str) : ℚ :=
  let h := scaledRawHeight cfg edges lv n
  if cfg.proportional then h
  else
    let nm := nodeMinHeight (aggregatedEdges edges) n
    if h < nm then nm else h

/-- Effective padding of one level; the widened gap applies only when the
proportional flag is off (part_005 lines 194 to 203). -/
def effectivePadding (cfg : Config) (edges : List Edge) (lv : List (Str × Nat))
    (L : List Str) : ℚ :=
  if cfg.proportional then paddingPct cfg
  else
    let smallNodeCount :=
      (L.filter (fun n => scaledRawHeight cfg edges lv n < minNodeHeight)).length
    if (smallNodeCount : ℚ) > (L.length : ℚ) / 2 then max (paddingPct cfg) minGapHeight
    else paddingPct cfg

/-- Stacking pass of part_005 lines 218 to 227. -/
def stackLevel (cfg : Config) (edges : List Edge) (lv : List (Str × Nat))
    (li : Nat) (ep : ℚ) : List Str → ℚ → List (Str × Pos)
  | [], _ => []
  | n :: ns, top =>
    (n, ⟨top, nodeHeightP5 cfg edges lv n, li⟩)
      :: stackLevel cfg edges lv li ep ns (top + nodeHeightP5 cfg edges lv n + ep)

/-- Running offset after stacking a whole level (part_005 line 219). -/
def stackEnd (cfg : Config) (edges : List Edge) (lv : List (Str × Nat)) (ep : ℚ) :
    List Str → ℚ → ℚ
  | [], top => top
  | n :: ns, top => stackEnd cfg edges lv ep ns (top + nodeHeightP5 cfg edges lv n + ep)

/-- Height actually needed by one level (part_005 line 230). -/
def levelHeight (cfg : Config) (edges : List Edge) (lv : List (Str × Nat))
    (L : List Str) : ℚ :=
  stackEnd cfg edges lv (effectivePadding cfg edges lv L) L 0
    - effectivePadding cfg edges lv L

/-- Node positions before scaling (part_005 lines 184 to 234). -/
def nodePositionSized (cfg : Config) (edges : List Edge) (lv : List (Str × Nat)) :
    List (Str × Pos) :=
  ((levelsOf edges lv).enum).foldl (fun m p =>
    (stackLevel cfg edges lv p.1 (effectivePadding cfg edges lv p.2) p.2 0).foldl
      (fun m2 q => mset m2 q.1 q.2) m) []

/-- Largest height needed across levels (part_005 lines 170 and 229 to 233). -/
def maxLevelHeight (cfg : Config) (edges : List Edge) (lv : List (Str × Nat)) : ℚ :=
  (levelsOf edges lv).foldl (fun acc L =>
    let lh := levelHeight cfg edges lv L
    if lh > acc then lh else acc) 100

/-- Height scale factor (part_005 line 237). -/
def heightScale (cfg : Config) (edges : List Edge) (lv : List (Str × Nat)) : ℚ :=
  maxLevelHeight cfg edges lv / 100

/-- Positions after the global normalization (part_005 lines 240 to 245). -/
def nodePositionScaled (cfg : Config) (edges : List Edge) (lv : List (Str × Nat)) :
    List (Str × Pos) :=
  let hs := heightScale cfg edges lv
  if hs > 1 then
    (nodePositionSized cfg edges lv).map (fun p =>
      (p.1, ⟨p.2.top / hs, p.2.height / hs, p.2.level⟩))
  else nodePositionSized cfg edges lv

/-- Final node positions after scaling and per-level centering
(part_005 lines 248 to 267). -/
def nodePosition (cfg : Config) (edges : List Edge) (lv : List (Str × Nat)) :
    List (Str × Pos) :=
  (levelsOf edges lv).foldl (fun m L => centerLevel L m) (nodePositionScaled cfg edges lv)

/-- Flows before the adjustment passes (part_005 lines 281 to 320).  The
source computes the two taper heights first and the stacking offsets in a
second map; since the heights do not depend on the offsets the combined
single pass yields the same flows. -/
def flowsInit (cfg : Config) (edges : List Edge) (lv : List (Str × Nat)) :
    List FlowGeom :=
  mkFlowsGo (nodePosition cfg edges lv) (nodeThroughput edges)
    (sortedAggregatedEdges edges lv) 0 [] []

/-- Minimum flow height of the variant renderer (part_005 line 325). -/
def minFlowHeight (cfg : Config) (edges : List Edge) (lv : List (Str × Nat)) : ℚ :=
  minFlowHeightBase /
    (if heightScale cfg edges lv > 1 then heightScale cfg edges lv else 1)

/-- Final flow list after both adjustment passes, which are the same code
as in V1 (part_005 lines 322 to 383). -/
def flowsFinal (cfg : Config) (edges : List Edge) (lv : List (Str × Nat)) :
    List FlowGeom :=
  adjustToPass (minFlowHeight cfg edges lv) (nodePosition cfg edges lv)
    (adjustFromPass (minFlowHeight cfg edges lv) (nodePosition cfg edges lv)
      (flowsInit cfg edges lv))

/-- Layout pipeline of the variant renderSankey (part_005 lines 18 to 383),
up to the markup assembly. -/
def renderSankey (cfg : Config) (data : Option (List Row)) (fuel : Nat) :
    Except SelfLoopError (Option RenderResult) :=
  match data with
  | none => .ok (some (.comment noDataComment))
  | some rows =>
    if rows = [] then .ok (some (.comment noDataComment))
    else
      match buildEdges rows with
      | .error e => .error e
      | .ok edges =>
        if edges = [] then .ok (some (.comment noValidEdgesComment))
        else
          match bfsRun (aggregatedEdges edges) fuel (bfsInit edges) with
          | none => .ok none
          | some lv =>
            .ok (some (.layout ⟨nodeSet edges, nodePosition cfg edges lv, flowsFinal cfg edges lv⟩))

end P5

/-- Directed path of a given length through a list of edges: pathLen E u v n
holds when there are n consecutive edges of E leading from u to v. -/
inductive pathLen (E : List Edge) : Str → Str → Nat → Prop
  | refl (u : Str) : pathLen E u u 0
  | step {u v w : Str} {n : Nat} : pathLen E u v n →
      (e : Edge) → e ∈ E → e.source = v → e.target = w → pathLen E u w (n + 1)

/-- Row that reaches the self-loop throw at sankey.js line 46: nonempty
equal trimmed labels and a positive coerced value. -/
def offendingRow (r : Row) : Prop :=
  jsTrim r.source = jsTrim r.target ∧ jsTrim r.source ≠ [] ∧ 0 < rowValue r

instance (r : Row) : Decidable (offendingRow r) := by
  unfold offendingRow; infer_instance

/-- Row discarded by the filter at sankey.js line 43. -/
def droppedRow (r : Row) : Prop :=
  jsTrim r.source = [] ∨ jsTrim r.target = [] ∨ rowValue r ≤ 0

instance (r : Row) : Decidable (droppedRow r) := by
  unfold droppedRow; infer_instance

theorem buildEdgesGo_error_first (rows : List Row) : ∀ (i j : Nat) (r : Row),
    rows[j]? = some r → offendingRow r →
    (∀ (k : Nat) (r2 : Row), k < j → rows[k]? = some r2 → ¬ offendingRow r2) →
    buildEdgesGo i rows = .error ⟨i + j + 2, jsTrim r.source⟩ := by
  induction rows with
  | nil => intro i j r hj; simp at hj
  | cons head tail ih =>
    intro i j r hj hoff hmin
    cases j with
    | zero =>
      simp only [List.getElem?_cons_zero, Option.some.injEq] at hj
      subst hj
      obtain ⟨h1, h2, h3⟩ := hoff
      have hcond : jsTrim head.source ≠ [] ∧ jsTrim head.target ≠ [] ∧ 0 < rowValue head :=
        ⟨h2, by rw [← h1]; exact h2, h3⟩
      simp only [buildEdgesGo, if_pos hcond, if_pos h1, Nat.add_zero]
    | succ j =>
      have hhead : ¬ offendingRow head := hmin 0 head (Nat.succ_pos j) (by simp)
      have hj2 : tail[j]? = some r := by simpa using hj
      have hmin2 : ∀ (k : Nat) (r2 : Row), k < j → tail[k]? = some r2 → ¬ offendingRow r2 := by
        intro k r2 hk hkr
        exact hmin (k + 1) r2 (Nat.succ_lt_succ hk) (by simpa using hkr)
      have ihres := ih (i + 1) j r hj2 hoff hmin2
      have harith : i + 1 + j + 2 = i + (j + 1) + 2 := by omega
      rw [harith] at ihres
      by_cases hc : jsTrim head.source ≠ [] ∧ jsTrim head.target ≠ [] ∧ 0 < rowValue head
      · have hne : ¬ jsTrim head.source = jsTrim head.target := by
          intro he
          exact hhead ⟨he, hc.1, hc.2.2⟩
        simp only [buildEdgesGo, if_pos hc, if_neg hne, ihres]
      · simp only [buildEdgesGo, if_neg hc, ihres]

theorem buildEdgesGo_ok_of_clean (rows : List Row) : ∀ (i : Nat),
    (∀ r ∈ rows, ¬ offendingRow r) →
    ∃ es, buildEdgesGo i rows = .ok es := by
  induction rows with
  | nil => intro i _; exact ⟨[], rfl⟩
  | cons head tail ih =>
    intro i hclean
    have hhead : ¬ offendingRow head := hclean head (by simp)
    obtain ⟨es, hes⟩ := ih (i + 1) (fun r hr => hclean r (by simp [hr]))
    by_cases hc : jsTrim head.source ≠ [] ∧ jsTrim head.target ≠ [] ∧ 0 < rowValue head
    · have hne : ¬ jsTrim head.source = jsTrim head.target := by
        intro he
        exact hhead ⟨he, hc.1, hc.2.2⟩
      refine ⟨⟨jsTrim head.source, jsTrim head.target, rowValue head⟩ :: es, ?_⟩
      simp only [buildEdgesGo, if_pos hc, if_neg hne, hes]
    · refine ⟨es, ?_⟩
      simp only [buildEdgesGo, if_neg hc, hes]

theorem buildEdgesGo_sound (rows : List Row) : ∀ (i : Nat) (es : List Edge),
    buildEdgesGo i rows = .ok es → ∀ e ∈ es,
    (∃ r ∈ rows, e.source = jsTrim r.source ∧ e.target = jsTrim r.target ∧
      e.value = rowValue r) ∧ e.source ≠ e.target ∧ 0 < e.value := by
  induction rows with
  | nil =>
    intro i es hes e he
    simp only [buildEdgesGo] at hes
    cases hes
    simp at he
  | cons head tail ih =>
    intro i es hes e he
    by_cases hc : jsTrim head.source ≠ [] ∧ jsTrim head.target ≠ [] ∧ 0 < rowValue head
    · by_cases hne : jsTrim head.source = jsTrim head.target
      · simp only [buildEdgesGo, if_pos hc, if_pos hne] at hes
        exact absurd hes (by simp)
      · simp only [buildEdgesGo, if_pos hc, if_neg hne] at hes
        cases hrec : buildEdgesGo (i + 1) tail with
        | error err => rw [hrec] at hes; exact absurd hes (by simp)
        | ok rest =>
          rw [hrec] at hes
          have hes2 : (⟨jsTrim head.source, jsTrim head.target, rowValue head⟩ : Edge) :: rest = es := by
            injection hes
          subst hes2
          rcases List.mem_cons.mp he with he | he
          · subst he
            exact ⟨⟨head, by simp, rfl, rfl, rfl⟩, hne, hc.2.2⟩
          · obtain ⟨⟨r, hr, hprop⟩, hprop2⟩ := ih (i + 1) rest hrec e he
            exact ⟨⟨r, by simp [hr], hprop⟩, hprop2⟩
    · simp only [buildEdgesGo, if_neg hc] at hes
      obtain ⟨⟨r, hr, hprop⟩, hprop2⟩ := ih (i + 1) es hes e he
      exact ⟨⟨r, by simp [hr], hprop⟩, hprop2⟩

theorem buildEdgesGo_nil_of_dropped (rows : List Row) : ∀ (i : Nat),
    (∀ r ∈ rows, droppedRow r) → buildEdgesGo i rows = .ok [] := by
  induction rows with
  | nil => intro i _; rfl
  | cons head tail ih =>
    intro i hdrop
    have hhead : droppedRow head := hdrop head (by simp)
    have hc : ¬ (jsTrim head.source ≠ [] ∧ jsTrim head.target ≠ [] ∧ 0 < rowValue head) := by
      rcases hhead with h | h | h
      · exact fun hc => hc.1 h
      · exact fun hc => hc.2.1 h
      · exact fun hc => absurd hc.2.2 (not_lt.mpr h)
    simp only [buildEdgesGo, if_neg hc]
    exact ih (i + 1) (fun r hr => hdrop r (by simp [hr]))

/-- C1 (amended): a row whose trimmed source equals its trimmed target
triggers the structural error, citing the 0-based row index plus 2 (its
1-based position including the header offset) and the offending label,
only when the label is nonempty and the coerced value positive; the first
such row determines the error.  Without any such row the renderer never
throws, and rows with source equal to target that fail the filter (value
at most 0, or empty labels) are silently dropped: no retained edge is a
self-loop. -/
theorem c1_selfLoopRejection :
    (∀ (cfg : Config) (data : List Row) (fuel j : Nat) (r : Row),
      data[j]? = some r → offendingRow r →
      (∀ (k : Nat) (r2 : Row), k < j → data[k]? = some r2 → ¬ offendingRow r2) →
      renderSankey cfg (some data) fuel = .error ⟨j + 2, jsTrim r.source⟩) ∧
    (∀ (cfg : Config) (data : List Row) (fuel : Nat),
      (∀ r ∈ data, ¬ offendingRow r) →
      ∃ res, renderSankey cfg (some data) fuel = .ok res) ∧
    (∀ (data : List Row) (es : List Edge), buildEdges data = .ok es →
      ∀ e ∈ es, e.source ≠ e.target ∧ 0 < e.value) := by
  refine ⟨?_, ?_, ?_⟩
  · intro cfg data fuel j r hj hoff hmin
    have hdata : data ≠ [] := by
      intro h
      rw [h] at hj
      simp at hj
    have herr : buildEdges data = .error ⟨j + 2, jsTrim r.source⟩ := by
      have := buildEdgesGo_error_first data 0 j r hj hoff hmin
      simpa [buildEdges] using this
    simp only [renderSankey, if_neg hdata, herr]
  · intro cfg data fuel hclean
    by_cases hdata : data = []
    · exact ⟨some (.comment noDataComment), by simp [renderSankey, hdata]⟩
    · obtain ⟨es, hes⟩ := buildEdgesGo_ok_of_clean data 0 hclean
      have hes2 : buildEdges data = .ok es := hes
      by_cases hnil : es = []
      · exact ⟨some (.comment noValidEdgesComment), by
          simp [renderSankey, if_neg hdata, hes2, hnil]⟩
      · cases hrun : bfsRun (aggregatedEdges es) fuel (bfsInit es) with
        | none => exact ⟨none, by simp [renderSankey, if_neg hdata, hes2, if_neg hnil, hrun]⟩
        | some lv =>
          exact ⟨some (.layout ⟨nodeSet es, nodePosition cfg es lv, flowsFinal cfg es lv⟩), by
            simp [renderSankey, if_neg hdata, hes2, if_neg hnil, hrun]⟩
  · intro data es hes e he
    exact (buildEdgesGo_sound data 0 es hes e he).2

/-- Witness for C1: on the table whose second row has source and target
both trimming to the label x with value 3, the renderer fails citing row
1 + 2 and that label. -/
theorem c1_selfLoopRejection_witness :
    renderSankey {} (some [⟨"A".toList, "B".toList, some 5⟩,
      ⟨" x ".toList, "x".toList, some 3⟩]) 5
      = .error ⟨1 + 2, jsTrim " x ".toList⟩ :=
  c1_selfLoopRejection.1 {} _ 5 1 ⟨" x ".toList, "x".toList, some 3⟩ rfl
    (by constructor <;> [decide; constructor <;> [decide; norm_num [rowValue]]])
    (by
      intro k r2 hk hkr
      interval_cases k
      simp only [List.getElem?_cons_zero, Option.some.injEq] at hkr
      subst hkr
      intro hoff
      exact absurd hoff.1 (by decide))

/-- Counterexample for C1 as stated: a row whose source and target both
trim to the empty string with positive value 5 has source equal to target
after trimming, yet the renderer does not fail; the row is dropped and
the empty-graph placeholder returned. -/
def rowsC1cex : List Row := [⟨" ".toList, "  ".toList, some 5⟩]

theorem c1_selfLoopRejection_cex :
    jsTrim " ".toList = jsTrim "  ".toList ∧ 0 < rowValue ⟨" ".toList, "  ".toList, some 5⟩ ∧
    renderSankey {} (some rowsC1cex) 5
      = .ok (some (.comment noValidEdgesComment)) := by
  refine ⟨by decide, by norm_num [rowValue], ?_⟩
  have h : buildEdges rowsC1cex = .ok [] := by
    apply buildEdgesGo_nil_of_dropped
    intro r hr
    simp only [rowsC1cex, List.mem_singleton] at hr
    subst hr
    exact Or.inl (by decide)
  have hne : rowsC1cex ≠ [] := by decide
  simp only [renderSankey, if_neg hne, h]
  simp

/-- C8: with absent data, an empty table, or a table whose rows all fail
the filter (empty trimmed source or target, or coerced value at most 0,
non-numeric values coercing to 0), the renderer returns one of the two
placeholder comments: no exception and no layout. -/
theorem c8_emptyInput (cfg : Config) (data : Option (List Row)) (fuel : Nat)
    (h : data = none ∨ data = some [] ∨
      ∃ rows, data = some rows ∧ ∀ r ∈ rows, droppedRow r) :
    renderSankey cfg data fuel = .ok (some (.comment noDataComment)) ∨
    renderSankey cfg data fuel = .ok (some (.comment noValidEdgesComment)) := by
  rcases h with h | h | ⟨rows, hrows, hdrop⟩
  · exact Or.inl (by simp [renderSankey, h])
  · exact Or.inl (by simp [renderSankey, h])
  · subst hrows
    by_cases hnil : rows = []
    · exact Or.inl (by simp [renderSankey, hnil])
    · have h0 : buildEdges rows = .ok [] := buildEdgesGo_nil_of_dropped rows 0 hdrop
      exact Or.inr (by simp [renderSankey, if_neg hnil, h0])

/-- Witness for C8: a table with a zero-value row, an empty-source row and
a non-numeric-value row renders as the no-valid-edges placeholder. -/
theorem c8_emptyInput_witness :
    renderSankey {} (some [⟨"A".toList, "B".toList, some 0⟩,
      ⟨"".toList, "C".toList, some 5⟩, ⟨"D".toList, "E".toList, none⟩]) 7
      = .ok (some (.comment noDataComment)) ∨
    renderSankey {} (some [⟨"A".toList, "B".toList, some 0⟩,
      ⟨"".toList, "C".toList, some 5⟩, ⟨"D".toList, "E".toList, none⟩]) 7
      = .ok (some (.comment noValidEdgesComment)) := by
  apply c8_emptyInput
  refine Or.inr (Or.inr ⟨_, rfl, ?_⟩)
  intro r hr
  simp only [List.mem_cons, List.mem_singleton] at hr
  rcases hr with hr | hr | hr | hr
  · subst hr; exact Or.inr (Or.inr (by norm_num [rowValue]))
  · subst hr; exact Or.inl (by decide)
  · subst hr; exact Or.inr (Or.inr (by norm_num [rowValue]))
  · simp at hr

theorem splitCC_ne_nil : (s : Str) → splitCC s ≠ []
  | [] => by simp [splitCC]
  | [c] => by simp [splitCC]
  | c1 :: c2 :: rest => by
    by_cases h : c1 = ':' ∧ c2 = ':'
    · simp [splitCC, h]
    · simp only [splitCC, if_neg h]
      cases hrec : splitCC (c2 :: rest) with
      | nil => exact absurd hrec (splitCC_ne_nil (c2 :: rest))
      | cons seg more => simp

theorem splitCC_of_noCC : (t : Str) → hasCC t = false → splitCC t = [t]
  | [], _ => by simp [splitCC]
  | [c], _ => by simp [splitCC]
  | c1 :: c2 :: rest, h => by
    have h1 : ¬ (c1 = ':' ∧ c2 = ':') := by
      intro hand
      simp [hasCC, hand.1, hand.2] at h
    have h2 : hasCC (c2 :: rest) = false := by
      simp only [hasCC, Bool.or_eq_false_iff] at h
      exact h.2
    have ih := splitCC_of_noCC (c2 :: rest) h2
    simp only [splitCC, if_neg h1, ih]

theorem splitCC_key : (s : Str) → hasCC s = false → endsColon s = false → (t : Str) →
    splitCC (s ++ ':' :: ':' :: t) = s :: splitCC t
  | [], _, _, t => by
    cases t with
    | nil => simp [splitCC]
    | cons c rest => simp [splitCC]
  | [c], _, hec, t => by
    have hc : ¬ c = ':' := by simpa [endsColon] using hec
    simp [splitCC, hc]
  | c1 :: c2 :: s2, hcc, hec, t => by
    have h1 : ¬ (c1 = ':' ∧ c2 = ':') := by
      intro hand
      simp [hasCC, hand.1, hand.2] at hcc
    have h2 : hasCC (c2 :: s2) = false := by
      simp only [hasCC, Bool.or_eq_false_iff] at hcc
      exact hcc.2
    have h3 : endsColon (c2 :: s2) = false := by
      cases s2 with
      | nil => simpa [endsColon] using hec
      | cons d ds => simpa [endsColon] using hec
    have ih := splitCC_key (c2 :: s2) h2 h3 t
    simp only [List.cons_append] at ih ⊢
    simp only [splitCC, if_neg h1, ih]

/-- Edge whose labels survive the aggregation key round trip: no label
contains the two-colon separator and the source does not end in a colon. -/
def GoodEdge (e : Edge) : Prop :=
  hasCC e.source = false ∧ endsColon e.source = false ∧ hasCC e.target = false

instance (e : Edge) : Decidable (GoodEdge e) := by
  unfold GoodEdge; infer_instance

theorem recoverEdge_keyOf (s t : Str) (v : ℚ) (hs : hasCC s = false)
    (hes : endsColon s = false) (ht : hasCC t = false) :
    recoverEdge (keyOf s t, v) = ⟨s, t, v⟩ := by
  unfold recoverEdge keyOf
  rw [show splitCC (s ++ ':' :: ':' :: t) = s :: splitCC t from splitCC_key s hs hes t,
    splitCC_of_noCC t ht]

theorem keyOf_inj {s1 t1 s2 t2 : Str} (hs1 : hasCC s1 = false) (he1 : endsColon s1 = false)
    (ht1 : hasCC t1 = false) (hs2 : hasCC s2 = false) (he2 : endsColon s2 = false)
    (ht2 : hasCC t2 = false) (h : keyOf s1 t1 = keyOf s2 t2) : s1 = s2 ∧ t1 = t2 := by
  have e1 := splitCC_key s1 hs1 he1 t1
  have e2 := splitCC_key s2 hs2 he2 t2
  rw [splitCC_of_noCC t1 ht1] at e1
  rw [splitCC_of_noCC t2 ht2] at e2
  have hsplit : splitCC (keyOf s1 t1) = splitCC (keyOf s2 t2) := by rw [h]
  unfold keyOf at hsplit
  rw [e1, e2] at hsplit
  exact ⟨by injection hsplit, by
    have := (List.cons.injEq _ _ _ _).mp hsplit
    injection this.2⟩

/-- Keys of an already aggregated accumulator, as the aggregation map
stores it. -/
def keyedAcc (acc : List Edge) : List (Str × ℚ) :=
  acc.map (fun a => (keyOf a.source a.target, a.value))

/-- Source and target pairs of an edge list. -/
def pairsOf (l : List Edge) : List (Str × Str) :=
  l.map (fun a => (a.source, a.target))

theorem insertMerge_cons_of_ne (a : Edge) (acc : List Edge) (e : Edge)
    (h : ¬ (a.source = e.source ∧ a.target = e.target)) :
    insertMerge (a :: acc) e = a :: insertMerge acc e := by
  unfold insertMerge
  rw [List.any_cons]
  rw [show (decide (a.source = e.source ∧ a.target = e.target)) = false from by simpa using h]
  rw [Bool.false_or]
  by_cases hany : acc.any (fun b => b.source = e.source ∧ b.target = e.target) = true
  · rw [if_pos hany, if_pos hany, List.map_cons, if_neg h]
  · rw [if_neg hany, if_neg hany, List.cons_append]

theorem insertMerge_good (acc : List Edge) (e : Edge)
    (hgood : ∀ a ∈ acc, GoodEdge a) (hge : GoodEdge e) :
    ∀ a ∈ insertMerge acc e, GoodEdge a := by
  intro a ha
  unfold insertMerge at ha
  by_cases hany : acc.any (fun b => b.source = e.source ∧ b.target = e.target)
  · rw [if_pos hany] at ha
    obtain ⟨b, hb, hba⟩ := List.mem_map.mp ha
    by_cases hmatch : b.source = e.source ∧ b.target = e.target
    · rw [if_pos hmatch] at hba
      have := hgood b hb
      rw [← hba]
      exact ⟨this.1, this.2.1, this.2.2⟩
    · rw [if_neg hmatch] at hba
      rw [← hba]
      exact hgood b hb
  · rw [if_neg hany] at ha
    rcases List.mem_append.mp ha with ha | ha
    · exact hgood a ha
    · simp only [List.mem_singleton] at ha
      subst ha
      exact hge

theorem insertMerge_pairsNodup (acc : List Edge) (e : Edge)
    (hnd : (pairsOf acc).Nodup) : (pairsOf (insertMerge acc e)).Nodup := by
  unfold insertMerge
  by_cases hany : acc.any (fun b => b.source = e.source ∧ b.target = e.target)
  · rw [if_pos hany]
    have hpairs : pairsOf (acc.map (fun a =>
        if a.source = e.source ∧ a.target = e.target then
          ⟨a.source, a.target, a.value + e.value⟩
        else a)) = pairsOf acc := by
      unfold pairsOf
      rw [List.map_map]
      apply List.map_congr_left
      intro a _
      by_cases hmatch : a.source = e.source ∧ a.target = e.target
      · simp [hmatch]
      · simp [hmatch]
    rw [hpairs]
    exact hnd
  · rw [if_neg hany]
    unfold pairsOf
    rw [List.map_append]
    simp only [List.map_cons, List.map_nil]
    apply List.Nodup.append hnd (by simp)
    intro p hp hq
    simp only [List.mem_singleton] at hq
    subst hq
    obtain ⟨a, ha, hpa⟩ := List.mem_map.mp hp
    apply hany
    rw [List.any_eq_true]
    refine ⟨a, ha, ?_⟩
    simp only [decide_eq_true_eq]
    exact ⟨by rw [show a.source = (a.source, a.target).1 from rfl, hpa], by
      rw [show a.target = (a.source, a.target).2 from rfl, hpa]⟩

theorem keyedAcc_set (e : Edge) : ∀ (acc : List Edge),
    (∀ a ∈ acc, GoodEdge a) → GoodEdge e → (pairsOf acc).Nodup →
    mset (keyedAcc acc) (keyOf e.source e.target)
      ((mget (keyedAcc acc) (keyOf e.source e.target)).getD 0 + e.value)
      = keyedAcc (insertMerge acc e) := by
  intro acc
  induction acc with
  | nil =>
    intro _ _ _
    simp [keyedAcc, mget, mset, insertMerge, zero_add]
  | cons a acc2 ih =>
    intro hgood hge hnd
    have hga : GoodEdge a := hgood a (by simp)
    have hnd0 : ((a.source, a.target) ∉ pairsOf acc2) ∧ (pairsOf acc2).Nodup := by
      unfold pairsOf at hnd
      simpa [pairsOf, List.nodup_cons] using hnd
    by_cases hmatch : a.source = e.source ∧ a.target = e.target
    · have hkey : keyOf a.source a.target = keyOf e.source e.target := by
        rw [hmatch.1, hmatch.2]
      have hany : (a :: acc2).any (fun b => b.source = e.source ∧ b.target = e.target) = true := by
        rw [List.any_eq_true]
        exact ⟨a, by simp, by simpa using hmatch⟩
      have htail : acc2.map (fun b =>
          if b.source = e.source ∧ b.target = e.target then
            (⟨b.source, b.target, b.value + e.value⟩ : Edge)
          else b) = acc2 := by
        conv_rhs => rw [← List.map_id acc2]
        apply List.map_congr_left
        intro b hb
        have hne : ¬ (b.source = e.source ∧ b.target = e.target) := by
          intro hbe
          apply hnd0.1
          have heq : (b.source, b.target) = (a.source, a.target) := by
            rw [hbe.1, hbe.2, hmatch.1, hmatch.2]
          rw [← heq]
          exact List.mem_map.mpr ⟨b, hb, rfl⟩
        rw [if_neg hne, id_eq]
      have hL : keyedAcc (a :: acc2) = (keyOf a.source a.target, a.value) :: keyedAcc acc2 := rfl
      have hR : insertMerge (a :: acc2) e =
          (⟨a.source, a.target, a.value + e.value⟩ : Edge) :: acc2 := by
        unfold insertMerge
        rw [if_pos hany, List.map_cons, if_pos hmatch, htail]
      rw [hL, mget_cons, mset_cons, if_pos hkey, if_pos hkey, Option.getD_some, hR]
      rw [show keyedAcc ((⟨a.source, a.target, a.value + e.value⟩ : Edge) :: acc2)
          = (keyOf a.source a.target, a.value + e.value) :: keyedAcc acc2 from rfl, hkey]
    · have hkeyne : ¬ keyOf a.source a.target = keyOf e.source e.target := by
        intro hk
        exact hmatch (keyOf_inj hga.1 hga.2.1 hga.2.2 hge.1 hge.2.1 hge.2.2 hk)
      have ihres := ih (fun b hb => hgood b (by simp [hb])) hge hnd0.2
      rw [insertMerge_cons_of_ne a acc2 e hmatch]
      have hL : keyedAcc (a :: acc2) = (keyOf a.source a.target, a.value) :: keyedAcc acc2 := rfl
      have hR : keyedAcc (a :: insertMerge acc2 e)
          = (keyOf a.source a.target, a.value) :: keyedAcc (insertMerge acc2 e) := rfl
      rw [hL, hR, mget_cons, mset_cons, if_neg hkeyne, if_neg hkeyne, ihres]

theorem foldl_edgeMap_spec (edges : List Edge) : ∀ (acc : List Edge),
    (∀ e ∈ edges, GoodEdge e) → (∀ a ∈ acc, GoodEdge a) → (pairsOf acc).Nodup →
    edges.foldl (fun m e =>
      let k := keyOf e.source e.target
      mset m k ((mget m k).getD 0 + e.value)) (keyedAcc acc)
      = keyedAcc (edges.foldl insertMerge acc) := by
  induction edges with
  | nil => intro acc _ _ _; rfl
  | cons e rest ih =>
    intro acc hgood hacc hnd
    have hge : GoodEdge e := hgood e (by simp)
    simp only [List.foldl_cons]
    rw [keyedAcc_set e acc hacc hge hnd]
    exact ih (insertMerge acc e) (fun x hx => hgood x (by simp [hx]))
      (insertMerge_good acc e hacc hge) (insertMerge_pairsNodup acc e hnd)

theorem aggregateSpec_good (edges : List Edge) (hgood : ∀ e ∈ edges, GoodEdge e) :
    ∀ a ∈ aggregateSpec edges, GoodEdge a := by
  unfold aggregateSpec
  have h : ∀ (l : List Edge) (acc : List Edge), (∀ e ∈ l, GoodEdge e) →
      (∀ a ∈ acc, GoodEdge a) → ∀ a ∈ l.foldl insertMerge acc, GoodEdge a := by
    intro l
    induction l with
    | nil => intro acc _ hacc; exact hacc
    | cons e rest ih =>
      intro acc hl hacc
      simp only [List.foldl_cons]
      exact ih (insertMerge acc e) (fun x hx => hl x (by simp [hx]))
        (insertMerge_good acc e hacc (hl e (by simp)))
  exact h edges [] hgood (by simp)

theorem aggregateSpec_pairsNodup (edges : List Edge) :
    (pairsOf (aggregateSpec edges)).Nodup := by
  unfold aggregateSpec
  have h : ∀ (l : List Edge) (acc : List Edge), (pairsOf acc).Nodup →
      (pairsOf (l.foldl insertMerge acc)).Nodup := by
    intro l
    induction l with
    | nil => intro acc hacc; exact hacc
    | cons e rest ih =>
      intro acc hacc
      simp only [List.foldl_cons]
      exact ih (insertMerge acc e) (insertMerge_pairsNodup acc e hacc)
  exact h edges [] (by simp [pairsOf])

/-- Aggregating an edge list whose labels are benign equals the
specification-side aggregation. -/
theorem aggregatedEdges_eq_spec (edges : List Edge)
    (hgood : ∀ e ∈ edges, GoodEdge e) :
    aggregatedEdges edges = aggregateSpec edges := by
  have h := foldl_edgeMap_spec edges [] hgood (by simp) (by simp [pairsOf])
  have hkey : edgeMap edges = keyedAcc (aggregateSpec edges) := by
    unfold edgeMap aggregateSpec
    exact h
  unfold aggregatedEdges
  rw [hkey]
  unfold keyedAcc
  rw [List.map_map]
  have hcongr : ∀ a ∈ aggregateSpec edges,
      (recoverEdge ∘ fun a => (keyOf a.source a.target, a.value)) a = id a := by
    intro a ha
    have hga := aggregateSpec_good edges hgood a ha
    simp only [Function.comp_apply, id_eq]
    have hrec := recoverEdge_keyOf a.source a.target a.value hga.1 hga.2.1 hga.2.2
    rw [hrec]
  rw [List.map_congr_left hcongr, List.map_id]

theorem aggregateSpec_fixed (l : List Edge) (hnd : (pairsOf l).Nodup) :
    aggregateSpec l = l := by
  unfold aggregateSpec
  have h : ∀ (rest acc : List Edge), (pairsOf (acc ++ rest)).Nodup →
      rest.foldl insertMerge acc = acc ++ rest := by
    intro rest
    induction rest with
    | nil => intro acc _; simp
    | cons e rest2 ih =>
      intro acc hnd2
      have hsplit : (pairsOf acc ++ pairsOf (e :: rest2)).Nodup := by
        unfold pairsOf
        rw [← List.map_append]
        exact hnd2
      have hany : ¬ acc.any (fun b => b.source = e.source ∧ b.target = e.target) = true := by
        intro hany
        obtain ⟨b, hb, hbe⟩ := List.any_eq_true.mp hany
        simp only [decide_eq_true_eq] at hbe
        have hmem1 : (e.source, e.target) ∈ pairsOf acc := by
          rw [← hbe.1, ← hbe.2]
          exact List.mem_map.mpr ⟨b, hb, rfl⟩
        have hmem2 : (e.source, e.target) ∈ pairsOf (e :: rest2) :=
          List.mem_map.mpr ⟨e, by simp, rfl⟩
        have hd := List.nodup_append.mp hsplit
        exact hd.2.2 hmem1 hmem2
      have hins : insertMerge acc e = acc ++ [e] := by
        unfold insertMerge
        rw [if_neg hany]
      simp only [List.foldl_cons, hins]
      rw [ih (acc ++ [e]) (by simpa using hnd2)]
      simp
  have hres := h l [] (by simpa using hnd)
  simpa using hres

/-- C9 (amended): the aggregator is idempotent on every edge list whose
labels are benign for the key encoding: no source or target label
contains the two-colon separator and no source label ends with a colon.
On such lists aggregating an already aggregated list is the identity. -/
theorem c9_aggregationIdempotence (edges : List Edge)
    (hgood : ∀ e ∈ edges, GoodEdge e) :
    aggregatedEdges (aggregatedEdges edges) = aggregatedEdges edges := by
  rw [aggregatedEdges_eq_spec edges hgood,
    aggregatedEdges_eq_spec (aggregateSpec edges) (aggregateSpec_good edges hgood),
    aggregateSpec_fixed (aggregateSpec edges) (aggregateSpec_pairsNodup edges)]

def edgesC9w : List Edge :=
  [⟨"A".toList, "B".toList, 3⟩, ⟨"A".toList, "B".toList, 7⟩]

/-- Witness for C9 on the duplicate-edge list of the specification
scenario with values 3 and 7. -/
theorem c9_aggregationIdempotence_witness :
    (∀ e ∈ edgesC9w, GoodEdge e) ∧
    aggregatedEdges (aggregatedEdges edgesC9w) = aggregatedEdges edgesC9w :=
  ⟨by decide, c9_aggregationIdempotence edgesC9w (by decide)⟩

def edgesC9cex : List Edge :=
  [⟨"a::x".toList, "b".toList, 1⟩, ⟨"a".toList, "x".toList, 1⟩]

/-- Counterexample for C9 as stated: on an edge list with a label
containing the two-colon separator, the two distinct keys both recover to
the pair (a, x), so the first aggregation yields two edges with the same
pair and the second aggregation merges them: aggregation is not
idempotent on every input edge list. -/
theorem c9_aggregationIdempotence_cex :
    aggregatedEdges (aggregatedEdges edgesC9cex) ≠ aggregatedEdges edgesC9cex := by
  intro h
  have h2 := congrArg List.length h
  simp [aggregatedEdges, edgeMap, edgesC9cex, keyOf, recoverEdge, mget, mset, splitCC] at h2

/-- Row whose trimmed labels are benign for the aggregation key. -/
def GoodRow (r : Row) : Prop :=
  hasCC (jsTrim r.source) = false ∧ endsColon (jsTrim r.source) = false ∧
    hasCC (jsTrim r.target) = false

instance (r : Row) : Decidable (GoodRow r) := by
  unfold GoodRow; infer_instance

theorem buildEdges_goodEdges (data : List Row) (es : List Edge)
    (hok : buildEdges data = .ok es) (hrows : ∀ r ∈ data, GoodRow r) :
    ∀ e ∈ es, GoodEdge e := by
  intro e he
  obtain ⟨⟨r, hr, h1, h2, _⟩, _, _⟩ := buildEdgesGo_sound data 0 es hok e he
  have hgr := hrows r hr
  exact ⟨by rw [h1]; exact hgr.1, by rw [h1]; exact hgr.2.1, by rw [h2]; exact hgr.2.2⟩

/-- C10 (amended): for a table whose retained trimmed labels contain no
two-colon separator and whose trimmed source labels do not end with a
colon, the aggregated edge list is exactly the specification-side
aggregation: one edge per distinct (source, target) pair, carrying the
sum of the retained values, in order of first occurrence. -/
theorem c10_aggregationKeyed (data : List Row) (es : List Edge)
    (hok : buildEdges data = .ok es) (hrows : ∀ r ∈ data, GoodRow r) :
    aggregatedEdges es = aggregateSpec es :=
  aggregatedEdges_eq_spec es (buildEdges_goodEdges data es hok hrows)

def rowsC10w : List Row :=
  [⟨"A".toList, "B".toList, some 3⟩, ⟨"A".toList, "B".toList, some 7⟩,
   ⟨"A".toList, "C".toList, some 5⟩]

def edgesC10w : List Edge :=
  [⟨"A".toList, "B".toList, 3⟩, ⟨"A".toList, "B".toList, 7⟩,
   ⟨"A".toList, "C".toList, 5⟩]

/-- Witness for C10 on a table with one duplicated pair. -/
theorem c10_aggregationKeyed_witness :
    buildEdges rowsC10w = .ok edgesC10w ∧ (∀ r ∈ rowsC10w, GoodRow r) ∧
    aggregatedEdges edgesC10w = aggregateSpec edgesC10w :=
  ⟨by decide, by decide, c10_aggregationKeyed rowsC10w edgesC10w (by decide) (by decide)⟩

def rowsC10cex : List Row := [⟨"a:".toList, "b".toList, some 5⟩]

def edgesC10cex : List Edge := [⟨"a:".toList, "b".toList, 5⟩]

/-- Counterexample for C10 as stated: the single retained row has labels
free of the two-colon substring, yet because the source label ends with a
colon the key splits one position early and the aggregated list holds the
pair (a, :b) instead of (a:, b): the claimed conclusion fails although
the claimed precondition holds. -/
theorem c10_aggregationKeyed_cex :
    (∀ r ∈ rowsC10cex, hasCC (jsTrim r.source) = false ∧ hasCC (jsTrim r.target) = false) ∧
    buildEdges rowsC10cex = .ok edgesC10cex ∧
    aggregatedEdges edgesC10cex ≠ aggregateSpec edgesC10cex := by
  refine ⟨by decide, by decide, ?_⟩
  intro h
  have h2 := congrArg (fun l => l.map Edge.source) h
  simp [aggregatedEdges, aggregateSpec, insertMerge, edgeMap, edgesC10cex, keyOf,
    recoverEdge, mget, mset, splitCC] at h2

def nS : Str := "S".toList
def nA : Str := "A".toList
def nB : Str := "B".toList

def rowsC2 : List Row :=
  [⟨"S".toList, "A".toList, some 1⟩, ⟨"A".toList, "B".toList, some 1⟩,
   ⟨"B".toList, "A".toList, some 1⟩]

def edgesC2 : List Edge :=
  [⟨"S".toList, "A".toList, 1⟩, ⟨"A".toList, "B".toList, 1⟩, ⟨"B".toList, "A".toList, 1⟩]

/-- Aggregated cyclic graph with a source feeding a two-cycle, with the
edge values kept abstract. -/
def cyc3 (q1 q2 q3 : ℚ) : List Edge := [⟨nS, nA, q1⟩, ⟨nA, nB, q2⟩, ⟨nB, nA, q3⟩]

/-- Loop state with the worklist holding node A at level a. -/
def stA (a b : Nat) : BfsState := ⟨[(nA, a)], [(nS, 0), (nA, a), (nB, b)]⟩

/-- Loop state with the worklist holding node B at level b. -/
def stB (a b : Nat) : BfsState := ⟨[(nB, b)], [(nS, 0), (nA, a), (nB, b)]⟩

theorem bfsRun_eq (agg : List Edge) (fuel : Nat) (st : BfsState) :
    bfsRun agg fuel st = if st.queue = [] then some st.level
      else match fuel with
        | 0 => none
        | fuel + 1 => bfsRun agg fuel (bfsStep agg st) := by
  rw [bfsRun.eq_def]

theorem bfsRun_zero_stuck (agg : List Edge) (st : BfsState) (h : st.queue ≠ []) :
    bfsRun agg 0 st = none := by
  rw [bfsRun_eq, if_neg h]

theorem bfsRun_succ_step (agg : List Edge) (fuel : Nat) (st : BfsState)
    (h : st.queue ≠ []) :
    bfsRun agg (fuel + 1) st = bfsRun agg fuel (bfsStep agg st) := by
  rw [bfsRun_eq, if_neg h]

theorem cyc3_stepA (q1 q2 q3 : ℚ) (a b : Nat) (h : b ≤ a) :
    bfsStep (cyc3 q1 q2 q3) (stA a b) = stB a (a + 1) := by
  have hba : a + 1 > b := Nat.lt_succ_of_le h
  simp [bfsStep, stA, stB, cyc3, stepEdge, mget, mset, nS, nA, nB, hba]

theorem cyc3_stepB (q1 q2 q3 : ℚ) (a b : Nat) (h : a ≤ b) :
    bfsStep (cyc3 q1 q2 q3) (stB a b) = stA (b + 1) b := by
  have hab : b + 1 > a := Nat.lt_succ_of_le h
  simp [bfsStep, stA, stB, cyc3, stepEdge, mget, mset, nS, nA, nB, hab]

theorem cyc3_run_none (q1 q2 q3 : ℚ) : ∀ (fuel : Nat),
    (∀ a b, b ≤ a → bfsRun (cyc3 q1 q2 q3) fuel (stA a b) = none) ∧
    (∀ a b, a ≤ b → bfsRun (cyc3 q1 q2 q3) fuel (stB a b) = none) := by
  intro fuel
  induction fuel with
  | zero =>
    constructor
    · intro a b _
      exact bfsRun_zero_stuck _ _ (by simp [stA])
    · intro a b _
      exact bfsRun_zero_stuck _ _ (by simp [stB])
  | succ f ih =>
    constructor
    · intro a b h
      rw [bfsRun_succ_step _ _ _ (by simp [stA]), cyc3_stepA q1 q2 q3 a b h]
      exact ih.2 a (a + 1) (Nat.le_succ a)
    · intro a b h
      rw [bfsRun_succ_step _ _ _ (by simp [stB]), cyc3_stepB q1 q2 q3 a b h]
      exact ih.1 (b + 1) b (Nat.le_succ b)

theorem edgesC2_agg : aggregatedEdges edgesC2 = cyc3 1 1 1 := by
  simp [aggregatedEdges, edgeMap, edgesC2, keyOf, mget, mset, recoverEdge, splitCC,
    cyc3, nS, nA, nB]

theorem edgesC2_init : bfsInit edgesC2 = ⟨[(nS, 0)], [(nS, 0)]⟩ := by
  have h1 : nodeInFlow edgesC2 = [(nA, 2), (nB, 1)] := by
    simp [nodeInFlow, edgesC2, mget, mset, nA, nB]
    norm_num
  have h2 : sourceNodes edgesC2 = [nS] := by
    simp [sourceNodes, nodeSet, insertUnique, edgesC2, h1, mget, nS, nA, nB]
  simp [bfsInit, h2, mset]

theorem cyc3_steps01 (q1 q2 q3 : ℚ) :
    bfsStep (cyc3 q1 q2 q3) (bfsStep (cyc3 q1 q2 q3) ⟨[(nS, 0)], [(nS, 0)]⟩) = stB 1 2 := by
  have h0 : bfsStep (cyc3 q1 q2 q3) ⟨[(nS, 0)], [(nS, 0)]⟩
      = ⟨[(nA, 1)], [(nS, 0), (nA, 1)]⟩ := by
    simp [bfsStep, cyc3, stepEdge, mget, mset, nS, nA, nB]
  rw [h0]
  simp [bfsStep, stB, cyc3, stepEdge, mget, mset, nS, nA, nB]

/-- C2: the level-assignment loop of the source has no cycle guard: on the
table S to A, A to B, B to A (a source feeding a two-node cycle) the loop
re-enqueues A and B with ever increasing levels, so for every fuel bound
the render is still running when the fuel runs out; it never terminates
and never reports any error, in particular no cycle-detected structural
error. -/
theorem c2_cycleNotDetected : ∀ (cfg : Config) (fuel : Nat),
    renderSankey cfg (some rowsC2) fuel = .ok none := by
  intro cfg fuel
  have hok : buildEdges rowsC2 = .ok edgesC2 := by decide
  have hrun : bfsRun (aggregatedEdges edgesC2) fuel (bfsInit edgesC2) = none := by
    rw [edgesC2_agg, edgesC2_init]
    match fuel with
    | 0 => exact bfsRun_zero_stuck _ _ (by simp)
    | 1 =>
      rw [bfsRun_succ_step _ _ _ (by simp)]
      apply bfsRun_zero_stuck
      simp [bfsStep, cyc3, stepEdge, mget, mset, nS, nA, nB]
    | (n + 2) =>
      rw [bfsRun_succ_step _ _ _ (by simp), bfsRun_succ_step]
      · rw [cyc3_steps01 1 1 1]
        exact (cyc3_run_none 1 1 1 n).2 1 2 (by omega)
      · simp [bfsStep, cyc3, stepEdge, mget, mset, nS, nA, nB]
  have hne : rowsC2 ≠ [] := by decide
  have hene : edgesC2 ≠ [] := by decide
  simp only [renderSankey, if_neg hne, hok, if_neg hene, hrun]

theorem mget_mset {α : Type} : ∀ (m : List (Str × α)) (k n : Str) (v : α),
    mget (mset m k v) n = if k = n then some v else mget m n := by
  intro m
  induction m with
  | nil =>
    intro k n v
    by_cases h : k = n <;> simp [mget, mset, h]
  | cons p rest ih =>
    intro k n v
    obtain ⟨k2, v2⟩ := p
    by_cases hk : k2 = k
    · subst hk
      by_cases hn : k2 = n <;> simp [mget, mset, hn]
    · by_cases hn : k2 = n
      · have hkn : ¬ k = n := fun h => hk (hn.trans h.symm)
        have hnk : ¬ n = k := fun h => hkn h.symm
        simp [mget, mset, hk, hn, hkn, hnk]
      · simp [mget, mset, hk, hn, ih]

/-- Case analysis of one edge-processing step of the loop body. -/
theorem stepEdge_cases (node : Str) (lvl : Nat) (s : BfsState) (e : Edge) :
    (stepEdge node lvl s e = s ∧
      (e.source = node → ∃ cur, mget s.level e.target = some cur ∧ lvl + 1 ≤ cur)) ∨
    (e.source = node ∧
      stepEdge node lvl s e
        = ⟨s.queue ++ [(e.target, lvl + 1)], mset s.level e.target (lvl + 1)⟩ ∧
      (∀ cur, mget s.level e.target = some cur → cur < lvl + 1)) := by
  by_cases hsrc : e.source = node
  · cases hcur : mget s.level e.target with
    | none =>
      right
      refine ⟨hsrc, ?_, ?_⟩
      · unfold stepEdge
        rw [if_pos hsrc, hcur]
      · intro cur hc
        exact Option.noConfusion hc
    | some cur =>
      by_cases hlt : lvl + 1 > cur
      · right
        refine ⟨hsrc, ?_, ?_⟩
        · unfold stepEdge
          rw [if_pos hsrc, hcur]
          exact if_pos hlt
        · intro c hc
          injection hc with hc
          omega
      · left
        refine ⟨?_, fun _ => ⟨cur, rfl, by omega⟩⟩
        unfold stepEdge
        rw [if_pos hsrc, hcur]
        exact if_neg hlt
  · left
    refine ⟨?_, fun h => absurd h hsrc⟩
    unfold stepEdge
    rw [if_neg hsrc]

theorem stepEdge_queue_prefix (node : Str) (lvl : Nat) (s : BfsState) (e : Edge) :
    ∃ suffix, (stepEdge node lvl s e).queue = s.queue ++ suffix := by
  rcases stepEdge_cases node lvl s e with ⟨h, _⟩ | ⟨_, h, _⟩
  · exact ⟨[], by simp [h]⟩
  · exact ⟨[(e.target, lvl + 1)], by rw [h]⟩

theorem stepEdge_level_mono (node : Str) (lvl : Nat) (s : BfsState) (e : Edge)
    (n : Str) (l : Nat) (h : mget s.level n = some l) :
    ∃ l2, mget (stepEdge node lvl s e).level n = some l2 ∧ l ≤ l2 := by
  rcases stepEdge_cases node lvl s e with ⟨heq, _⟩ | ⟨_, heq, hsmall⟩
  · exact ⟨l, by rw [heq]; exact h, le_refl l⟩
  · rw [heq]
    by_cases htgt : e.target = n
    · refine ⟨lvl + 1, ?_, ?_⟩
      · simp [mget_mset, htgt]
      · have := hsmall l (htgt ▸ h)
        omega
    · exact ⟨l, by rw [mget_mset, if_neg htgt]; exact h, le_refl l⟩

theorem foldl_stepEdge_level_mono (l : List Edge) (node : Str) (lvl : Nat) :
    ∀ (s : BfsState) (n : Str) (v : Nat), mget s.level n = some v →
    ∃ v2, mget (List.foldl (stepEdge node lvl) s l).level n = some v2 ∧ v ≤ v2 := by
  induction l with
  | nil => intro s n v h; exact ⟨v, h, le_refl v⟩
  | cons e rest ih =>
    intro s n v h
    obtain ⟨v1, hv1, hle1⟩ := stepEdge_level_mono node lvl s e n v h
    obtain ⟨v2, hv2, hle2⟩ := ih (stepEdge node lvl s e) n v1 hv1
    rw [List.foldl_cons]
    exact ⟨v2, hv2, le_trans hle1 hle2⟩

theorem foldl_stepEdge_queue_prefix (l : List Edge) (node : Str) (lvl : Nat) :
    ∀ (s : BfsState), ∃ suffix,
      (List.foldl (stepEdge node lvl) s l).queue = s.queue ++ suffix := by
  induction l with
  | nil => intro s; exact ⟨[], by simp⟩
  | cons e rest ih =>
    intro s
    obtain ⟨s1, hs1⟩ := stepEdge_queue_prefix node lvl s e
    obtain ⟨s2, hs2⟩ := ih (stepEdge node lvl s e)
    rw [List.foldl_cons]
    exact ⟨s1 ++ s2, by rw [hs2, hs1, List.append_assoc]⟩

/-- Invariant of the level-assignment worklist loop: queue entries are
recorded in the level map at no smaller a level, every queue entry and
every map entry is justified by a path from a source node, and every map
entry is either still pending in the queue or has pushed all its
outgoing edges. -/
def BfsInv (agg : List Edge) (srcs : List Str) (st : BfsState) : Prop :=
  (∀ p ∈ st.queue, ∃ l, mget st.level p.1 = some l ∧ p.2 ≤ l) ∧
  (∀ p ∈ st.queue, ∃ s ∈ srcs, pathLen agg s p.1 p.2) ∧
  (∀ n l, mget st.level n = some l → ∃ s ∈ srcs, pathLen agg s n l) ∧
  (∀ n l, mget st.level n = some l →
    (n, l) ∈ st.queue ∨
    ∀ e ∈ agg, e.source = n → ∃ l2, mget st.level e.target = some l2 ∧ l + 1 ≤ l2)

/-- Invariant holding while the dequeued node is being processed and the
edges in todo are still to be scanned. -/
def FoldInv (agg : List Edge) (srcs : List Str) (node : Str) (lvl : Nat)
    (todo : List Edge) (s : BfsState) : Prop :=
  (∀ p ∈ s.queue, ∃ l, mget s.level p.1 = some l ∧ p.2 ≤ l) ∧
  (∀ p ∈ s.queue, ∃ src ∈ srcs, pathLen agg src p.1 p.2) ∧
  (∀ n l, mget s.level n = some l → ∃ src ∈ srcs, pathLen agg src n l) ∧
  (∀ n l, mget s.level n = some l →
    (n, l) ∈ s.queue ∨
    ∀ e ∈ agg, e.source = n →
      (e ∈ todo ∧ n = node ∧ l = lvl) ∨
      ∃ l2, mget s.level e.target = some l2 ∧ l + 1 ≤ l2)

theorem fold_inv_step (agg : List Edge) (srcs : List Str) (node : Str) (lvl : Nat)
    (e : Edge) (todo2 : List Edge) (s : BfsState)
    (hinv : FoldInv agg srcs node lvl (e :: todo2) s) (hein : e ∈ agg)
    (hpath : ∃ src ∈ srcs, pathLen agg src node lvl) :
    FoldInv agg srcs node lvl todo2 (stepEdge node lvl s e) := by
  obtain ⟨H1, H2, H3, H4⟩ := hinv
  rcases stepEdge_cases node lvl s e with ⟨heq, hdone⟩ | ⟨hsrc, heq, hsmall⟩
  · rw [heq]
    refine ⟨H1, H2, H3, ?_⟩
    intro n l hml
    rcases H4 n l hml with hq | hedges
    · exact Or.inl hq
    · right
      intro e2 he2 hsrc2
      rcases hedges e2 he2 hsrc2 with ⟨hpend, hn, hl⟩ | hok
      · rcases List.mem_cons.mp hpend with rfl | hmem2
        · obtain ⟨cur, hcur, hle⟩ := hdone (hn ▸ hsrc2)
          right
          exact ⟨cur, hcur, by omega⟩
        · exact Or.inl ⟨hmem2, hn, hl⟩
      · exact Or.inr hok
  · rw [heq]
    have hget : ∀ n, mget (mset s.level e.target (lvl + 1)) n
        = if e.target = n then some (lvl + 1) else mget s.level n :=
      fun n => mget_mset s.level e.target n (lvl + 1)
    refine ⟨?_, ?_, ?_, ?_⟩
    · intro p hp
      rcases List.mem_append.mp hp with hp | hp
      · obtain ⟨l, hml, hle⟩ := H1 p hp
        by_cases htgt : e.target = p.1
        · refine ⟨lvl + 1, by rw [hget, if_pos htgt], ?_⟩
          have := hsmall l (htgt ▸ hml)
          omega
        · exact ⟨l, by rw [hget, if_neg htgt]; exact hml, hle⟩
      · simp only [List.mem_singleton] at hp
        subst hp
        exact ⟨lvl + 1, by rw [hget, if_pos rfl], le_refl _⟩
    · intro p hp
      rcases List.mem_append.mp hp with hp | hp
      · exact H2 p hp
      · simp only [List.mem_singleton] at hp
        subst hp
        obtain ⟨src, hsrcmem, hp⟩ := hpath
        exact ⟨src, hsrcmem, pathLen.step hp e hein hsrc rfl⟩
    · intro n l hml
      rw [hget] at hml
      by_cases htgt : e.target = n
      · rw [if_pos htgt] at hml
        injection hml with hml
        obtain ⟨src, hsrcmem, hp⟩ := hpath
        subst hml
        exact ⟨src, hsrcmem, pathLen.step hp e hein hsrc htgt⟩
      · rw [if_neg htgt] at hml
        exact H3 n l hml
    · intro n l hml
      rw [hget] at hml
      by_cases htgt : e.target = n
      · rw [if_pos htgt] at hml
        injection hml with hml
        left
        subst hml
        subst htgt
        simp
      · rw [if_neg htgt] at hml
        rcases H4 n l hml with hq | hedges
        · exact Or.inl (List.mem_append.mpr (Or.inl hq))
        · right
          intro e2 he2 hsrc2
          rcases hedges e2 he2 hsrc2 with ⟨hpend, hn, hl⟩ | ⟨l2, hl2, hle2⟩
          · rcases List.mem_cons.mp hpend with rfl | hmem2
            · right
              refine ⟨lvl + 1, by rw [hget, if_pos rfl], by omega⟩
            · exact Or.inl ⟨hmem2, hn, hl⟩
          · right
            by_cases htgt2 : e.target = e2.target
            · refine ⟨lvl + 1, by rw [hget, if_pos htgt2], ?_⟩
              have := hsmall l2 (htgt2 ▸ hl2)
              omega
            · exact ⟨l2, by rw [hget, if_neg htgt2]; exact hl2, hle2⟩

theorem foldl_inv (agg : List Edge) (srcs : List Str) (node : Str) (lvl : Nat)
    (hpath : ∃ src ∈ srcs, pathLen agg src node lvl) :
    ∀ (todo : List Edge) (s : BfsState), (∀ e ∈ todo, e ∈ agg) →
    FoldInv agg srcs node lvl todo s →
    FoldInv agg srcs node lvl [] (List.foldl (stepEdge node lvl) s todo) := by
  intro todo
  induction todo with
  | nil => intro s _ h; exact h
  | cons e todo2 ih =>
    intro s hsub hinv
    rw [List.foldl_cons]
    exact ih (stepEdge node lvl s e) (fun x hx => hsub x (by simp [hx]))
      (fold_inv_step agg srcs node lvl e todo2 s hinv (hsub e (by simp)) hpath)

theorem bfsStep_inv (agg : List Edge) (srcs : List Str) (st : BfsState)
    (h : BfsInv agg srcs st) : BfsInv agg srcs (bfsStep agg st) := by
  obtain ⟨H1, H2, H3, H4⟩ := h
  cases hq : st.queue with
  | nil =>
    have : bfsStep agg st = st := by unfold bfsStep; rw [hq]
    rw [this]
    exact ⟨H1, H2, H3, H4⟩
  | cons head rest =>
    obtain ⟨node, lvl⟩ := head
    have hstep : bfsStep agg st = List.foldl (stepEdge node lvl) ⟨rest, st.level⟩ agg := by
      unfold bfsStep
      rw [hq]
    have hheadmem : (node, lvl) ∈ st.queue := by rw [hq]; simp
    have hpath : ∃ src ∈ srcs, pathLen agg src node lvl := H2 (node, lvl) hheadmem
    have hstart : FoldInv agg srcs node lvl agg ⟨rest, st.level⟩ := by
      refine ⟨?_, ?_, H3, ?_⟩
      · intro p hp
        exact H1 p (by rw [hq]; simp [hp])
      · intro p hp
        exact H2 p (by rw [hq]; simp [hp])
      · intro n l hml
        rcases H4 n l hml with hqmem | hedges
        · rw [hq] at hqmem
          rcases List.mem_cons.mp hqmem with heq | hmem
          · right
            intro e he hsrc
            injection heq with h1 h2
            exact Or.inl ⟨he, h1, h2⟩
          · exact Or.inl hmem
        · right
          intro e he hsrc
          exact Or.inr (hedges e he hsrc)
    have hfinal := foldl_inv agg srcs node lvl hpath agg ⟨rest, st.level⟩
      (fun e he => he) hstart
    rw [hstep]
    obtain ⟨F1, F2, F3, F4⟩ := hfinal
    refine ⟨F1, F2, F3, ?_⟩
    intro n l hml
    rcases F4 n l hml with hqmem | hedges
    · exact Or.inl hqmem
    · right
      intro e he hsrc
      rcases hedges e he hsrc with ⟨hpend, _, _⟩ | hok
      · exact absurd hpend (List.not_mem_nil e)
      · exact hok

theorem bfsStep_level_mono (agg : List Edge) (st : BfsState) (n : Str) (v : Nat)
    (h : mget st.level n = some v) :
    ∃ v2, mget (bfsStep agg st).level n = some v2 ∧ v ≤ v2 := by
  cases hq : st.queue with
  | nil =>
    have heq : bfsStep agg st = st := by unfold bfsStep; rw [hq]
    exact ⟨v, by rw [heq]; exact h, le_refl v⟩
  | cons head rest =>
    obtain ⟨node, lvl⟩ := head
    have heq : bfsStep agg st = List.foldl (stepEdge node lvl) ⟨rest, st.level⟩ agg := by
      unfold bfsStep
      rw [hq]
    rw [heq]
    exact foldl_stepEdge_level_mono agg node lvl ⟨rest, st.level⟩ n v h

theorem bfsRun_level_mono (agg : List Edge) : ∀ (fuel : Nat) (st : BfsState)
    (lv : List (Str × Nat)) (n : Str) (v : Nat),
    bfsRun agg fuel st = some lv → mget st.level n = some v →
    ∃ v2, mget lv n = some v2 ∧ v ≤ v2 := by
  intro fuel
  induction fuel with
  | zero =>
    intro st lv n v hrun hml
    rw [bfsRun_eq] at hrun
    by_cases hq : st.queue = []
    · rw [if_pos hq] at hrun
      injection hrun with hrun
      exact ⟨v, hrun ▸ hml, le_refl v⟩
    · rw [if_neg hq] at hrun
      exact Option.noConfusion hrun
  | succ f ih =>
    intro st lv n v hrun hml
    rw [bfsRun_eq] at hrun
    by_cases hq : st.queue = []
    · rw [if_pos hq] at hrun
      injection hrun with hrun
      exact ⟨v, hrun ▸ hml, le_refl v⟩
    · rw [if_neg hq] at hrun
      obtain ⟨v1, hv1, hle1⟩ := bfsStep_level_mono agg st n v hml
      obtain ⟨v2, hv2, hle2⟩ := ih (bfsStep agg st) lv n v1 hrun hv1
      exact ⟨v2, hv2, le_trans hle1 hle2⟩

theorem bfsRun_term (agg : List Edge) (srcs : List Str) : ∀ (fuel : Nat)
    (st : BfsState) (lv : List (Str × Nat)),
    BfsInv agg srcs st → bfsRun agg fuel st = some lv →
    (∀ n l, mget lv n = some l → ∃ s ∈ srcs, pathLen agg s n l) ∧
    (∀ n l, mget lv n = some l → ∀ e ∈ agg, e.source = n →
      ∃ l2, mget lv e.target = some l2 ∧ l + 1 ≤ l2) := by
  intro fuel
  induction fuel with
  | zero =>
    intro st lv hinv hrun
    rw [bfsRun_eq] at hrun
    by_cases hq : st.queue = []
    · rw [if_pos hq] at hrun
      injection hrun with hrun
      subst hrun
      refine ⟨hinv.2.2.1, ?_⟩
      intro n l hml e he hsrc
      rcases hinv.2.2.2 n l hml with hqmem | hedges
      · rw [hq] at hqmem
        exact absurd hqmem (List.not_mem_nil _)
      · exact hedges e he hsrc
    · rw [if_neg hq] at hrun
      exact Option.noConfusion hrun
  | succ f ih =>
    intro st lv hinv hrun
    rw [bfsRun_eq] at hrun
    by_cases hq : st.queue = []
    · rw [if_pos hq] at hrun
      injection hrun with hrun
      subst hrun
      refine ⟨hinv.2.2.1, ?_⟩
      intro n l hml e he hsrc
      rcases hinv.2.2.2 n l hml with hqmem | hedges
      · rw [hq] at hqmem
        exact absurd hqmem (List.not_mem_nil _)
      · exact hedges e he hsrc
    · rw [if_neg hq] at hrun
      exact ih (bfsStep agg st) lv (bfsStep_inv agg srcs st hinv) hrun

theorem mget_foldl_mset_zero (srcs : List Str) : ∀ (acc : List (Str × Nat)) (n : Str),
    mget (List.foldl (fun m x => mset m x 0) acc srcs) n
      = if n ∈ srcs then some 0 else mget acc n := by
  induction srcs with
  | nil => intro acc n; simp
  | cons x srcs2 ih =>
    intro acc n
    rw [List.foldl_cons, ih]
    by_cases hmem : n ∈ srcs2
    · rw [if_pos hmem, if_pos (by simp [hmem])]
    · rw [if_neg hmem, mget_mset]
      by_cases hx : x = n
      · rw [if_pos hx, if_pos (by simp [hx])]
      · rw [if_neg hx, if_neg (by simp [hmem]; exact fun h => hx h.symm)]

theorem bfsInit_inv (es : List Edge) :
    BfsInv (aggregatedEdges es) (sourceNodes es) (bfsInit es) := by
  have hget : ∀ n, mget (bfsInit es).level n
      = if n ∈ sourceNodes es then some 0 else none := by
    intro n
    unfold bfsInit
    rw [mget_foldl_mset_zero]
    rfl
  refine ⟨?_, ?_, ?_, ?_⟩
  · intro p hp
    obtain ⟨n, hn, hpn⟩ := List.mem_map.mp hp
    subst hpn
    exact ⟨0, by rw [hget, if_pos hn], le_refl 0⟩
  · intro p hp
    obtain ⟨n, hn, hpn⟩ := List.mem_map.mp hp
    subst hpn
    exact ⟨n, hn, pathLen.refl n⟩
  · intro n l hml
    rw [hget] at hml
    by_cases hmem : n ∈ sourceNodes es
    · rw [if_pos hmem] at hml
      injection hml with hml
      exact ⟨n, hmem, hml ▸ pathLen.refl n⟩
    · rw [if_neg hmem] at hml
      exact Option.noConfusion hml
  · intro n l hml
    rw [hget] at hml
    by_cases hmem : n ∈ sourceNodes es
    · rw [if_pos hmem] at hml
      injection hml with hml
      left
      subst hml
      exact List.mem_map.mpr ⟨n, hmem, rfl⟩
    · rw [if_neg hmem] at hml
      exact Option.noConfusion hml

theorem mget_fill_go (L : List Str) : ∀ (m : List (Str × Nat)) (n : Str),
    mget (List.foldl (fun m2 x =>
      match mget m2 x with
      | some _ => m2
      | none => mset m2 x 0) m L) n
      = match mget m n with
        | some l => some l
        | none => if n ∈ L then some 0 else none := by
  induction L with
  | nil =>
    intro m n
    simp only [List.foldl_nil, List.not_mem_nil, if_false]
    cases mget m n <;> rfl
  | cons x L2 ih =>
    intro m n
    rw [List.foldl_cons]
    cases hx : mget m x with
    | some v =>
      rw [ih]
      by_cases hn : n = x
      · subst hn
        rw [hx]
      · cases hmn : mget m n with
        | some l => rfl
        | none => simp [List.mem_cons, hn]
    | none =>
      rw [ih]
      by_cases hn : x = n
      · subst hn
        rw [hx, mget_mset, if_pos rfl]
        simp
      · rw [mget_mset, if_neg hn]
        cases hmn : mget m n with
        | some l => rfl
        | none =>
          have hne : ¬ n = x := fun h => hn h.symm
          simp [List.mem_cons, hne]

theorem levelOf_of_some (es : List Edge) (lv : List (Str × Nat)) (n : Str) (l : Nat)
    (h : mget lv n = some l) : levelOf es lv n = l := by
  unfold levelOf fillLevels
  rw [mget_fill_go, h]
  rfl

theorem levelOf_of_none (es : List Edge) (lv : List (Str × Nat)) (n : Str)
    (h : mget lv n = none) : levelOf es lv n = 0 := by
  unfold levelOf fillLevels
  rw [mget_fill_go, h]
  by_cases hmem : n ∈ nodeSet es
  · rw [if_pos hmem]
    rfl
  · rw [if_neg hmem]
    rfl

theorem pathLen_zero {E : List Edge} {u v : Str} (h : pathLen E u v 0) : u = v := by
  cases h
  rfl

theorem insertMerge_pairs (acc : List Edge) (e : Edge) (a : Edge)
    (ha : a ∈ insertMerge acc e) :
    (∃ b ∈ acc, b.source = a.source ∧ b.target = a.target) ∨ a = e := by
  unfold insertMerge at ha
  by_cases hany : acc.any (fun b => b.source = e.source ∧ b.target = e.target)
  · rw [if_pos hany] at ha
    obtain ⟨b, hb, hba⟩ := List.mem_map.mp ha
    by_cases hmatch : b.source = e.source ∧ b.target = e.target
    · rw [if_pos hmatch] at hba
      exact Or.inl ⟨b, hb, by rw [← hba], by rw [← hba]⟩
    · rw [if_neg hmatch] at hba
      exact Or.inl ⟨b, hb, by rw [hba], by rw [hba]⟩
  · rw [if_neg hany] at ha
    rcases List.mem_append.mp ha with ha | ha
    · exact Or.inl ⟨a, ha, rfl, rfl⟩
    · simp only [List.mem_singleton] at ha
      exact Or.inr ha

theorem aggregateSpec_pairs_sub (es : List Edge) :
    ∀ a ∈ aggregateSpec es, ∃ e2 ∈ es, e2.source = a.source ∧ e2.target = a.target := by
  unfold aggregateSpec
  have h : ∀ (l acc : List Edge) (a : Edge), a ∈ List.foldl insertMerge acc l →
      (∃ b ∈ acc, b.source = a.source ∧ b.target = a.target) ∨
      (∃ e2 ∈ l, e2.source = a.source ∧ e2.target = a.target) := by
    intro l
    induction l with
    | nil =>
      intro acc a ha
      exact Or.inl ⟨a, ha, rfl, rfl⟩
    | cons e l2 ih =>
      intro acc a ha
      rw [List.foldl_cons] at ha
      rcases ih (insertMerge acc e) a ha with ⟨b, hb, hbs, hbt⟩ | ⟨e2, he2, hs, ht⟩
      · rcases insertMerge_pairs acc e b hb with ⟨c, hc, hcs, hct⟩ | hbe
        · exact Or.inl ⟨c, hc, hcs.trans hbs, hct.trans hbt⟩
        · exact Or.inr ⟨e, by simp, by rw [← hbe]; exact hbs, by rw [← hbe]; exact hbt⟩
      · exact Or.inr ⟨e2, by simp [he2], hs, ht⟩
  intro a ha
  rcases h es [] a ha with ⟨b, hb, _⟩ | hres
  · exact absurd hb (List.not_mem_nil b)
  · exact hres

theorem inflow_fold_pos : ∀ (l : List Edge) (acc : List (Str × ℚ)),
    (∀ e ∈ l, 0 < e.value) → (∀ k v, mget acc k = some v → 0 ≤ v) →
    ∀ t, ((∃ e ∈ l, e.target = t) ∨ (∃ v, mget acc t = some v ∧ 0 < v)) →
    ∃ v, mget (List.foldl (fun m e =>
      mset m e.target ((mget m e.target).getD 0 + e.value)) acc l) t = some v ∧ 0 < v := by
  intro l
  induction l with
  | nil =>
    intro acc _ _ t ht
    rcases ht with ⟨e, he, _⟩ | ⟨v, hv, hpos⟩
    · exact absurd he (List.not_mem_nil e)
    · exact ⟨v, hv, hpos⟩
  | cons e l2 ih =>
    intro acc hpos hnn t ht
    rw [List.foldl_cons]
    have hepos : 0 < e.value := hpos e (by simp)
    have hnn2 : ∀ k v, mget (mset acc e.target ((mget acc e.target).getD 0 + e.value)) k
        = some v → 0 ≤ v := by
      intro k v hk
      rw [mget_mset] at hk
      by_cases htgt : e.target = k
      · rw [if_pos htgt] at hk
        injection hk with hk
        have hge : 0 ≤ (mget acc e.target).getD 0 := by
          cases hacc : mget acc e.target with
          | none => simp
          | some w => simpa using hnn e.target w hacc
        rw [← hk]
        positivity
      · rw [if_neg htgt] at hk
        exact hnn k v hk
    apply ih _ (fun x hx => hpos x (by simp [hx])) hnn2
    rcases ht with ⟨e2, he2, htgt⟩ | ⟨v, hv, hvpos⟩
    · rcases List.mem_cons.mp he2 with rfl | hmem
      · right
        refine ⟨(mget acc e2.target).getD 0 + e2.value, ?_, ?_⟩
        · rw [mget_mset, if_pos htgt]
        · have hge : 0 ≤ (mget acc e2.target).getD 0 := by
            cases hacc : mget acc e2.target with
            | none => simp
            | some w => simpa using hnn e2.target w hacc
          positivity
      · exact Or.inl ⟨e2, hmem, htgt⟩
    · right
      rw [mget_mset]
      by_cases htgt : e.target = t
      · refine ⟨(mget acc e.target).getD 0 + e.value, by rw [if_pos htgt], ?_⟩
        have hge : 0 ≤ (mget acc e.target).getD 0 := by
          cases hacc : mget acc e.target with
          | none => simp
          | some w => simpa using hnn e.target w hacc
        positivity
      · exact ⟨v, by rw [if_neg htgt]; exact hv, hvpos⟩

theorem target_not_source (es : List Edge) (hpos : ∀ e ∈ es, 0 < e.value) (t : Str)
    (h : ∃ e ∈ es, e.target = t) : t ∉ sourceNodes es := by
  intro hmem
  obtain ⟨v, hv, hvpos⟩ := inflow_fold_pos es [] hpos (by simp [mget]) t (Or.inl h)
  unfold sourceNodes at hmem
  have hzero := (List.mem_filter.mp hmem).2
  simp only [decide_eq_true_eq] at hzero
  rw [show nodeInFlow es = List.foldl (fun m e =>
    mset m e.target ((mget m e.target).getD 0 + e.value)) [] es from rfl] at hzero
  rw [hv] at hzero
  simp only [Option.getD_some] at hzero
  rw [hzero] at hvpos
  exact lt_irrefl 0 hvpos

/-- Bound along reachability: every node at the end of a path of length n
from a source node ends up in the level map at a level of at least n. -/
theorem reach_level_bound (es : List Edge) (fuel : Nat) (lv : List (Str × Nat))
    (hrun : bfsRun (aggregatedEdges es) fuel (bfsInit es) = some lv) :
    ∀ (s v : Str) (n : Nat), s ∈ sourceNodes es →
    pathLen (aggregatedEdges es) s v n → ∃ l, mget lv v = some l ∧ n ≤ l := by
  have hterm := bfsRun_term (aggregatedEdges es) (sourceNodes es) fuel (bfsInit es) lv
    (bfsInit_inv es) hrun
  intro s v n hs hp
  induction hp with
  | refl =>
    have hinit : mget (bfsInit es).level s = some 0 := by
      show mget (List.foldl (fun m x => mset m x 0) [] (sourceNodes es)) s = some 0
      rw [mget_foldl_mset_zero (sourceNodes es) [] s, if_pos hs]
    obtain ⟨l, hl, _⟩ := bfsRun_level_mono (aggregatedEdges es) fuel (bfsInit es) lv s 0 hrun hinit
    exact ⟨l, hl, Nat.zero_le l⟩
  | step hp e hein hsrc htgt ih =>
    obtain ⟨lu, hlu, hn⟩ := ih
    obtain ⟨l2, hl2, hle2⟩ := hterm.2 _ lu hlu e hein hsrc
    exact ⟨l2, htgt ▸ hl2, by omega⟩

/-- C3 (amended): after a completed level assignment on a table with
benign labels, every aggregated edge whose target was reached from a
source node satisfies level(target) > level(source); an edge whose target
was never reached has both endpoints defaulted to level 0 and the strict
inequality fails only there. -/
theorem c3_levelMonotonicity (data : List Row) (es : List Edge) (fuel : Nat)
    (lv : List (Str × Nat)) (hok : buildEdges data = .ok es)
    (hrows : ∀ r ∈ data, GoodRow r)
    (hrun : bfsRun (aggregatedEdges es) fuel (bfsInit es) = some lv) :
    ∀ e ∈ aggregatedEdges es,
      ((mget lv e.target).isSome → levelOf es lv e.source < levelOf es lv e.target) ∧
      (mget lv e.target = none →
        levelOf es lv e.source = 0 ∧ levelOf es lv e.target = 0) := by
  have hterm := bfsRun_term (aggregatedEdges es) (sourceNodes es) fuel (bfsInit es) lv
    (bfsInit_inv es) hrun
  have hpos : ∀ e ∈ es, 0 < e.value := fun e he =>
    (buildEdgesGo_sound data 0 es hok e he).2.2
  have hagg : aggregatedEdges es = aggregateSpec es :=
    aggregatedEdges_eq_spec es (buildEdges_goodEdges data es hok hrows)
  intro e he
  constructor
  · intro hsome
    cases hget : mget lv e.target with
    | none => rw [hget] at hsome; exact absurd hsome (by simp)
    | some l2 =>
      cases hs : mget lv e.source with
      | some l1 =>
        obtain ⟨l2b, hl2b, hle⟩ := hterm.2 e.source l1 hs e he rfl
        rw [hget] at hl2b
        injection hl2b with hl2b
        rw [levelOf_of_some es lv e.source l1 hs, levelOf_of_some es lv e.target l2 hget]
        omega
      | none =>
        rw [levelOf_of_none es lv e.source hs, levelOf_of_some es lv e.target l2 hget]
        obtain ⟨src, hsrc, hpath⟩ := hterm.1 e.target l2 hget
        rcases Nat.eq_zero_or_pos l2 with hz | hpos2
        · subst hz
          have hst : src = e.target := pathLen_zero hpath
          obtain ⟨e2, he2, hs2, ht2⟩ := aggregateSpec_pairs_sub es e (hagg ▸ he)
          have : e.target ∉ sourceNodes es :=
            target_not_source es hpos e.target ⟨e2, he2, ht2⟩
          exact absurd (hst ▸ hsrc) this
        · exact hpos2
  · intro hnone
    cases hs : mget lv e.source with
    | some l1 =>
      obtain ⟨l2b, hl2b, _⟩ := hterm.2 e.source l1 hs e he rfl
      rw [hnone] at hl2b
      exact Option.noConfusion hl2b
    | none =>
      exact ⟨levelOf_of_none es lv e.source hs, levelOf_of_none es lv e.target hnone⟩

def edgesC3cex : List Edge := [⟨"A".toList, "B".toList, 1⟩, ⟨"B".toList, "A".toList, 1⟩]

/-- Counterexample for C3 as stated: on the pure two-cycle A to B to A the
level assignment completes at once (there are no source nodes, so the
worklist starts empty), both nodes default to level 0, and the aggregated
edge from A to B has level(target) equal to level(source), not greater. -/
theorem c3_levelMonotonicity_cex :
    bfsRun (aggregatedEdges edgesC3cex) 5 (bfsInit edgesC3cex) = some [] ∧
    (aggregatedEdges edgesC3cex).map (fun e => (e.source, e.target)) = [(nA, nB), (nB, nA)] ∧
    ¬ levelOf edgesC3cex [] nA < levelOf edgesC3cex [] nB := by
  have hinit : bfsInit edgesC3cex = ⟨[], []⟩ := by
    have h1 : nodeInFlow edgesC3cex = [(nB, 1), (nA, 1)] := by
      simp [nodeInFlow, edgesC3cex, mget, mset, nA, nB]
    have h2 : sourceNodes edgesC3cex = [] := by
      simp [sourceNodes, nodeSet, insertUnique, edgesC3cex, h1, mget, nA, nB]
    simp [bfsInit, h2]
  refine ⟨?_, ?_, ?_⟩
  · rw [hinit, bfsRun_eq]
    simp
  · simp [aggregatedEdges, edgeMap, edgesC3cex, keyOf, mget, mset, recoverEdge, splitCC, nA, nB]
  · have hA : levelOf edgesC3cex [] nA = 0 := by
      simp [levelOf, fillLevels, nodeSet, insertUnique, edgesC3cex, mget, mset, nA, nB]
    have hB : levelOf edgesC3cex [] nB = 0 := by
      simp [levelOf, fillLevels, nodeSet, insertUnique, edgesC3cex, mget, mset, nA, nB]
    rw [hA, hB]
    omega

def nC : Str := "C".toList

def rowsA : List Row :=
  [⟨"A".toList, "B".toList, some 10⟩, ⟨"B".toList, "C".toList, some 10⟩,
   ⟨"A".toList, "C".toList, some 5⟩]

def edgesA : List Edge :=
  [⟨"A".toList, "B".toList, 10⟩, ⟨"B".toList, "C".toList, 10⟩, ⟨"A".toList, "C".toList, 5⟩]

/-- Level map the loop computes for the scenario edges. -/
def lvA : List (Str × Nat) := [(nA, 0), (nB, 1), (nC, 2)]

theorem edgesA_agg : aggregatedEdges edgesA
    = [⟨nA, nB, 10⟩, ⟨nB, nC, 10⟩, ⟨nA, nC, 5⟩] := by
  simp [aggregatedEdges, edgeMap, edgesA, keyOf, mget, mset, recoverEdge, splitCC,
    nA, nB, nC]

theorem edgesA_init : bfsInit edgesA = ⟨[(nA, 0)], [(nA, 0)]⟩ := by
  have h1 : nodeInFlow edgesA = [(nB, 10), (nC, 15)] := by
    simp [nodeInFlow, edgesA, mget, mset, nA, nB, nC]
    norm_num
  have h0 : nodeSet edgesA = [nA, nB, nC] := by
    simp [nodeSet, insertUnique, edgesA, nA, nB, nC]
  have h2 : sourceNodes edgesA = [nA] := by
    simp only [sourceNodes, h0, h1]
    simp [mget, nA, nB, nC]
  simp [bfsInit, h2, mset]

theorem edgesA_run : bfsRun (aggregatedEdges edgesA) 10 (bfsInit edgesA) = some lvA := by
  have hstep0 : bfsStep [⟨nA, nB, (10:ℚ)⟩, ⟨nB, nC, 10⟩, ⟨nA, nC, 5⟩]
      ⟨[(nA, 0)], [(nA, 0)]⟩ = ⟨[(nB, 1), (nC, 1)], [(nA, 0), (nB, 1), (nC, 1)]⟩ := by
    simp [bfsStep, stepEdge, mget, mset, nA, nB, nC]
  have hstep1 : bfsStep [⟨nA, nB, (10:ℚ)⟩, ⟨nB, nC, 10⟩, ⟨nA, nC, 5⟩]
      ⟨[(nB, 1), (nC, 1)], [(nA, 0), (nB, 1), (nC, 1)]⟩
      = ⟨[(nC, 1), (nC, 2)], [(nA, 0), (nB, 1), (nC, 2)]⟩ := by
    simp [bfsStep, stepEdge, mget, mset, nA, nB, nC]
  have hstep2 : bfsStep [⟨nA, nB, (10:ℚ)⟩, ⟨nB, nC, 10⟩, ⟨nA, nC, 5⟩]
      ⟨[(nC, 1), (nC, 2)], [(nA, 0), (nB, 1), (nC, 2)]⟩
      = ⟨[(nC, 2)], [(nA, 0), (nB, 1), (nC, 2)]⟩ := by
    simp [bfsStep, stepEdge, mget, mset, nA, nB, nC]
  have hstep3 : bfsStep [⟨nA, nB, (10:ℚ)⟩, ⟨nB, nC, 10⟩, ⟨nA, nC, 5⟩]
      ⟨[(nC, 2)], [(nA, 0), (nB, 1), (nC, 2)]⟩
      = ⟨[], [(nA, 0), (nB, 1), (nC, 2)]⟩ := by
    simp [bfsStep, stepEdge, mget, mset, nA, nB, nC]
  rw [edgesA_agg, edgesA_init]
  rw [show (10:Nat) = 9 + 1 from rfl, bfsRun_succ_step _ _ _ (by simp), hstep0]
  rw [show (9:Nat) = 8 + 1 from rfl, bfsRun_succ_step _ _ _ (by simp), hstep1]
  rw [show (8:Nat) = 7 + 1 from rfl, bfsRun_succ_step _ _ _ (by simp), hstep2]
  rw [show (7:Nat) = 6 + 1 from rfl, bfsRun_succ_step _ _ _ (by simp), hstep3]
  rw [bfsRun_eq]
  simp [lvA]

theorem edgesA_levels : levelOf edgesA lvA "A".toList = 0 ∧
    levelOf edgesA lvA "B".toList = 1 ∧ levelOf edgesA lvA "C".toList = 2 := by
  refine ⟨?_, ?_, ?_⟩ <;>
    simp [levelOf, fillLevels, nodeSet, insertUnique, edgesA, lvA, mget, mset, nA, nB, nC]

/-- Witness for C3 on the scenario table A to B, B to C, A to C. -/
theorem c3_levelMonotonicity_witness :
    buildEdges rowsA = .ok edgesA ∧ (∀ r ∈ rowsA, GoodRow r) ∧
    bfsRun (aggregatedEdges edgesA) 10 (bfsInit edgesA) = some lvA ∧
    ∀ e ∈ aggregatedEdges edgesA,
      ((mget lvA e.target).isSome →
        levelOf edgesA lvA e.source < levelOf edgesA lvA e.target) ∧
      (mget lvA e.target = none →
        levelOf edgesA lvA e.source = 0 ∧ levelOf edgesA lvA e.target = 0) :=
  ⟨by decide, by decide, edgesA_run,
    c3_levelMonotonicity rowsA edgesA 10 lvA (by decide) (by decide) edgesA_run⟩

/-- C4: whenever the level assignment completes, a node holds level l in
the computed map exactly when l is the length of a longest path of
aggregated edges from some level-0 source node to it; every node reached
from a source node is assigned, and every unreached node ends at the
default level 0.  On the scenario edges A to B 10, B to C 10, A to C 5
the levels are A 0, B 1, C 2: the longest path wins for C. -/
theorem c4_longestPathLevels (es : List Edge) (fuel : Nat) (lv : List (Str × Nat))
    (hrun : bfsRun (aggregatedEdges es) fuel (bfsInit es) = some lv) :
    (∀ (v : Str) (l : Nat), mget lv v = some l →
      levelOf es lv v = l ∧
      (∃ s ∈ sourceNodes es, pathLen (aggregatedEdges es) s v l) ∧
      (∀ s ∈ sourceNodes es, ∀ n, pathLen (aggregatedEdges es) s v n → n ≤ l)) ∧
    (∀ (s v : Str) (n : Nat), s ∈ sourceNodes es →
      pathLen (aggregatedEdges es) s v n → (mget lv v).isSome) ∧
    (∀ v : Str, (∀ s ∈ sourceNodes es, ∀ n, ¬ pathLen (aggregatedEdges es) s v n) →
      levelOf es lv v = 0) ∧
    (bfsRun (aggregatedEdges edgesA) 10 (bfsInit edgesA) = some lvA ∧
      levelOf edgesA lvA "A".toList = 0 ∧ levelOf edgesA lvA "B".toList = 1 ∧
      levelOf edgesA lvA "C".toList = 2) := by
  have hterm := bfsRun_term (aggregatedEdges es) (sourceNodes es) fuel (bfsInit es) lv
    (bfsInit_inv es) hrun
  refine ⟨?_, ?_, ?_, edgesA_run, edgesA_levels⟩
  · intro v l hml
    refine ⟨levelOf_of_some es lv v l hml, hterm.1 v l hml, ?_⟩
    intro s hsmem n hp
    obtain ⟨l2, hl2, hn2⟩ := reach_level_bound es fuel lv hrun s v n hsmem hp
    rw [hml] at hl2
    injection hl2 with hl2
    omega
  · intro s v n hs hp
    obtain ⟨l2, hl2, _⟩ := reach_level_bound es fuel lv hrun s v n hs hp
    rw [hl2]
    rfl
  · intro v hunreach
    cases hml : mget lv v with
    | none => exact levelOf_of_none es lv v hml
    | some l =>
      obtain ⟨s, hs, hp⟩ := hterm.1 v l hml
      exact absurd hp (hunreach s hs l)

/-- Witness for C4 on the scenario edges. -/
theorem c4_longestPathLevels_witness :
    bfsRun (aggregatedEdges edgesA) 10 (bfsInit edgesA) = some lvA ∧
    ((∀ (v : Str) (l : Nat), mget lvA v = some l →
      levelOf edgesA lvA v = l ∧
      (∃ s ∈ sourceNodes edgesA, pathLen (aggregatedEdges edgesA) s v l) ∧
      (∀ s ∈ sourceNodes edgesA, ∀ n, pathLen (aggregatedEdges edgesA) s v n → n ≤ l)) ∧
    (∀ (s v : Str) (n : Nat), s ∈ sourceNodes edgesA →
      pathLen (aggregatedEdges edgesA) s v n → (mget lvA v).isSome) ∧
    (∀ v : Str, (∀ s ∈ sourceNodes edgesA, ∀ n, ¬ pathLen (aggregatedEdges edgesA) s v n) →
      levelOf edgesA lvA v = 0) ∧
    (bfsRun (aggregatedEdges edgesA) 10 (bfsInit edgesA) = some lvA ∧
      levelOf edgesA lvA "A".toList = 0 ∧ levelOf edgesA lvA "B".toList = 1 ∧
      levelOf edgesA lvA "C".toList = 2)) :=
  ⟨edgesA_run, c4_longestPathLevels edgesA 10 lvA edgesA_run⟩

theorem mget_none_of_not_mem_keys {α : Type} : ∀ (m : List (Str × α)) (n : Str),
    n ∉ m.map Prod.fst → mget m n = none := by
  intro m
  induction m with
  | nil => intro n _; rfl
  | cons p rest ih =>
    intro n hn
    simp only [List.map_cons, List.mem_cons, not_or] at hn
    rw [show (p : Str × α) = (p.1, p.2) from rfl, mget_cons]
    rw [if_neg (fun h => hn.1 h.symm)]
    exact ih n hn.2

theorem mget_isSome_of_mem_keys {α : Type} : ∀ (m : List (Str × α)) (n : Str),
    n ∈ m.map Prod.fst → (mget m n).isSome := by
  intro m
  induction m with
  | nil => intro n hn; simp at hn
  | cons p rest ih =>
    intro n hn
    rw [show (p : Str × α) = (p.1, p.2) from rfl, mget_cons]
    by_cases h : p.1 = n
    · rw [if_pos h]; rfl
    · rw [if_neg h]
      apply ih
      simp only [List.map_cons, List.mem_cons] at hn
      rcases hn with hn | hn
      · exact absurd hn.symm h
      · exact hn

theorem mget_foldl_set {α : Type} : ∀ (ps : List (Str × α)) (m : List (Str × α)) (n : Str),
    (ps.map Prod.fst).Nodup →
    mget (List.foldl (fun m2 q => mset m2 q.1 q.2) m ps) n
      = match mget ps n with
        | some v => some v
        | none => mget m n := by
  intro ps
  induction ps with
  | nil => intro m n _; rfl
  | cons p rest ih =>
    intro m n hnd
    obtain ⟨k, v⟩ := p
    simp only [List.map_cons, List.nodup_cons] at hnd
    rw [List.foldl_cons, ih (mset m k v) n hnd.2, mget_cons]
    by_cases hk : k = n
    · subst hk
      rw [if_pos rfl, mget_none_of_not_mem_keys rest k hnd.1, mget_mset, if_pos rfl]
    · rw [if_neg hk]
      cases mget rest n with
      | some w => rfl
      | none => rw [mget_mset, if_neg hk]

theorem mget_map_value {α β : Type} (f : α → β) : ∀ (m : List (Str × α)) (n : Str),
    mget (m.map (fun p => (p.1, f p.2))) n = (mget m n).map f := by
  intro m
  induction m with
  | nil => intro n; rfl
  | cons p rest ih =>
    intro n
    rw [List.map_cons, mget_cons, show (p : Str × α) = (p.1, p.2) from rfl, mget_cons]
    by_cases h : p.1 = n
    · rw [if_pos h, if_pos h]
      rfl
    · rw [if_neg h, if_neg h, ih]

theorem le_foldl_max_rat : ∀ (l : List ℚ) (a init : ℚ), a ∈ l →
    a ≤ l.foldl max init := by
  intro l
  induction l with
  | nil => intro a init ha; simp at ha
  | cons x rest ih =>
    intro a init ha
    rw [List.foldl_cons]
    rcases List.mem_cons.mp ha with rfl | ha
    · calc a ≤ max init a := le_max_right init a
        _ ≤ rest.foldl max (max init a) := by
          clear ih ha
          induction rest generalizing init a with
          | nil => simp
          | cons y ys ih2 =>
            rw [List.foldl_cons]
            calc max init a ≤ max (max init a) y := le_max_left _ y
              _ ≤ ys.foldl max (max (max init a) y) := ih2 _ _
    · exact ih a (max init x) ha

theorem init_le_foldl_max_rat : ∀ (l : List ℚ) (init : ℚ), init ≤ l.foldl max init := by
  intro l
  induction l with
  | nil => intro init; simp
  | cons x rest ih =>
    intro init
    rw [List.foldl_cons]
    calc init ≤ max init x := le_max_left init x
      _ ≤ rest.foldl max (max init x) := ih (max init x)

theorem foldl_max_le_rat : ∀ (l : List ℚ) (init B : ℚ), init ≤ B → (∀ a ∈ l, a ≤ B) →
    l.foldl max init ≤ B := by
  intro l
  induction l with
  | nil => intro init B h _; simpa using h
  | cons x rest ih =>
    intro init B hinit hall
    rw [List.foldl_cons]
    exact ih (max init x) B (max_le hinit (hall x (by simp)))
      (fun a ha => hall a (by simp [ha]))

theorem le_foldl_max_nat : ∀ (l : List Nat) (a init : Nat), a ∈ l →
    a ≤ l.foldl max init := by
  intro l
  induction l with
  | nil => intro a init ha; simp at ha
  | cons x rest ih =>
    intro a init ha
    rw [List.foldl_cons]
    rcases List.mem_cons.mp ha with rfl | ha
    · calc a ≤ max init a := le_max_right init a
        _ ≤ rest.foldl max (max init a) := by
          clear ih ha
          induction rest generalizing init a with
          | nil => simp
          | cons y ys ih2 =>
            rw [List.foldl_cons]
            calc max init a ≤ max (max init a) y := le_max_left _ y
              _ ≤ ys.foldl max (max (max init a) y) := ih2 _ _
    · exact ih a (max init x) ha

theorem mget_some_mem {α : Type} : ∀ (m : List (Str × α)) (n : Str) (v : α),
    mget m n = some v → (n, v) ∈ m := by
  intro m
  induction m with
  | nil => intro n v h; exact Option.noConfusion h
  | cons p rest ih =>
    intro n v h
    rw [show (p : Str × α) = (p.1, p.2) from rfl, mget_cons] at h
    by_cases hk : p.1 = n
    · rw [if_pos hk] at h
      injection h with h
      subst hk
      subst h
      simp
    · rw [if_neg hk] at h
      exact List.mem_cons.mpr (Or.inr (ih n v h))

theorem mget_of_mem_nodup {α : Type} : ∀ (ps : List (Str × α)) (k : Str) (v : α),
    (ps.map Prod.fst).Nodup → (k, v) ∈ ps → mget ps k = some v := by
  intro ps
  induction ps with
  | nil => intro k v _ hm; simp at hm
  | cons p rest ih =>
    intro k v hnd hm
    obtain ⟨k0, v0⟩ := p
    simp only [List.map_cons, List.nodup_cons] at hnd
    rcases List.mem_cons.mp hm with he | hm
    · injection he with h1 h2
      subst h1; subst h2
      rw [mget_cons, if_pos rfl]
    · rw [mget_cons]
      have hk : k0 ≠ k := by
        intro h
        subst h
        exact hnd.1 (List.mem_map.mpr ⟨(k0, v), hm, rfl⟩)
      rw [if_neg hk]
      exact ih k v hnd.2 hm

theorem mget_foldl_set_absent {α : Type} : ∀ (ps : List (Str × α)) (m : List (Str × α)) (n : Str),
    n ∉ ps.map Prod.fst →
    mget (List.foldl (fun m2 q => mset m2 q.1 q.2) m ps) n = mget m n := by
  intro ps
  induction ps with
  | nil => intro m n _; rfl
  | cons p rest ih =>
    intro m n hn
    simp only [List.map_cons, List.mem_cons, not_or] at hn
    rw [List.foldl_cons, ih _ n hn.2, mget_mset, if_neg (fun h => hn.1 h.symm)]

theorem insertUnique_nodup (l : List Str) (s : Str) (h : l.Nodup) :
    (insertUnique l s).Nodup := by
  unfold insertUnique
  by_cases hs : s ∈ l
  · rw [if_pos hs]; exact h
  · rw [if_neg hs]
    simpa [List.nodup_append] using ⟨h, hs⟩

theorem nodeSet_nodup (edges : List Edge) : (nodeSet edges).Nodup := by
  unfold nodeSet
  have : ∀ (es : List Edge) (acc : List Str), acc.Nodup →
      (es.foldl (fun a e => insertUnique (insertUnique a e.source) e.target) acc).Nodup := by
    intro es
    induction es with
    | nil => intro acc h; exact h
    | cons e rest ih =>
      intro acc h
      rw [List.foldl_cons]
      exact ih _ (insertUnique_nodup _ _ (insertUnique_nodup _ _ h))
  exact this edges [] List.nodup_nil

theorem flooredHeight_ge_two (edges : List Edge) (lv : List (Str × Nat)) (n : Str) :
    (2 : ℚ) ≤ flooredHeight edges lv n := by
  have hnm : (2 : ℚ) ≤ nodeMinHeight (aggregatedEdges edges) n := by
    unfold nodeMinHeight minNodeHeight
    exact le_max_left _ _
  show (2 : ℚ) ≤ if rawHeight edges lv n < nodeMinHeight (aggregatedEdges edges) n
      then nodeMinHeight (aggregatedEdges edges) n else rawHeight edges lv n
  by_cases h : rawHeight edges lv n < nodeMinHeight (aggregatedEdges edges) n
  · rw [if_pos h]; exact hnm
  · rw [if_neg h]; exact le_trans hnm (not_lt.mp h)

theorem effectivePadding_nonneg (cfg : Config) (edges : List Edge) (lv : List (Str × Nat))
    (L : List Str) (hpad : 0 ≤ cfg.nodePadding) :
    0 ≤ effectivePadding cfg edges lv L := by
  have hp : 0 ≤ paddingPct cfg := by
    unfold paddingPct
    exact mul_nonneg (div_nonneg hpad (by norm_num)) (by norm_num)
  show 0 ≤ if ((((L.filter (fun n => rawHeight edges lv n < minNodeHeight)).length : ℚ))
      > (L.length : ℚ) / 2) then max (paddingPct cfg) minGapHeight else paddingPct cfg
  by_cases h : (((L.filter (fun n => rawHeight edges lv n < minNodeHeight)).length : ℚ))
      > (L.length : ℚ) / 2
  · rw [if_pos h]; exact le_max_of_le_left hp
  · rw [if_neg h]; exact hp

theorem stackEnd_le (edges : List Edge) (lv : List (Str × Nat)) (ep : ℚ) (hep : 0 ≤ ep) :
    ∀ (L : List Str) (top : ℚ), top ≤ stackEnd edges lv ep L top := by
  intro L
  induction L with
  | nil => intro top; exact le_of_eq rfl
  | cons n ns ih =>
    intro top
    simp only [stackEnd]
    have h2 := flooredHeight_ge_two edges lv n
    calc top ≤ top + flooredHeight edges lv n + ep := by linarith
      _ ≤ _ := ih _

theorem stackLevel_bottom_le (edges : List Edge) (lv : List (Str × Nat)) (li : Nat) (ep : ℚ)
    (hep : 0 ≤ ep) : ∀ (L : List Str) (top : ℚ),
    ∀ q ∈ stackLevel edges lv li ep L top,
      q.2.top + q.2.height ≤ stackEnd edges lv ep L top - ep := by
  intro L
  induction L with
  | nil => intro top q hq; simp [stackLevel] at hq
  | cons n ns ih =>
    intro top q hq
    simp only [stackLevel, List.mem_cons] at hq
    simp only [stackEnd]
    rcases hq with rfl | hq
    · have hse := stackEnd_le edges lv ep hep ns (top + flooredHeight edges lv n + ep)
      show top + flooredHeight edges lv n ≤ _
      linarith
    · exact ih _ q hq

theorem stackLevel_bottom_attained (edges : List Edge) (lv : List (Str × Nat)) (li : Nat)
    (ep : ℚ) : ∀ (L : List Str) (top : ℚ), L ≠ [] →
    ∃ q ∈ stackLevel edges lv li ep L top,
      q.2.top + q.2.height = stackEnd edges lv ep L top - ep := by
  intro L
  induction L with
  | nil => intro top h; exact absurd rfl h
  | cons n ns ih =>
    intro top _
    by_cases hns : ns = []
    · subst hns
      refine ⟨(n, ⟨top, flooredHeight edges lv n, li⟩), by simp [stackLevel], ?_⟩
      show top + flooredHeight edges lv n
          = stackEnd edges lv ep [] (top + flooredHeight edges lv n + ep) - ep
      simp only [stackEnd]
      ring
    · obtain ⟨q, hq, he⟩ := ih (top + flooredHeight edges lv n + ep) hns
      refine ⟨q, ?_, ?_⟩
      · simp only [stackLevel, List.mem_cons]
        exact Or.inr hq
      · simpa only [stackEnd] using he

theorem stackLevel_keys (edges : List Edge) (lv : List (Str × Nat)) (li : Nat) (ep : ℚ) :
    ∀ (L : List Str) (top : ℚ), (stackLevel edges lv li ep L top).map Prod.fst = L := by
  intro L
  induction L with
  | nil => intro top; rfl
  | cons n ns ih =>
    intro top
    simp only [stackLevel, List.map_cons, ih]

theorem stackLevel_height (edges : List Edge) (lv : List (Str × Nat)) (li : Nat) (ep : ℚ) :
    ∀ (L : List Str) (top : ℚ), ∀ q ∈ stackLevel edges lv li ep L top,
      q.2.height = flooredHeight edges lv q.1 ∧ q.2.level = li := by
  intro L
  induction L with
  | nil => intro top q hq; simp [stackLevel] at hq
  | cons n ns ih =>
    intro top q hq
    simp only [stackLevel, List.mem_cons] at hq
    rcases hq with rfl | hq
    · exact ⟨rfl, rfl⟩
    · exact ih _ q hq

theorem foldl_max_apply_init_le {α : Type} (g : α → ℚ) : ∀ (L : List α) (init : ℚ),
    init ≤ L.foldl (fun mb x => max mb (g x)) init := by
  intro L
  induction L with
  | nil => intro init; exact le_of_eq rfl
  | cons x rest ih =>
    intro init
    rw [List.foldl_cons]
    exact le_trans (le_max_left init (g x)) (ih _)

theorem le_foldl_max_apply {α : Type} (g : α → ℚ) : ∀ (L : List α) (n : α) (init : ℚ),
    n ∈ L → g n ≤ L.foldl (fun mb x => max mb (g x)) init := by
  intro L
  induction L with
  | nil => intro n init hn; simp at hn
  | cons x rest ih =>
    intro n init hn
    rw [List.foldl_cons]
    rcases List.mem_cons.mp hn with rfl | hn
    · exact le_trans (le_max_right init (g n)) (foldl_max_apply_init_le g rest _)
    · exact ih n (max init (g x)) hn

theorem foldl_max_apply_le {α : Type} (g : α → ℚ) : ∀ (L : List α) (init B : ℚ),
    init ≤ B → (∀ n ∈ L, g n ≤ B) → L.foldl (fun mb x => max mb (g x)) init ≤ B := by
  intro L
  induction L with
  | nil => intro init B h _; exact h
  | cons x rest ih =>
    intro init B hinit hall
    rw [List.foldl_cons]
    exact ih _ B (max_le hinit (hall x (by simp)))
      (fun n hn => hall n (by simp [hn]))

/-- The nodes of one level, in node-set order (the lambda of
sankey.js lines 119 to 122 applied at a single level index). -/
def levelListOf (edges : List Edge) (lv : List (Str × Nat)) (i : Nat) : List Str :=
  (nodeSet edges).filter (fun n => levelOf edges lv n = i)

theorem levelsOf_eq (edges : List Edge) (lv : List (Str × Nat)) :
    levelsOf edges lv = (List.range (levelCount edges lv)).map (levelListOf edges lv) := rfl

theorem levelListOf_nodup (edges : List Edge) (lv : List (Str × Nat)) (i : Nat) :
    (levelListOf edges lv i).Nodup :=
  List.Nodup.filter _ (nodeSet_nodup edges)

theorem mem_levelListOf (edges : List Edge) (lv : List (Str × Nat)) (i : Nat) (n : Str) :
    n ∈ levelListOf edges lv i ↔ n ∈ nodeSet edges ∧ levelOf edges lv n = i := by
  unfold levelListOf
  simp [List.mem_filter]

theorem levelOf_lt_levelCount (edges : List Edge) (lv : List (Str × Nat)) (n : Str) :
    levelOf edges lv n < levelCount edges lv := by
  unfold levelOf levelCount
  cases h : mget (fillLevels edges lv) n with
  | none => simp
  | some l =>
    have hmem : (n, l) ∈ fillLevels edges lv := mget_some_mem _ _ _ h
    have hl : l ∈ (fillLevels edges lv).map (fun p => p.2) :=
      List.mem_map.mpr ⟨(n, l), hmem, rfl⟩
    have := le_foldl_max_nat _ l 0 hl
    simp only [Option.getD_some]
    omega

theorem mem_levelsOf (edges : List Edge) (lv : List (Str × Nat)) (L : List Str) :
    L ∈ levelsOf edges lv ↔ ∃ i < levelCount edges lv, L = levelListOf edges lv i := by
  rw [levelsOf_eq]
  simp only [List.mem_map, List.mem_range]
  constructor
  · rintro ⟨i, hi, rfl⟩; exact ⟨i, hi, rfl⟩
  · rintro ⟨i, hi, rfl⟩; exact ⟨i, hi, rfl⟩

theorem fold_groups_mget (cfg : Config) (edges : List Edge) (lv : List (Str × Nat))
    (n : Str) (j : Nat) (Lj : List Str) (hn : n ∈ Lj) (hnd : Lj.Nodup) :
    ∀ (groups : List (Nat × List Str)) (m : List (Str × Pos)),
    (∀ p ∈ groups, n ∈ p.2 → p = (j, Lj)) →
    mget (groups.foldl (fun acc p =>
      (stackLevel edges lv p.1 (effectivePadding cfg edges lv p.2) p.2 0).foldl
        (fun m2 q => mset m2 q.1 q.2) acc) m) n
      = if ∃ p ∈ groups, n ∈ p.2
        then mget (stackLevel edges lv j (effectivePadding cfg edges lv Lj) Lj 0) n
        else mget m n := by
  intro groups
  induction groups with
  | nil =>
    intro m _
    rw [List.foldl_nil, if_neg]
    rintro ⟨p, hp, _⟩
    simp at hp
  | cons g gs ih =>
    intro m hg
    rw [List.foldl_cons]
    by_cases hgn : n ∈ g.2
    · have hgj : g = (j, Lj) := hg g (by simp) hgn
      have hval : mget ((stackLevel edges lv g.1 (effectivePadding cfg edges lv g.2) g.2 0).foldl
          (fun m2 q => mset m2 q.1 q.2) m) n
          = mget (stackLevel edges lv j (effectivePadding cfg edges lv Lj) Lj 0) n := by
        subst hgj
        rw [mget_foldl_set _ _ _ (by rw [stackLevel_keys]; exact hnd)]
        have hsome := mget_isSome_of_mem_keys
          (stackLevel edges lv j (effectivePadding cfg edges lv Lj) Lj 0) n
          (by rw [stackLevel_keys]; exact hn)
        obtain ⟨v, hv⟩ := Option.isSome_iff_exists.mp hsome
        rw [hv]
      rw [ih _ (fun p hp => hg p (by simp [hp]))]
      by_cases hgs : ∃ p ∈ gs, n ∈ p.2
      · rw [if_pos hgs, if_pos ⟨g, by simp, hgn⟩]
      · rw [if_neg hgs, if_pos ⟨g, by simp, hgn⟩, hval]
    · have habs : mget ((stackLevel edges lv g.1 (effectivePadding cfg edges lv g.2) g.2 0).foldl
          (fun m2 q => mset m2 q.1 q.2) m) n = mget m n := by
        apply mget_foldl_set_absent
        rw [stackLevel_keys]
        exact hgn
      rw [ih _ (fun p hp => hg p (by simp [hp]))]
      by_cases hgs : ∃ p ∈ gs, n ∈ p.2
      · rw [if_pos hgs, if_pos (by
          obtain ⟨p, hp, hnp⟩ := hgs
          exact ⟨p, by simp [hp], hnp⟩)]
      · rw [if_neg hgs, habs, if_neg]
        rintro ⟨p, hp, hnp⟩
        rcases List.mem_cons.mp hp with rfl | hp
        · exact hgn hnp
        · exact hgs ⟨p, hp, hnp⟩

theorem mget_posSized (cfg : Config) (edges : List Edge) (lv : List (Str × Nat)) (n : Str)
    (hn : n ∈ nodeSet edges) :
    mget (nodePositionSized cfg edges lv) n
      = mget (stackLevel edges lv (levelOf edges lv n)
          (effectivePadding cfg edges lv (levelListOf edges lv (levelOf edges lv n)))
          (levelListOf edges lv (levelOf edges lv n)) 0) n := by
  have hnLj : n ∈ levelListOf edges lv (levelOf edges lv n) :=
    (mem_levelListOf edges lv _ n).mpr ⟨hn, rfl⟩
  have hg : ∀ p ∈ (levelsOf edges lv).enum, n ∈ p.2 →
      p = (levelOf edges lv n, levelListOf edges lv (levelOf edges lv n)) := by
    intro p hp hnp
    have hget := List.mem_enum_iff_getElem?.mp hp
    rw [levelsOf_eq, List.getElem?_map] at hget
    by_cases hlt : p.1 < levelCount edges lv
    · rw [List.getElem?_range hlt, Option.map_some'] at hget
      have hget2 : levelListOf edges lv p.1 = p.2 := by injection hget
      have hn2 : n ∈ levelListOf edges lv p.1 := by rw [hget2]; exact hnp
      have hlev : levelOf edges lv n = p.1 :=
        ((mem_levelListOf edges lv p.1 n).mp hn2).2
      have hpp : p = (p.1, p.2) := rfl
      rw [hpp, ← hget2, hlev]
    · rw [List.getElem?_eq_none (by simpa using not_lt.mp hlt)] at hget
      exact absurd hget (by simp)
  have hex : ∃ p ∈ (levelsOf edges lv).enum, n ∈ p.2 := by
    refine ⟨(levelOf edges lv n, levelListOf edges lv (levelOf edges lv n)), ?_, hnLj⟩
    apply List.mem_enum_iff_getElem?.mpr
    show (levelsOf edges lv)[levelOf edges lv n]? = _
    rw [levelsOf_eq, List.getElem?_map,
      List.getElem?_range (levelOf_lt_levelCount edges lv n)]
    rfl
  have := fold_groups_mget cfg edges lv n (levelOf edges lv n)
    (levelListOf edges lv (levelOf edges lv n)) hnLj
    (levelListOf_nodup edges lv _) ((levelsOf edges lv).enum) [] hg
  rw [if_pos hex] at this
  exact this

theorem maxLevelHeight_eq (cfg : Config) (edges : List Edge) (lv : List (Str × Nat)) :
    maxLevelHeight cfg edges lv
      = (levelsOf edges lv).foldl (fun acc L =>
          if levelHeight cfg edges lv L > acc then levelHeight cfg edges lv L else acc)
        100 := rfl

theorem foldl_if_max_init_le (f : List Str → ℚ) : ∀ (ls : List (List Str)) (init : ℚ),
    init ≤ ls.foldl (fun acc L => if f L > acc then f L else acc) init := by
  intro ls
  induction ls with
  | nil => intro init; exact le_of_eq rfl
  | cons x rest ih =>
    intro init
    rw [List.foldl_cons]
    refine le_trans ?_ (ih _)
    by_cases h : f x > init
    · rw [if_pos h]; exact le_of_lt h
    · rw [if_neg h]

theorem le_foldl_if_max (f : List Str → ℚ) : ∀ (ls : List (List Str)) (init : ℚ)
    (L : List Str), L ∈ ls →
    f L ≤ ls.foldl (fun acc L2 => if f L2 > acc then f L2 else acc) init := by
  intro ls
  induction ls with
  | nil => intro init L hL; simp at hL
  | cons x rest ih =>
    intro init L hL
    rw [List.foldl_cons]
    rcases List.mem_cons.mp hL with rfl | hL
    · refine le_trans ?_ (foldl_if_max_init_le f rest _)
      by_cases h : f L > init
      · rw [if_pos h]
      · rw [if_neg h]; exact not_lt.mp h
    · exact ih _ L hL

theorem foldl_if_max_cases (f : List Str → ℚ) : ∀ (ls : List (List Str)) (init : ℚ),
    ls.foldl (fun acc L => if f L > acc then f L else acc) init = init
      ∨ ∃ L ∈ ls, ls.foldl (fun acc L2 => if f L2 > acc then f L2 else acc) init = f L := by
  intro ls
  induction ls with
  | nil => intro init; exact Or.inl rfl
  | cons x rest ih =>
    intro init
    rw [List.foldl_cons]
    by_cases hx : f x > init
    · rw [if_pos hx]
      rcases ih (f x) with h | ⟨L, hL, h⟩
      · exact Or.inr ⟨x, by simp, h⟩
      · exact Or.inr ⟨L, by simp [hL], h⟩
    · rw [if_neg hx]
      rcases ih init with h | ⟨L, hL, h⟩
      · exact Or.inl h
      · exact Or.inr ⟨L, by simp [hL], h⟩

theorem levelHeight_le_max (cfg : Config) (edges : List Edge) (lv : List (Str × Nat))
    (L : List Str) (hL : L ∈ levelsOf edges lv) :
    levelHeight cfg edges lv L ≤ maxLevelHeight cfg edges lv := by
  rw [maxLevelHeight_eq]
  exact le_foldl_if_max _ _ _ _ hL

theorem maxLevelHeight_attained (cfg : Config) (edges : List Edge) (lv : List (Str × Nat)) :
    maxLevelHeight cfg edges lv = 100
      ∨ ∃ L ∈ levelsOf edges lv,
          maxLevelHeight cfg edges lv = levelHeight cfg edges lv L := by
  rw [maxLevelHeight_eq]
  exact foldl_if_max_cases _ _ _

theorem nodePositionScaled_of_gt (cfg : Config) (edges : List Edge) (lv : List (Str × Nat))
    (h : heightScale cfg edges lv > 1) :
    nodePositionScaled cfg edges lv
      = (nodePositionSized cfg edges lv).map (fun p =>
          (p.1, ⟨p.2.top / heightScale cfg edges lv, p.2.height / heightScale cfg edges lv,
            p.2.level⟩)) := by
  simp only [nodePositionScaled]
  rw [if_pos h]

theorem posSized_mem_level (cfg : Config) (edges : List Edge) (lv : List (Str × Nat))
    (n : Str) (hn : n ∈ nodeSet edges) :
    ∃ v, mget (nodePositionSized cfg edges lv) n = some v
      ∧ (n, v) ∈ stackLevel edges lv (levelOf edges lv n)
          (effectivePadding cfg edges lv (levelListOf edges lv (levelOf edges lv n)))
          (levelListOf edges lv (levelOf edges lv n)) 0 := by
  have hkey : n ∈ (stackLevel edges lv (levelOf edges lv n)
      (effectivePadding cfg edges lv (levelListOf edges lv (levelOf edges lv n)))
      (levelListOf edges lv (levelOf edges lv n)) 0).map Prod.fst := by
    rw [stackLevel_keys]
    exact (mem_levelListOf edges lv _ n).mpr ⟨hn, rfl⟩
  have hsome := mget_isSome_of_mem_keys _ _ hkey
  obtain ⟨v, hv⟩ := Option.isSome_iff_exists.mp hsome
  exact ⟨v, by rw [mget_posSized cfg edges lv n hn]; exact hv, mget_some_mem _ _ _ hv⟩

theorem posSized_bottom_le (cfg : Config) (edges : List Edge) (lv : List (Str × Nat))
    (hpad : 0 ≤ cfg.nodePadding) (n : Str) (hn : n ∈ nodeSet edges) :
    (pget (nodePositionSized cfg edges lv) n).top
        + (pget (nodePositionSized cfg edges lv) n).height
      ≤ levelHeight cfg edges lv (levelListOf edges lv (levelOf edges lv n)) := by
  obtain ⟨v, hv, hmem⟩ := posSized_mem_level cfg edges lv n hn
  have hp : pget (nodePositionSized cfg edges lv) n = v := by
    unfold pget
    rw [hv]
    rfl
  rw [hp]
  have hb := stackLevel_bottom_le edges lv (levelOf edges lv n) _
    (effectivePadding_nonneg cfg edges lv _ hpad) _ 0 (n, v) hmem
  simpa [levelHeight] using hb

theorem level_bottom_attained (cfg : Config) (edges : List Edge) (lv : List (Str × Nat))
    (hpad : 0 ≤ cfg.nodePadding) (i : Nat) (hne : levelListOf edges lv i ≠ []) :
    ∃ n ∈ levelListOf edges lv i,
      (pget (nodePositionSized cfg edges lv) n).top
          + (pget (nodePositionSized cfg edges lv) n).height
        = levelHeight cfg edges lv (levelListOf edges lv i) := by
  obtain ⟨q, hq, he⟩ := stackLevel_bottom_attained edges lv i
    (effectivePadding cfg edges lv (levelListOf edges lv i)) _ 0 hne
  have hq1 : q.1 ∈ levelListOf edges lv i := by
    rw [← stackLevel_keys edges lv i (effectivePadding cfg edges lv (levelListOf edges lv i))
      (levelListOf edges lv i) 0]
    exact List.mem_map.mpr ⟨q, hq, rfl⟩
  have hlev : levelOf edges lv q.1 = i := ((mem_levelListOf edges lv i q.1).mp hq1).2
  have hnode : q.1 ∈ nodeSet edges := ((mem_levelListOf edges lv i q.1).mp hq1).1
  have hkeysnd : ((stackLevel edges lv i
      (effectivePadding cfg edges lv (levelListOf edges lv i))
      (levelListOf edges lv i) 0).map Prod.fst).Nodup := by
    rw [stackLevel_keys]
    exact levelListOf_nodup edges lv i
  have hm : mget (stackLevel edges lv i
      (effectivePadding cfg edges lv (levelListOf edges lv i))
      (levelListOf edges lv i) 0) q.1 = some q.2 :=
    mget_of_mem_nodup _ _ _ hkeysnd (by rw [show ((q.1 : Str), q.2) = q from rfl]; exact hq)
  have hp : pget (nodePositionSized cfg edges lv) q.1 = q.2 := by
    unfold pget
    rw [mget_posSized cfg edges lv q.1 hnode, hlev, hm]
    rfl
  refine ⟨q.1, hq1, ?_⟩
  rw [hp]
  simpa [levelHeight] using he

/-- Largest node bottom edge inside one level of a position map: the
maxBottom fold that the per-level centering step computes
(sankey.js lines 239 to 244). -/
def levelMaxBottom (L : List Str) (m : List (Str × Pos)) : ℚ :=
  L.foldl (fun mb n => max mb ((pget m n).top + (pget m n).height)) 0

/-- Largest level content height across all levels of a position map. -/
def maxContentHeight (edges : List Edge) (lv : List (Str × Nat))
    (m : List (Str × Pos)) : ℚ :=
  ((levelsOf edges lv).map (fun L => levelMaxBottom L m)).foldl max 0

theorem mget_map_pos (hs : ℚ) : ∀ (m : List (Str × Pos)) (n : Str),
    mget (m.map (fun p => (p.1, (⟨p.2.top / hs, p.2.height / hs, p.2.level⟩ : Pos)))) n
      = (mget m n).map (fun q => (⟨q.top / hs, q.height / hs, q.level⟩ : Pos)) := by
  intro m
  induction m with
  | nil => intro n; rfl
  | cons p rest ih =>
    intro n
    rw [List.map_cons, mget_cons, show (p : Str × Pos) = (p.1, p.2) from rfl, mget_cons]
    by_cases h : p.1 = n
    · rw [if_pos h, if_pos h]
      rfl
    · rw [if_neg h, if_neg h, ih]

/-- C6: height normalization.  Whenever some level's required height
(stacked node heights plus effective inter-node padding) exceeds 100, the
global scaling step divides every node's top and height by
maxLevelHeight / 100, and afterwards the maximum level content height
(the largest node bottom edge across all levels, the exact quantity the
centering step measures) is exactly 100. -/
theorem c6_heightNormalization (cfg : Config) (edges : List Edge) (lv : List (Str × Nat))
    (hpad : 0 ≤ cfg.nodePadding)
    (hover : ∃ L ∈ levelsOf edges lv, 100 < levelHeight cfg edges lv L) :
    maxContentHeight edges lv (nodePositionScaled cfg edges lv) = 100 := by
  obtain ⟨L0, hL0, hlh0⟩ := hover
  have hmax0 : 100 < maxLevelHeight cfg edges lv :=
    lt_of_lt_of_le hlh0 (levelHeight_le_max cfg edges lv L0 hL0)
  have hmaxpos : 0 < maxLevelHeight cfg edges lv := by linarith
  have hhs : heightScale cfg edges lv > 1 := by
    unfold heightScale
    rw [gt_iff_lt, one_lt_div (by norm_num : (0:ℚ) < 100)]
    exact hmax0
  have hhspos : 0 < heightScale cfg edges lv := by linarith
  have hmap := nodePositionScaled_of_gt cfg edges lv hhs
  have hdiv : maxLevelHeight cfg edges lv / heightScale cfg edges lv = 100 := by
    unfold heightScale
    rw [div_div_eq_mul_div, mul_comm, mul_div_assoc, div_self (ne_of_gt hmaxpos), mul_one]
  have hpget : ∀ n ∈ nodeSet edges,
      pget (nodePositionScaled cfg edges lv) n
        = ⟨(pget (nodePositionSized cfg edges lv) n).top / heightScale cfg edges lv,
           (pget (nodePositionSized cfg edges lv) n).height / heightScale cfg edges lv,
           (pget (nodePositionSized cfg edges lv) n).level⟩ := by
    intro n hn
    obtain ⟨v, hv, _⟩ := posSized_mem_level cfg edges lv n hn
    unfold pget
    rw [hmap, mget_map_pos, hv]
    rfl
  have hub : ∀ L ∈ levelsOf edges lv,
      levelMaxBottom L (nodePositionScaled cfg edges lv) ≤ 100 := by
    intro L hL
    obtain ⟨i, hi, rfl⟩ := (mem_levelsOf edges lv L).mp hL
    unfold levelMaxBottom
    apply foldl_max_apply_le
    · norm_num
    · intro n hnL
      have hn : n ∈ nodeSet edges := ((mem_levelListOf edges lv i n).mp hnL).1
      have hlev : levelOf edges lv n = i := ((mem_levelListOf edges lv i n).mp hnL).2
      rw [hpget n hn]
      show (pget (nodePositionSized cfg edges lv) n).top / heightScale cfg edges lv
          + (pget (nodePositionSized cfg edges lv) n).height / heightScale cfg edges lv ≤ 100
      rw [div_add_div_same]
      have hb := posSized_bottom_le cfg edges lv hpad n hn
      rw [hlev] at hb
      have hlm : levelHeight cfg edges lv (levelListOf edges lv i)
          ≤ maxLevelHeight cfg edges lv :=
        levelHeight_le_max cfg edges lv _ (by rw [mem_levelsOf]; exact ⟨i, hi, rfl⟩)
      exact le_trans ((div_le_div_right hhspos).mpr (le_trans hb hlm)) (le_of_eq hdiv)
  rcases maxLevelHeight_attained cfg edges lv with hcase | ⟨Ls, hLs, hLs_eq⟩
  · rw [hcase] at hmax0
    norm_num at hmax0
  · obtain ⟨i, hi, rfl⟩ := (mem_levelsOf edges lv Ls).mp hLs
    have hne : levelListOf edges lv i ≠ [] := by
      intro h
      rw [h] at hLs_eq
      have hlhe : levelHeight cfg edges lv ([] : List Str)
          = - effectivePadding cfg edges lv [] := by
        unfold levelHeight
        simp only [stackEnd]
        ring
      rw [hlhe] at hLs_eq
      have hep := effectivePadding_nonneg cfg edges lv ([] : List Str) hpad
      rw [hLs_eq] at hmax0
      linarith
    obtain ⟨n, hnL, hbot⟩ := level_bottom_attained cfg edges lv hpad i hne
    have hn : n ∈ nodeSet edges := ((mem_levelListOf edges lv i n).mp hnL).1
    have hbots : (pget (nodePositionScaled cfg edges lv) n).top
        + (pget (nodePositionScaled cfg edges lv) n).height = 100 := by
      rw [hpget n hn]
      show (pget (nodePositionSized cfg edges lv) n).top / heightScale cfg edges lv
          + (pget (nodePositionSized cfg edges lv) n).height / heightScale cfg edges lv = 100
      rw [div_add_div_same, hbot, ← hLs_eq, hdiv]
    have hlb : 100 ≤ levelMaxBottom (levelListOf edges lv i)
        (nodePositionScaled cfg edges lv) := by
      unfold levelMaxBottom
      have hla := le_foldl_max_apply
        (fun x => (pget (nodePositionScaled cfg edges lv) x).top
          + (pget (nodePositionScaled cfg edges lv) x).height)
        (levelListOf edges lv i) n 0 hnL
      exact le_trans (le_of_eq hbots.symm) hla
    unfold maxContentHeight
    apply le_antisymm
    · apply foldl_max_le_rat
      · norm_num
      · intro a ha
        obtain ⟨L, hL, rfl⟩ := List.mem_map.mp ha
        exact hub L hL
    · refine le_trans hlb (le_foldl_max_rat _ _ 0 ?_)
      exact List.mem_map.mpr ⟨levelListOf edges lv i, hLs, rfl⟩

def nD : Str := "D".toList

/-- One node fanning out to three targets; the second level needs
3 x 100/3 height plus padding, so it overflows 100. -/
def edgesC6 : List Edge := [⟨nA, nB, 1⟩, ⟨nA, nC, 1⟩, ⟨nA, nD, 1⟩]

def lvC6 : List (Str × Nat) := [(nA, 0), (nB, 1), (nC, 1), (nD, 1)]

theorem c6_heightNormalization_witness :
    (0 ≤ ({} : Config).nodePadding
        ∧ ∃ L ∈ levelsOf edgesC6 lvC6, 100 < levelHeight {} edgesC6 lvC6 L)
      ∧ maxContentHeight edgesC6 lvC6 (nodePositionScaled {} edgesC6 lvC6) = 100 := by
  have hpad : 0 ≤ ({} : Config).nodePadding := by norm_num
  have hover : ∃ L ∈ levelsOf edgesC6 lvC6, 100 < levelHeight {} edgesC6 lvC6 L := by
    refine ⟨[nB, nC, nD], by decide, ?_⟩
    simp [levelHeight, stackEnd, effectivePadding, paddingPct, minNodeHeight, minGapHeight,
      rawHeight, nodeThroughput, maxLevelThroughput, levelThroughput, levelsOf, levelCount,
      fillLevels, levelOf, nodeSet, insertUnique, mget, mset, flooredHeight, nodeMinHeight,
      aggregatedEdges, edgeMap, recoverEdge, splitCC, keyOf, nodeInFlow, nodeOutFlow,
      nodeOutFlowCount, nodeInFlowCount, minFlowHeightBase, edgesC6, lvC6, nA, nB, nC, nD,
      List.range_succ, Function.comp, List.filter_cons, max_def]
    norm_num
  exact ⟨⟨hpad, hover⟩, c6_heightNormalization {} edgesC6 lvC6 hpad hover⟩

theorem stackLevelP5_keys (cfg : P5.Config) (edges : List Edge) (lv : List (Str × Nat))
    (li : Nat) (ep : ℚ) : ∀ (L : List Str) (top : ℚ),
    (P5.stackLevel cfg edges lv li ep L top).map Prod.fst = L := by
  intro L
  induction L with
  | nil => intro top; rfl
  | cons n ns ih =>
    intro top
    simp only [P5.stackLevel, List.map_cons, ih]

theorem stackLevelP5_height (cfg : P5.Config) (edges : List Edge) (lv : List (Str × Nat))
    (li : Nat) (ep : ℚ) : ∀ (L : List Str) (top : ℚ),
    ∀ q ∈ P5.stackLevel cfg edges lv li ep L top,
      q.2.height = P5.nodeHeightP5 cfg edges lv q.1 := by
  intro L
  induction L with
  | nil => intro top q hq; simp [P5.stackLevel] at hq
  | cons n ns ih =>
    intro top q hq
    simp only [P5.stackLevel, List.mem_cons] at hq
    rcases hq with rfl | hq
    · rfl
    · exact ih _ q hq

theorem fold_groupsP5_mget (cfg : P5.Config) (edges : List Edge) (lv : List (Str × Nat))
    (n : Str) (j : Nat) (Lj : List Str) (hn : n ∈ Lj) (hnd : Lj.Nodup) :
    ∀ (groups : List (Nat × List Str)) (m : List (Str × Pos)),
    (∀ p ∈ groups, n ∈ p.2 → p = (j, Lj)) →
    mget (groups.foldl (fun acc p =>
      (P5.stackLevel cfg edges lv p.1 (P5.effectivePadding cfg edges lv p.2) p.2 0).foldl
        (fun m2 q => mset m2 q.1 q.2) acc) m) n
      = if ∃ p ∈ groups, n ∈ p.2
        then mget (P5.stackLevel cfg edges lv j (P5.effectivePadding cfg edges lv Lj) Lj 0) n
        else mget m n := by
  intro groups
  induction groups with
  | nil =>
    intro m _
    rw [List.foldl_nil, if_neg]
    rintro ⟨p, hp, _⟩
    simp at hp
  | cons g gs ih =>
    intro m hg
    rw [List.foldl_cons]
    by_cases hgn : n ∈ g.2
    · have hgj : g = (j, Lj) := hg g (by simp) hgn
      have hval : mget ((P5.stackLevel cfg edges lv g.1 (P5.effectivePadding cfg edges lv g.2)
            g.2 0).foldl (fun m2 q => mset m2 q.1 q.2) m) n
          = mget (P5.stackLevel cfg edges lv j (P5.effectivePadding cfg edges lv Lj) Lj 0) n := by
        subst hgj
        rw [mget_foldl_set _ _ _ (by rw [stackLevelP5_keys]; exact hnd)]
        have hsome := mget_isSome_of_mem_keys
          (P5.stackLevel cfg edges lv j (P5.effectivePadding cfg edges lv Lj) Lj 0) n
          (by rw [stackLevelP5_keys]; exact hn)
        obtain ⟨v, hv⟩ := Option.isSome_iff_exists.mp hsome
        rw [hv]
      rw [ih _ (fun p hp => hg p (by simp [hp]))]
      by_cases hgs : ∃ p ∈ gs, n ∈ p.2
      · rw [if_pos hgs, if_pos ⟨g, by simp, hgn⟩]
      · rw [if_neg hgs, if_pos ⟨g, by simp, hgn⟩, hval]
    · have habs : mget ((P5.stackLevel cfg edges lv g.1 (P5.effectivePadding cfg edges lv g.2)
            g.2 0).foldl (fun m2 q => mset m2 q.1 q.2) m) n = mget m n := by
        apply mget_foldl_set_absent
        rw [stackLevelP5_keys]
        exact hgn
      rw [ih _ (fun p hp => hg p (by simp [hp]))]
      by_cases hgs : ∃ p ∈ gs, n ∈ p.2
      · rw [if_pos hgs, if_pos (by
          obtain ⟨p, hp, hnp⟩ := hgs
          exact ⟨p, by simp [hp], hnp⟩)]
      · rw [if_neg hgs, habs, if_neg]
        rintro ⟨p, hp, hnp⟩
        rcases List.mem_cons.mp hp with rfl | hp
        · exact hgn hnp
        · exact hgs ⟨p, hp, hnp⟩

theorem mget_posSizedP5 (cfg : P5.Config) (edges : List Edge) (lv : List (Str × Nat))
    (n : Str) (hn : n ∈ nodeSet edges) :
    mget (P5.nodePositionSized cfg edges lv) n
      = mget (P5.stackLevel cfg edges lv (levelOf edges lv n)
          (P5.effectivePadding cfg edges lv (levelListOf edges lv (levelOf edges lv n)))
          (levelListOf edges lv (levelOf edges lv n)) 0) n := by
  have hnLj : n ∈ levelListOf edges lv (levelOf edges lv n) :=
    (mem_levelListOf edges lv _ n).mpr ⟨hn, rfl⟩
  have hg : ∀ p ∈ (levelsOf edges lv).enum, n ∈ p.2 →
      p = (levelOf edges lv n, levelListOf edges lv (levelOf edges lv n)) := by
    intro p hp hnp
    have hget := List.mem_enum_iff_getElem?.mp hp
    rw [levelsOf_eq, List.getElem?_map] at hget
    by_cases hlt : p.1 < levelCount edges lv
    · rw [List.getElem?_range hlt, Option.map_some'] at hget
      have hget2 : levelListOf edges lv p.1 = p.2 := by injection hget
      have hn2 : n ∈ levelListOf edges lv p.1 := by rw [hget2]; exact hnp
      have hlev : levelOf edges lv n = p.1 :=
        ((mem_levelListOf edges lv p.1 n).mp hn2).2
      have hpp : p = (p.1, p.2) := rfl
      rw [hpp, ← hget2, hlev]
    · rw [List.getElem?_eq_none (by simpa using not_lt.mp hlt)] at hget
      exact absurd hget (by simp)
  have hex : ∃ p ∈ (levelsOf edges lv).enum, n ∈ p.2 := by
    refine ⟨(levelOf edges lv n, levelListOf edges lv (levelOf edges lv n)), ?_, hnLj⟩
    apply List.mem_enum_iff_getElem?.mpr
    show (levelsOf edges lv)[levelOf edges lv n]? = _
    rw [levelsOf_eq, List.getElem?_map,
      List.getElem?_range (levelOf_lt_levelCount edges lv n)]
    rfl
  have hfold := fold_groupsP5_mget cfg edges lv n (levelOf edges lv n)
    (levelListOf edges lv (levelOf edges lv n)) hnLj
    (levelListOf_nodup edges lv _) ((levelsOf edges lv).enum) [] hg
  rw [if_pos hex] at hfold
  exact hfold

theorem posSizedP5_height (cfg : P5.Config) (edges : List Edge) (lv : List (Str × Nat))
    (n : Str) (hn : n ∈ nodeSet edges) :
    (pget (P5.nodePositionSized cfg edges lv) n).height
      = P5.nodeHeightP5 cfg edges lv n := by
  have hkey : n ∈ (P5.stackLevel cfg edges lv (levelOf edges lv n)
      (P5.effectivePadding cfg edges lv (levelListOf edges lv (levelOf edges lv n)))
      (levelListOf edges lv (levelOf edges lv n)) 0).map Prod.fst := by
    rw [stackLevelP5_keys]
    exact (mem_levelListOf edges lv _ n).mpr ⟨hn, rfl⟩
  have hsome := mget_isSome_of_mem_keys _ _ hkey
  obtain ⟨v, hv⟩ := Option.isSome_iff_exists.mp hsome
  have hmem := mget_some_mem _ _ _ hv
  have hh := stackLevelP5_height cfg edges lv (levelOf edges lv n) _ _ 0 (n, v) hmem
  have hp : pget (P5.nodePositionSized cfg edges lv) n = v := by
    unfold pget
    rw [mget_posSizedP5 cfg edges lv n hn, hv]
    rfl
  rw [hp]
  exact hh

theorem mget_map_posP5 (hs : ℚ) : ∀ (m : List (Str × Pos)) (n : Str),
    mget (m.map (fun p => (p.1, (⟨p.2.top / hs, p.2.height / hs, p.2.level⟩ : Pos)))) n
      = (mget m n).map (fun q => (⟨q.top / hs, q.height / hs, q.level⟩ : Pos)) := by
  intro m
  induction m with
  | nil => intro n; rfl
  | cons p rest ih =>
    intro n
    rw [List.map_cons, mget_cons, show (p : Str × Pos) = (p.1, p.2) from rfl, mget_cons]
    by_cases h : p.1 = n
    · rw [if_pos h, if_pos h]
      rfl
    · rw [if_neg h, if_neg h, ih]

theorem posScaledP5_height (cfg : P5.Config) (edges : List Edge) (lv : List (Str × Nat))
    (n : Str) (hn : n ∈ nodeSet edges) :
    (pget (P5.nodePositionScaled cfg edges lv) n).height
      = P5.nodeHeightP5 cfg edges lv n
        / (if P5.heightScale cfg edges lv > 1 then P5.heightScale cfg edges lv else 1) := by
  by_cases hhs : P5.heightScale cfg edges lv > 1
  · have hmap : P5.nodePositionScaled cfg edges lv
        = (P5.nodePositionSized cfg edges lv).map (fun p =>
            (p.1, ⟨p.2.top / P5.heightScale cfg edges lv,
              p.2.height / P5.heightScale cfg edges lv, p.2.level⟩)) := by
      simp only [P5.nodePositionScaled]
      rw [if_pos hhs]
    have hkey : n ∈ (P5.stackLevel cfg edges lv (levelOf edges lv n)
        (P5.effectivePadding cfg edges lv (levelListOf edges lv (levelOf edges lv n)))
        (levelListOf edges lv (levelOf edges lv n)) 0).map Prod.fst := by
      rw [stackLevelP5_keys]
      exact (mem_levelListOf edges lv _ n).mpr ⟨hn, rfl⟩
    have hsome := mget_isSome_of_mem_keys _ _ hkey
    obtain ⟨v, hv⟩ := Option.isSome_iff_exists.mp hsome
    have hv2 : mget (P5.nodePositionSized cfg edges lv) n = some v := by
      rw [mget_posSizedP5 cfg edges lv n hn]
      exact hv
    have hps : pget (P5.nodePositionScaled cfg edges lv) n
        = ⟨v.top / P5.heightScale cfg edges lv, v.height / P5.heightScale cfg edges lv,
            v.level⟩ := by
      unfold pget
      rw [hmap, mget_map_posP5, hv2]
      rfl
    have hsz : (pget (P5.nodePositionSized cfg edges lv) n).height = v.height := by
      unfold pget
      rw [hv2]
      rfl
    rw [hps, if_pos hhs]
    have := posSizedP5_height cfg edges lv n hn
    rw [hsz] at this
    rw [← this]
  · have hmap : P5.nodePositionScaled cfg edges lv = P5.nodePositionSized cfg edges lv := by
      simp only [P5.nodePositionScaled]
      rw [if_neg hhs]
    rw [hmap, if_neg hhs, div_one]
    exact posSizedP5_height cfg edges lv n hn

/-- C7 (amended): with the proportional flag set, the node minimum-height
floor of the node sizer is indeed disabled: every node's height in the
scaled position map is its proportional raw height times the uniform
scale-up factor, divided by the global overflow factor, and node heights
are therefore pairwise proportional to node throughput.  The minimum
flow-height enforcement of the flow positioner, by contrast, is not
disabled (see the counterexample). -/
theorem c7_proportionalMode (cfg : P5.Config) (edges : List Edge) (lv : List (Str × Nat))
    (hprop : cfg.proportional = true) (m n : Str) (hm : m ∈ nodeSet edges)
    (hn : n ∈ nodeSet edges) :
    (pget (P5.nodePositionScaled cfg edges lv) n).height * nodeThroughput edges m
      = (pget (P5.nodePositionScaled cfg edges lv) m).height * nodeThroughput edges n := by
  have hh : ∀ k, k ∈ nodeSet edges →
      (pget (P5.nodePositionScaled cfg edges lv) k).height
        = nodeThroughput edges k / maxLevelThroughput edges lv * 100
          * P5.proportionalScale cfg edges lv
          / (if P5.heightScale cfg edges lv > 1 then P5.heightScale cfg edges lv else 1) := by
    intro k hk
    rw [posScaledP5_height cfg edges lv k hk]
    have : P5.nodeHeightP5 cfg edges lv k
        = nodeThroughput edges k / maxLevelThroughput edges lv * 100
          * P5.proportionalScale cfg edges lv := by
      simp only [P5.nodeHeightP5, hprop, if_true, P5.scaledRawHeight, rawHeight]
    rw [this]
  rw [hh n hn, hh m hm]
  ring
def cfgC7 : P5.Config := { proportional := true }
def rowsC7 : List Row := [⟨nA, nB, some 100⟩, ⟨nA, nC, some (1/2)⟩, ⟨nD, nC, some 100⟩]
def edgesC7 : List Edge := [⟨nA, nB, 100⟩, ⟨nA, nC, 1/2⟩, ⟨nD, nC, 100⟩]


def lvC7 : List (Str × Nat) := [(nA, 0), (nD, 0), (nB, 1), (nC, 1)]


theorem buildC7 : buildEdges rowsC7 = .ok edgesC7 := by
  simp [buildEdges, buildEdgesGo, rowsC7, edgesC7, jsTrim, rowValue, nA, nB, nC, nD]

theorem aggC7 : aggregatedEdges edgesC7 = edgesC7 := by
  simp [aggregatedEdges, edgeMap, recoverEdge, splitCC, keyOf, mget, mset, edgesC7, nA, nB, nC, nD]

theorem sortC7 : sortedAggregatedEdges edgesC7 lvC7 = edgesC7 := by
  unfold sortedAggregatedEdges
  rw [aggC7]
  simp [isortByLt, insertByLt, edgeKeyLt, levelOf, fillLevels,
    nodeSet, insertUnique, mget, mset, edgesC7, lvC7, nA, nB, nC, nD]

theorem srcC7 : sourceNodes edgesC7 = [nA, nD] := by
  simp [sourceNodes, nodeSet, insertUnique, nodeInFlow, mget, mset, edgesC7, nA, nB, nC, nD,
    List.filter_cons]
  norm_num

theorem initEqC7 : bfsInit edgesC7 = ⟨[(nA, 0), (nD, 0)], [(nA, 0), (nD, 0)]⟩ := by
  unfold bfsInit
  rw [srcC7]
  simp [mset, nA, nD]

theorem runC7 : bfsRun (aggregatedEdges edgesC7) 10 (bfsInit edgesC7) = some lvC7 := by
  rw [aggC7, initEqC7]
  simp [bfsRun, bfsStep, stepEdge, mget, mset, edgesC7, lvC7, nA, nB, nC, nD]

def sizedC7 : List (Str × Pos) :=
  [(nA, ⟨0, 20100/401, 0⟩), (nD, ⟨42205/802, 20000/401, 0⟩),
   (nB, ⟨0, 20000/401, 1⟩), (nC, ⟨42005/802, 20100/401, 1⟩)]

theorem sizedEqC7 : P5.nodePositionSized cfgC7 edgesC7 lvC7 = sizedC7 := by
  simp [P5.nodePositionSized, P5.stackLevel, P5.effectivePadding, P5.nodeHeightP5,
    P5.scaledRawHeight, P5.proportionalScale, P5.smallestRawHeight, P5.paddingPct,
    rawHeight, nodeThroughput, maxLevelThroughput, levelThroughput, levelsOf, levelCount,
    fillLevels, levelOf, nodeSet, insertUnique, nodeInFlow, nodeOutFlow, mget, mset,
    P5.proportionalMinHeight,
    cfgC7, edgesC7, lvC7, sizedC7, nA, nB, nC, nD, List.range_succ, List.filter_cons,
    max_def, min_def, Function.comp, List.enum, List.enumFrom]
  norm_num

theorem levelsEqC7 : levelsOf edgesC7 lvC7 = [[nA, nD], [nB, nC]] := by decide

theorem hsEqC7 : P5.heightScale cfgC7 edgesC7 lvC7 = 41/40 := by
  have hmx : P5.maxLevelHeight cfgC7 edgesC7 lvC7 = 205/2 := by
    rw [P5.maxLevelHeight, levelsEqC7]
    simp [P5.levelHeight, P5.stackEnd, P5.effectivePadding,
      P5.nodeHeightP5, P5.scaledRawHeight, P5.proportionalScale, P5.smallestRawHeight,
      P5.paddingPct, P5.proportionalMinHeight, rawHeight, nodeThroughput, maxLevelThroughput,
      levelThroughput, levelsOf, levelCount, fillLevels, levelOf,
      nodeSet, insertUnique, nodeInFlow, nodeOutFlow, mget, mset,
      cfgC7, edgesC7, lvC7, nA, nB, nC, nD, List.range_succ, List.filter_cons,
      max_def, min_def, Function.comp]
    norm_num
  rw [P5.heightScale, hmx]
  norm_num

def posC7 : List (Str × Pos) :=
  [(nA, ⟨0, 804000/16441, 0⟩), (nD, ⟨844100/16441, 800000/16441, 0⟩),
   (nB, ⟨0, 800000/16441, 1⟩), (nC, ⟨840100/16441, 804000/16441, 1⟩)]

theorem scaledEqC7 : P5.nodePositionScaled cfgC7 edgesC7 lvC7 = posC7 := by
  simp [P5.nodePositionScaled, hsEqC7, sizedEqC7, sizedC7, posC7, nA, nB, nC, nD]
  norm_num

theorem posEqC7 : P5.nodePosition cfgC7 edgesC7 lvC7 = posC7 := by
  simp [P5.nodePosition, levelsEqC7, scaledEqC7, centerLevel, pget, mget, mset, posC7,
    nA, nB, nC, nD, max_def]
  norm_num [centerLevel, pget, mget, mset, posC7, nA, nB, nC, nD, max_def]
  simp [mget, mset, pget, nA, nB, nC, nD]
  norm_num

def flowsInitC7 : List FlowGeom :=
  [⟨nA, nB, 100, 0, 0, 800000/16441, 1, 0, 800000/16441, 0⟩,
   ⟨nA, nC, 1/2, 0, 800000/16441, 4000/16441, 1, 840100/16441, 4000/16441, 1⟩,
   ⟨nD, nC, 100, 0, 844100/16441, 800000/16441, 1, 844100/16441, 800000/16441, 2⟩]

theorem flowsInitEqC7 : P5.flowsInit cfgC7 edgesC7 lvC7 = flowsInitC7 := by
  rw [P5.flowsInit, posEqC7, sortC7]
  simp [mkFlowsGo, pget, mget, mset, nodeThroughput, nodeInFlow, nodeOutFlow, posC7,
    flowsInitC7, edgesC7, nA, nB, nC, nD, max_def]
  norm_num

theorem mfhEqC7 : P5.minFlowHeight cfgC7 edgesC7 lvC7 = 16/41 := by
  rw [P5.minFlowHeight, hsEqC7, P5.minFlowHeightBase]
  norm_num

def flowsFinalC7 : List FlowGeom :=
  [⟨nA, nB, 100, 0, 0, 797584/16441, 1, 0, 800000/16441, 0⟩,
   ⟨nA, nC, 1/2, 0, 797584/16441, 16/41, 1, 840100/16441, 16/41, 1⟩,
   ⟨nD, nC, 100, 0, 844100/16441, 800000/16441, 1, 846516/16441, 797584/16441, 2⟩]

set_option maxHeartbeats 2000000 in
theorem flowsFinalEqC7 : P5.flowsFinal cfgC7 edgesC7 lvC7 = flowsFinalC7 := by
  rw [P5.flowsFinal, flowsInitEqC7, mfhEqC7, posEqC7]
  first
  | (simp [adjustFromPass, adjustToPass, firstSources, firstTargets, insertUnique,
      enforceMinHeights, stackTops, replaceGroupFrom, replaceGroupTo, pget, mget, mset,
      List.filter_cons, flowsInitC7, flowsFinalC7, posC7, nA, nB, nC, nD, min_def])
  | skip
  first
  | (norm_num [adjustFromPass, adjustToPass, firstSources, firstTargets, insertUnique,
      enforceMinHeights, stackTops, replaceGroupFrom, replaceGroupTo, pget, mget, mset,
      List.filter_cons, flowsInitC7, flowsFinalC7, posC7, nA, nB, nC, nD, min_def])
  | skip
  first
  | (simp [adjustFromPass, adjustToPass, firstSources, firstTargets, insertUnique,
      enforceMinHeights, stackTops, replaceGroupFrom, replaceGroupTo, pget, mget, mset,
      List.filter_cons, flowsInitC7, flowsFinalC7, posC7, nA, nB, nC, nD, min_def])
  | skip
  first
  | (norm_num [adjustFromPass, adjustToPass, firstSources, firstTargets, insertUnique,
      enforceMinHeights, stackTops, replaceGroupFrom, replaceGroupTo, pget, mget, mset,
      List.filter_cons, flowsInitC7, flowsFinalC7, posC7, nA, nB, nC, nD, min_def])
  | skip
  first
  | (simp [mget, mset, pget, posC7, nA, nB, nC, nD, min_def])
  | skip
  norm_num [stackTops, List.zip, List.zipWith]

theorem renderEqC7 : P5.renderSankey cfgC7 (some rowsC7) 10
    = .ok (some (.layout ⟨nodeSet edgesC7, P5.nodePosition cfgC7 edgesC7 lvC7,
        P5.flowsFinal cfgC7 edgesC7 lvC7⟩)) := by
  have hne : rowsC7 ≠ [] := by decide
  have hene : edgesC7 ≠ [] := by decide
  simp only [P5.renderSankey, if_neg hne, buildC7, if_neg hene, runC7]

/-- C7 counterexample: with the proportional flag set the variant renderer
still runs the minimum flow-height enforcement, so flow heights are not
proportional to flow values.  On the table A to B 100, A to C 1/2,
D to C 100 the pipeline completes, and among the final flows the A to B
and A to C flows have heights 797584/16441 and 16/41 whose ratio differs
from the 200:1 ratio of their values: the A to C flow was raised to the
minimum flow height 16/41 and the A to B flow shrank by the borrowed
space, exactly the behaviour the claim says is disabled. -/
theorem c7_proportionalMode_cex :
    cfgC7.proportional = true
    ∧ P5.renderSankey cfgC7 (some rowsC7) 10
        = .ok (some (.layout ⟨nodeSet edgesC7, P5.nodePosition cfgC7 edgesC7 lvC7,
            P5.flowsFinal cfgC7 edgesC7 lvC7⟩))
    ∧ ∃ f1 ∈ P5.flowsFinal cfgC7 edgesC7 lvC7, ∃ f2 ∈ P5.flowsFinal cfgC7 edgesC7 lvC7,
        f1.fromHeight * f2.value ≠ f2.fromHeight * f1.value := by
  refine ⟨rfl, renderEqC7, ?_⟩
  rw [flowsFinalEqC7]
  refine ⟨⟨nA, nB, 100, 0, 0, 797584/16441, 1, 0, 800000/16441, 0⟩, by simp [flowsFinalC7],
    ⟨nA, nC, 1/2, 0, 797584/16441, 16/41, 1, 840100/16441, 16/41, 1⟩,
    by simp [flowsFinalC7], ?_⟩
  show (797584/16441 : ℚ) * (1/2) ≠ (16/41) * 100
  norm_num

theorem c7_proportionalMode_witness :
    (cfgC7.proportional = true ∧ nD ∈ nodeSet edgesC7 ∧ nA ∈ nodeSet edgesC7)
    ∧ (pget (P5.nodePositionScaled cfgC7 edgesC7 lvC7) nA).height * nodeThroughput edgesC7 nD
      = (pget (P5.nodePositionScaled cfgC7 edgesC7 lvC7) nD).height * nodeThroughput edgesC7 nA :=
  ⟨⟨rfl, by decide, by decide⟩,
    c7_proportionalMode cfgC7 edgesC7 lvC7 rfl nD nA (by decide) (by decide)⟩

theorem stackTops_length : ∀ (l : List ℚ) (start : ℚ),
    (stackTops start l).length = l.length := by
  intro l
  induction l with
  | nil => intro start; rfl
  | cons h hs ih => intro start; simp only [stackTops, List.length_cons, ih]

theorem zip_tops_length (nodeTop : ℚ) (newHs : List ℚ) :
    (newHs.zip (stackTops nodeTop newHs)).length = newHs.length := by
  rw [List.length_zip, stackTops_length, min_self]

theorem zip_tops_map_fst (nodeTop : ℚ) (newHs : List ℚ) :
    (newHs.zip (stackTops nodeTop newHs)).map Prod.fst = newHs := by
  apply List.map_fst_zip
  rw [stackTops_length]

theorem enforceMinHeights_length (minFH nodeTop nh : ℚ) (fl : List (ℚ × ℚ)) :
    (enforceMinHeights minFH nodeTop nh fl).length = fl.length := by
  simp only [enforceMinHeights]
  split
  · rfl
  · split
    · rfl
    · rw [zip_tops_length]
      split
      · rw [List.length_map]
      · rw [List.length_map]

theorem sum_map_ite_mul (minFH c : ℚ) : ∀ (fl : List (ℚ × ℚ)),
    (fl.map (fun f => if f.1 < minFH then minFH else f.1 * c)).sum
      = ((fl.filter (fun f => f.1 < minFH)).length : ℚ) * minFH
        + ((fl.filter (fun f => ¬ f.1 < minFH)).map Prod.fst).sum * c := by
  intro fl
  induction fl with
  | nil => simp
  | cons p rest ih =>
    by_cases hp : p.1 < minFH
    · simp [List.filter_cons, hp, ih]
      push_cast
      ring
    · have hp2 : minFH ≤ p.1 := not_lt.mp hp
      simp [List.filter_cons, hp, hp2, ih]
      ring

theorem sum_map_ite_id (minFH : ℚ) : ∀ (fl : List (ℚ × ℚ)),
    (fl.map (fun f => if f.1 < minFH then minFH else f.1)).sum
      = ((fl.filter (fun f => f.1 < minFH)).length : ℚ) * minFH
        + ((fl.filter (fun f => ¬ f.1 < minFH)).map Prod.fst).sum := by
  intro fl
  have h := sum_map_ite_mul minFH 1 fl
  simp only [mul_one] at h
  exact h

theorem sum_split_small (minFH : ℚ) : ∀ (fl : List (ℚ × ℚ)),
    (fl.map Prod.fst).sum
      = ((fl.filter (fun f => f.1 < minFH)).map Prod.fst).sum
        + ((fl.filter (fun f => ¬ f.1 < minFH)).map Prod.fst).sum := by
  intro fl
  induction fl with
  | nil => simp
  | cons p rest ih =>
    by_cases hp : p.1 < minFH
    · simp [List.filter_cons, hp, ih]
      ring
    · have hp2 : minFH ≤ p.1 := not_lt.mp hp
      simp [List.filter_cons, hp, hp2, ih]
      ring

theorem sum_map_sub_fst (minFH : ℚ) : ∀ (l : List (ℚ × ℚ)),
    (l.map (fun f => minFH - f.1)).sum
      = (l.length : ℚ) * minFH - (l.map Prod.fst).sum := by
  intro l
  induction l with
  | nil => simp
  | cons p rest ih =>
    simp only [List.map_cons, List.sum_cons, ih, List.length_cons]
    push_cast
    ring

theorem mul_one_sub_div (a b : ℚ) (ha : 0 < a) : a * (1 - b / a) = a - b := by
  field_simp

theorem enforceMinHeights_sum_le (minFH nodeTop nh H : ℚ) (fl : List (ℚ × ℚ))
    (hmf : 0 ≤ minFH)
    (hsum : (fl.map Prod.fst).sum ≤ H)
    (hcnt : (fl.length : ℚ) * minFH ≤ H) :
    ((enforceMinHeights minFH nodeTop nh fl).map Prod.fst).sum ≤ H := by
  have hc : ((fl.filter (fun f => f.1 < minFH)).length : ℚ) ≤ (fl.length : ℚ) := by
    exact_mod_cast List.length_filter_le _ _
  have hcm := mul_le_mul_of_nonneg_right hc hmf
  have hsplit := sum_split_small minFH fl
  simp only [enforceMinHeights]
  split
  · exact hsum
  · split
    · exact hsum
    · rw [zip_tops_map_fst]
      split
      · next hlt =>
        have hlt2 : ((fl.filter (fun f => ¬ f.1 < minFH)).map Prod.fst).sum ≤ 0 := hlt
        rw [sum_map_ite_id]
        linarith
      · next hlt =>
        have hlt2 : ¬ ((fl.filter (fun f => ¬ f.1 < minFH)).map Prod.fst).sum ≤ 0 := hlt
        have hL : 0 < ((fl.filter (fun f => ¬ f.1 < minFH)).map Prod.fst).sum :=
          lt_of_not_le hlt2
        rw [sum_map_ite_mul]
        have hsn : ((fl.filter (fun f => f.1 < minFH)).map (fun f => minFH - f.1)).sum
            = ((fl.filter (fun f => f.1 < minFH)).length : ℚ) * minFH
              - ((fl.filter (fun f => f.1 < minFH)).map Prod.fst).sum := by
          have := sum_map_sub_fst minFH (fl.filter (fun f => f.1 < minFH))
          exact this
        rcases le_total (1 : ℚ)
            (((fl.filter (fun f => f.1 < minFH)).map (fun f => minFH - f.1)).sum
              / ((fl.filter (fun f => ¬ f.1 < minFH)).map (fun f => f.1)).sum) with h1 | h1
        · rw [min_eq_left h1]
          have hz : (1 : ℚ) - 1 = 0 := by norm_num
          rw [hz, mul_zero]
          linarith
        · rw [min_eq_right h1]
          have hLe : ((fl.filter (fun f => ¬ f.1 < minFH)).map (fun f => f.1)).sum
              = ((fl.filter (fun f => ¬ f.1 < minFH)).map Prod.fst).sum := rfl
          rw [hLe, hsn]
          rw [mul_one_sub_div _ _ hL]
          linarith

theorem enforceMinHeights_nonneg (minFH nodeTop nh : ℚ) (fl : List (ℚ × ℚ))
    (hmf : 0 ≤ minFH)
    (hall : ∀ p ∈ fl, 0 ≤ p.1) :
    ∀ q ∈ enforceMinHeights minFH nodeTop nh fl, 0 ≤ q.1 := by
  simp only [enforceMinHeights]
  split
  · exact hall
  · split
    · exact hall
    · intro q hq
      obtain ⟨h1, _⟩ := List.of_mem_zip hq
      split at h1
      · rcases List.mem_map.mp h1 with ⟨f, hf, hval⟩
        rw [← hval]
        split
        · exact hmf
        · exact hall f hf
      · rcases List.mem_map.mp h1 with ⟨f, hf, hval⟩
        rw [← hval]
        split
        · exact hmf
        · apply mul_nonneg (hall f hf)
          have : min 1 (((fl.filter (fun f => f.1 < minFH)).map (fun f => minFH - f.1)).sum
              / ((fl.filter (fun f => ¬ f.1 < minFH)).map (fun f => f.1)).sum) ≤ 1 :=
            min_le_left _ _
          linarith

theorem replaceGroupFrom_filter_eq (n : Str) : ∀ (fl : List FlowGeom) (vals : List (ℚ × ℚ)),
    vals.length = (fl.filter (fun f => f.source = n)).length →
    ((replaceGroupFrom n vals fl).filter (fun f => f.source = n)).map (fun f => f.fromHeight)
      = vals.map Prod.fst := by
  intro fl
  induction fl with
  | nil =>
    intro vals h
    simp at h
    simp [replaceGroupFrom, h]
  | cons f fs ih =>
    intro vals hlen
    by_cases hs : f.source = n
    · cases vals with
      | nil =>
        simp [List.filter_cons, hs] at hlen
      | cons v vs =>
        simp only [replaceGroupFrom, if_pos hs]
        have hs2 : ({ f with fromHeight := v.1, fromTop := v.2 } : FlowGeom).source = n := hs
        simp only [List.filter_cons, hs2, decide_eq_true_eq, if_pos hs2, List.map_cons]
        rw [ih vs (by simpa [List.filter_cons, hs] using hlen)]
    · simp only [replaceGroupFrom, if_neg hs]
      simp only [List.filter_cons, decide_eq_true_eq, if_neg hs]
      exact ih vals (by simpa [List.filter_cons, hs] using hlen)

theorem replaceGroupFrom_filter_ne (n m : Str) (hnm : m ≠ n) :
    ∀ (fl : List FlowGeom) (vals : List (ℚ × ℚ)),
    (replaceGroupFrom n vals fl).filter (fun f => f.source = m)
      = fl.filter (fun f => f.source = m) := by
  intro fl
  induction fl with
  | nil => intro vals; simp [replaceGroupFrom]
  | cons f fs ih =>
    intro vals
    by_cases hs : f.source = n
    · have hfm : ¬ f.source = m := by rw [hs]; exact fun h => hnm h.symm
      cases vals with
      | nil =>
        simp only [replaceGroupFrom, if_pos hs]
        simp only [List.filter_cons, decide_eq_true_eq, if_neg hfm]
        exact ih []
      | cons v vs =>
        simp only [replaceGroupFrom, if_pos hs]
        have hfm2 : ¬ ({ f with fromHeight := v.1, fromTop := v.2 } : FlowGeom).source = m := hfm
        simp only [List.filter_cons, decide_eq_true_eq, if_neg hfm, if_neg hfm2]
        exact ih vs
    · simp only [replaceGroupFrom, if_neg hs]
      by_cases hfm : f.source = m
      · simp only [List.filter_cons, decide_eq_true_eq, if_pos hfm, ih vals]
      · simp only [List.filter_cons, decide_eq_true_eq, if_neg hfm, ih vals]

theorem replaceGroupFrom_toProj (n : Str) : ∀ (fl : List FlowGeom) (vals : List (ℚ × ℚ)),
    (replaceGroupFrom n vals fl).map (fun f => (f.target, f.toHeight, f.toTop))
      = fl.map (fun f => (f.target, f.toHeight, f.toTop)) := by
  intro fl
  induction fl with
  | nil => intro vals; simp [replaceGroupFrom]
  | cons f fs ih =>
    intro vals
    by_cases hs : f.source = n
    · cases vals with
      | nil =>
        simp only [replaceGroupFrom, if_pos hs, List.map_cons, ih]
      | cons v vs =>
        simp only [replaceGroupFrom, if_pos hs, List.map_cons, ih]
    · simp only [replaceGroupFrom, if_neg hs, List.map_cons, ih]

theorem replaceGroupFrom_nonneg (n : Str) : ∀ (fl : List FlowGeom) (vals : List (ℚ × ℚ)),
    (∀ v ∈ vals, 0 ≤ v.1) → (∀ f ∈ fl, 0 ≤ f.fromHeight) →
    ∀ f ∈ replaceGroupFrom n vals fl, 0 ≤ f.fromHeight := by
  intro fl
  induction fl with
  | nil => intro vals _ _ f hf; simp [replaceGroupFrom] at hf
  | cons g gs ih =>
    intro vals hv hf f hmem
    by_cases hs : g.source = n
    · cases vals with
      | nil =>
        simp only [replaceGroupFrom, if_pos hs, List.mem_cons] at hmem
        rcases hmem with rfl | hmem
        · exact hf f (by simp)
        · exact ih [] (by simp) (fun f2 hf2 => hf f2 (by simp [hf2])) f hmem
      | cons v vs =>
        simp only [replaceGroupFrom, if_pos hs, List.mem_cons] at hmem
        rcases hmem with rfl | hmem
        · exact hv v (by simp)
        · exact ih vs (fun v2 hv2 => hv v2 (by simp [hv2]))
            (fun f2 hf2 => hf f2 (by simp [hf2])) f hmem
    · simp only [replaceGroupFrom, if_neg hs, List.mem_cons] at hmem
      rcases hmem with rfl | hmem
      · exact hf f (by simp)
      · exact ih vals hv (fun f2 hf2 => hf f2 (by simp [hf2])) f hmem

theorem replaceGroupTo_filter_eq (n : Str) : ∀ (fl : List FlowGeom) (vals : List (ℚ × ℚ)),
    vals.length = (fl.filter (fun f => f.target = n)).length →
    ((replaceGroupTo n vals fl).filter (fun f => f.target = n)).map (fun f => f.toHeight)
      = vals.map Prod.fst := by
  intro fl
  induction fl with
  | nil =>
    intro vals h
    simp at h
    simp [replaceGroupTo, h]
  | cons f fs ih =>
    intro vals hlen
    by_cases hs : f.target = n
    · cases vals with
      | nil =>
        simp [List.filter_cons, hs] at hlen
      | cons v vs =>
        simp only [replaceGroupTo, if_pos hs]
        have hs2 : ({ f with toHeight := v.1, toTop := v.2 } : FlowGeom).target = n := hs
        simp only [List.filter_cons, hs2, decide_eq_true_eq, if_pos hs2, List.map_cons]
        rw [ih vs (by simpa [List.filter_cons, hs] using hlen)]
    · simp only [replaceGroupTo, if_neg hs]
      simp only [List.filter_cons, decide_eq_true_eq, if_neg hs]
      exact ih vals (by simpa [List.filter_cons, hs] using hlen)

theorem replaceGroupTo_filter_ne (n m : Str) (hnm : m ≠ n) :
    ∀ (fl : List FlowGeom) (vals : List (ℚ × ℚ)),
    (replaceGroupTo n vals fl).filter (fun f => f.target = m)
      = fl.filter (fun f => f.target = m) := by
  intro fl
  induction fl with
  | nil => intro vals; simp [replaceGroupTo]
  | cons f fs ih =>
    intro vals
    by_cases hs : f.target = n
    · have hfm : ¬ f.target = m := by rw [hs]; exact fun h => hnm h.symm
      cases vals with
      | nil =>
        simp only [replaceGroupTo, if_pos hs]
        simp only [List.filter_cons, decide_eq_true_eq, if_neg hfm]
        exact ih []
      | cons v vs =>
        simp only [replaceGroupTo, if_pos hs]
        have hfm2 : ¬ ({ f with toHeight := v.1, toTop := v.2 } : FlowGeom).target = m := hfm
        simp only [List.filter_cons, decide_eq_true_eq, if_neg hfm, if_neg hfm2]
        exact ih vs
    · simp only [replaceGroupTo, if_neg hs]
      by_cases hfm : f.target = m
      · simp only [List.filter_cons, decide_eq_true_eq, if_pos hfm, ih vals]
      · simp only [List.filter_cons, decide_eq_true_eq, if_neg hfm, ih vals]

theorem replaceGroupTo_fromProj (n : Str) : ∀ (fl : List FlowGeom) (vals : List (ℚ × ℚ)),
    (replaceGroupTo n vals fl).map (fun f => (f.source, f.fromHeight, f.fromTop))
      = fl.map (fun f => (f.source, f.fromHeight, f.fromTop)) := by
  intro fl
  induction fl with
  | nil => intro vals; simp [replaceGroupTo]
  | cons f fs ih =>
    intro vals
    by_cases hs : f.target = n
    · cases vals with
      | nil =>
        simp only [replaceGroupTo, if_pos hs, List.map_cons, ih]
      | cons v vs =>
        simp only [replaceGroupTo, if_pos hs, List.map_cons, ih]
    · simp only [replaceGroupTo, if_neg hs, List.map_cons, ih]

theorem replaceGroupTo_nonneg (n : Str) : ∀ (fl : List FlowGeom) (vals : List (ℚ × ℚ)),
    (∀ v ∈ vals, 0 ≤ v.1) → (∀ f ∈ fl, 0 ≤ f.toHeight) →
    ∀ f ∈ replaceGroupTo n vals fl, 0 ≤ f.toHeight := by
  intro fl
  induction fl with
  | nil => intro vals _ _ f hf; simp [replaceGroupTo] at hf
  | cons g gs ih =>
    intro vals hv hf f hmem
    by_cases hs : g.target = n
    · cases vals with
      | nil =>
        simp only [replaceGroupTo, if_pos hs, List.mem_cons] at hmem
        rcases hmem with rfl | hmem
        · exact hf f (by simp)
        · exact ih [] (by simp) (fun f2 hf2 => hf f2 (by simp [hf2])) f hmem
      | cons v vs =>
        simp only [replaceGroupTo, if_pos hs, List.mem_cons] at hmem
        rcases hmem with rfl | hmem
        · exact hv v (by simp)
        · exact ih vs (fun v2 hv2 => hv v2 (by simp [hv2]))
            (fun f2 hf2 => hf f2 (by simp [hf2])) f hmem
    · simp only [replaceGroupTo, if_neg hs, List.mem_cons] at hmem
      rcases hmem with rfl | hmem
      · exact hf f (by simp)
      · exact ih vals hv (fun f2 hf2 => hf f2 (by simp [hf2])) f hmem

theorem insertUnique_mem_self (l : List Str) (s : Str) : s ∈ insertUnique l s := by
  unfold insertUnique
  by_cases h : s ∈ l
  · rw [if_pos h]; exact h
  · rw [if_neg h]; simp

theorem insertUnique_mem_mono (l : List Str) (s x : Str) (h : x ∈ l) :
    x ∈ insertUnique l s := by
  unfold insertUnique
  by_cases hs : s ∈ l
  · rw [if_pos hs]; exact h
  · rw [if_neg hs]; simp [h]

theorem firstSources_nodup (fl : List FlowGeom) : (firstSources fl).Nodup := by
  unfold firstSources
  have hgen : ∀ (l : List FlowGeom) (acc : List Str), acc.Nodup →
      (l.foldl (fun acc2 f => insertUnique acc2 f.source) acc).Nodup := by
    intro l
    induction l with
    | nil => intro acc h; exact h
    | cons f fs ih =>
      intro acc h
      rw [List.foldl_cons]
      exact ih _ (insertUnique_nodup _ _ h)
  exact hgen fl [] List.nodup_nil

theorem firstTargets_nodup (fl : List FlowGeom) : (firstTargets fl).Nodup := by
  unfold firstTargets
  have hgen : ∀ (l : List FlowGeom) (acc : List Str), acc.Nodup →
      (l.foldl (fun acc2 f => insertUnique acc2 f.target) acc).Nodup := by
    intro l
    induction l with
    | nil => intro acc h; exact h
    | cons f fs ih =>
      intro acc h
      rw [List.foldl_cons]
      exact ih _ (insertUnique_nodup _ _ h)
  exact hgen fl [] List.nodup_nil

theorem mem_firstSources (fl : List FlowGeom) (f : FlowGeom) (hf : f ∈ fl) :
    f.source ∈ firstSources fl := by
  unfold firstSources
  have hgen : ∀ (l : List FlowGeom) (acc : List Str),
      (f ∈ l ∨ f.source ∈ acc) →
      f.source ∈ l.foldl (fun acc2 g => insertUnique acc2 g.source) acc := by
    intro l
    induction l with
    | nil =>
      intro acc h
      rcases h with h | h
      · simp at h
      · exact h
    | cons g gs ih =>
      intro acc h
      rw [List.foldl_cons]
      rcases h with h | h
      · rcases List.mem_cons.mp h with rfl | h
        · exact ih _ (Or.inr (insertUnique_mem_self _ _))
        · exact ih _ (Or.inl h)
      · exact ih _ (Or.inr (insertUnique_mem_mono _ _ _ h))
  exact hgen fl [] (Or.inl hf)

theorem mem_firstTargets (fl : List FlowGeom) (f : FlowGeom) (hf : f ∈ fl) :
    f.target ∈ firstTargets fl := by
  unfold firstTargets
  have hgen : ∀ (l : List FlowGeom) (acc : List Str),
      (f ∈ l ∨ f.target ∈ acc) →
      f.target ∈ l.foldl (fun acc2 g => insertUnique acc2 g.target) acc := by
    intro l
    induction l with
    | nil =>
      intro acc h
      rcases h with h | h
      · simp at h
      · exact h
    | cons g gs ih =>
      intro acc h
      rw [List.foldl_cons]
      rcases h with h | h
      · rcases List.mem_cons.mp h with rfl | h
        · exact ih _ (Or.inr (insertUnique_mem_self _ _))
        · exact ih _ (Or.inl h)
      · exact ih _ (Or.inr (insertUnique_mem_mono _ _ _ h))
  exact hgen fl [] (Or.inl hf)

theorem proj_filter_map {α : Type} (key : FlowGeom → Str) (val : FlowGeom → α) (n : Str) :
    ∀ (fl1 fl2 : List FlowGeom),
    fl1.map (fun f => (key f, val f)) = fl2.map (fun f => (key f, val f)) →
    (fl1.filter (fun f => key f = n)).map val = (fl2.filter (fun f => key f = n)).map val := by
  intro fl1
  induction fl1 with
  | nil =>
    intro fl2 h
    have h2 : fl2 = [] := by
      cases fl2 with
      | nil => rfl
      | cons g gs => simp at h
    subst h2
    rfl
  | cons f1 r1 ih =>
    intro fl2 h
    cases fl2 with
    | nil => simp at h
    | cons f2 r2 =>
      simp only [List.map_cons, List.cons.injEq, Prod.mk.injEq] at h
      obtain ⟨⟨hk, hv⟩, hrest⟩ := h
      simp only [List.filter_cons, decide_eq_true_eq]
      by_cases hkn : key f1 = n
      · rw [if_pos hkn, if_pos (by rw [← hk]; exact hkn)]
        simp only [List.map_cons, hv, ih r2 hrest]
      · rw [if_neg hkn, if_neg (by rw [← hk]; exact hkn)]
        exact ih r2 hrest

theorem adjustFromPass_eq_fold (minFH : ℚ) (pos : List (Str × Pos)) (fl : List FlowGeom) :
    adjustFromPass minFH pos fl
      = List.foldl (fun cur n => replaceGroupFrom n (enforceMinHeights minFH
          (pget pos n).top (pget pos n).height
          ((cur.filter (fun f => f.source = n)).map (fun f => (f.fromHeight, f.fromTop)))) cur)
        fl (firstSources fl) := rfl

theorem adjustToPass_eq_fold (minFH : ℚ) (pos : List (Str × Pos)) (fl : List FlowGeom) :
    adjustToPass minFH pos fl
      = List.foldl (fun cur n => replaceGroupTo n (enforceMinHeights minFH
          (pget pos n).top (pget pos n).height
          ((cur.filter (fun f => f.target = n)).map (fun f => (f.toHeight, f.toTop)))) cur)
        fl (firstTargets fl) := rfl

theorem adjustFrom_go_toProj (minFH : ℚ) (pos : List (Str × Pos)) :
    ∀ (ns : List Str) (cur : List FlowGeom),
    (List.foldl (fun cur2 n => replaceGroupFrom n (enforceMinHeights minFH
        (pget pos n).top (pget pos n).height
        ((cur2.filter (fun f => f.source = n)).map (fun f => (f.fromHeight, f.fromTop)))) cur2)
      cur ns).map (fun f => (f.target, f.toHeight, f.toTop))
      = cur.map (fun f => (f.target, f.toHeight, f.toTop)) := by
  intro ns
  induction ns with
  | nil => intro cur; rfl
  | cons n0 rest ih =>
    intro cur
    rw [List.foldl_cons, ih, replaceGroupFrom_toProj]

theorem adjustTo_go_fromProj (minFH : ℚ) (pos : List (Str × Pos)) :
    ∀ (ns : List Str) (cur : List FlowGeom),
    (List.foldl (fun cur2 n => replaceGroupTo n (enforceMinHeights minFH
        (pget pos n).top (pget pos n).height
        ((cur2.filter (fun f => f.target = n)).map (fun f => (f.toHeight, f.toTop)))) cur2)
      cur ns).map (fun f => (f.source, f.fromHeight, f.fromTop))
      = cur.map (fun f => (f.source, f.fromHeight, f.fromTop)) := by
  intro ns
  induction ns with
  | nil => intro cur; rfl
  | cons n0 rest ih =>
    intro cur
    rw [List.foldl_cons, ih, replaceGroupTo_fromProj]

theorem adjustFrom_go_preserve (minFH : ℚ) (pos : List (Str × Pos)) :
    ∀ (ns : List Str) (cur : List FlowGeom) (n : Str), n ∉ ns →
    (List.foldl (fun cur2 n2 => replaceGroupFrom n2 (enforceMinHeights minFH
        (pget pos n2).top (pget pos n2).height
        ((cur2.filter (fun f => f.source = n2)).map (fun f => (f.fromHeight, f.fromTop)))) cur2)
      cur ns).filter (fun f => f.source = n)
      = cur.filter (fun f => f.source = n) := by
  intro ns
  induction ns with
  | nil => intro cur n _; rfl
  | cons n0 rest ih =>
    intro cur n hn
    simp only [List.mem_cons, not_or] at hn
    rw [List.foldl_cons, ih _ _ hn.2, replaceGroupFrom_filter_ne n0 n hn.1]

theorem adjustTo_go_preserve (minFH : ℚ) (pos : List (Str × Pos)) :
    ∀ (ns : List Str) (cur : List FlowGeom) (n : Str), n ∉ ns →
    (List.foldl (fun cur2 n2 => replaceGroupTo n2 (enforceMinHeights minFH
        (pget pos n2).top (pget pos n2).height
        ((cur2.filter (fun f => f.target = n2)).map (fun f => (f.toHeight, f.toTop)))) cur2)
      cur ns).filter (fun f => f.target = n)
      = cur.filter (fun f => f.target = n) := by
  intro ns
  induction ns with
  | nil => intro cur n _; rfl
  | cons n0 rest ih =>
    intro cur n hn
    simp only [List.mem_cons, not_or] at hn
    rw [List.foldl_cons, ih _ _ hn.2, replaceGroupTo_filter_ne n0 n hn.1]

theorem adjustFrom_go_bound (minFH : ℚ) (pos : List (Str × Pos)) (H : Str → ℚ)
    (hmf : 0 ≤ minFH) :
    ∀ (ns : List Str), ns.Nodup → ∀ (cur : List FlowGeom),
    (∀ f ∈ cur, 0 ≤ f.fromHeight) →
    (∀ n ∈ ns, (((cur.filter (fun f => f.source = n)).map (fun f => f.fromHeight)).sum ≤ H n
      ∧ (((cur.filter (fun f => f.source = n)).length : ℚ) * minFH ≤ H n))) →
    ∀ n, n ∈ ns →
    (((List.foldl (fun cur2 n2 => replaceGroupFrom n2 (enforceMinHeights minFH
        (pget pos n2).top (pget pos n2).height
        ((cur2.filter (fun f => f.source = n2)).map (fun f => (f.fromHeight, f.fromTop)))) cur2)
      cur ns).filter (fun f => f.source = n)).map (fun f => f.fromHeight)).sum ≤ H n := by
  intro ns
  induction ns with
  | nil => intro _ cur _ _ n hn; simp at hn
  | cons n0 rest ih =>
    intro hnd cur hnn hpre n hn
    simp only [List.nodup_cons] at hnd
    rw [List.foldl_cons]
    have hval0 : ∀ v ∈ enforceMinHeights minFH (pget pos n0).top (pget pos n0).height
        ((cur.filter (fun f => f.source = n0)).map (fun f => (f.fromHeight, f.fromTop))),
        0 ≤ v.1 := by
      apply enforceMinHeights_nonneg _ _ _ _ hmf
      intro p hp
      rcases List.mem_map.mp hp with ⟨f, hf, hpe⟩
      rw [← hpe]
      exact hnn f (List.mem_filter.mp hf).1
    have hnn2 : ∀ f ∈ replaceGroupFrom n0 (enforceMinHeights minFH
        (pget pos n0).top (pget pos n0).height
        ((cur.filter (fun f => f.source = n0)).map (fun f => (f.fromHeight, f.fromTop)))) cur,
        0 ≤ f.fromHeight :=
      replaceGroupFrom_nonneg n0 cur _ hval0 hnn
    by_cases hn0 : n = n0
    · subst hn0
      rw [adjustFrom_go_preserve minFH pos rest _ n hnd.1]
      rw [replaceGroupFrom_filter_eq n cur _
        (by rw [enforceMinHeights_length, List.length_map])]
      apply enforceMinHeights_sum_le _ _ _ _ _ hmf
      · have hmm : (((cur.filter (fun f => f.source = n)).map
            (fun f => (f.fromHeight, f.fromTop))).map Prod.fst)
            = (cur.filter (fun f => f.source = n)).map (fun f => f.fromHeight) := by
          rw [List.map_map]
          rfl
        rw [hmm]
        exact (hpre n (by simp)).1
      · rw [List.length_map]
        exact (hpre n (by simp)).2
    · have hnrest : n ∈ rest := by
        rcases List.mem_cons.mp hn with h | h
        · exact absurd h hn0
        · exact h
      apply ih hnd.2 _ hnn2 _ n hnrest
      intro n2 hn2
      have hne2 : n2 ≠ n0 := fun h => hnd.1 (h ▸ hn2)
      rw [replaceGroupFrom_filter_ne n0 n2 hne2]
      exact hpre n2 (by simp [hn2])

theorem adjustTo_go_bound (minFH : ℚ) (pos : List (Str × Pos)) (H : Str → ℚ)
    (hmf : 0 ≤ minFH) :
    ∀ (ns : List Str), ns.Nodup → ∀ (cur : List FlowGeom),
    (∀ f ∈ cur, 0 ≤ f.toHeight) →
    (∀ n ∈ ns, (((cur.filter (fun f => f.target = n)).map (fun f => f.toHeight)).sum ≤ H n
      ∧ (((cur.filter (fun f => f.target = n)).length : ℚ) * minFH ≤ H n))) →
    ∀ n, n ∈ ns →
    (((List.foldl (fun cur2 n2 => replaceGroupTo n2 (enforceMinHeights minFH
        (pget pos n2).top (pget pos n2).height
        ((cur2.filter (fun f => f.target = n2)).map (fun f => (f.toHeight, f.toTop)))) cur2)
      cur ns).filter (fun f => f.target = n)).map (fun f => f.toHeight)).sum ≤ H n := by
  intro ns
  induction ns with
  | nil => intro _ cur _ _ n hn; simp at hn
  | cons n0 rest ih =>
    intro hnd cur hnn hpre n hn
    simp only [List.nodup_cons] at hnd
    rw [List.foldl_cons]
    have hval0 : ∀ v ∈ enforceMinHeights minFH (pget pos n0).top (pget pos n0).height
        ((cur.filter (fun f => f.target = n0)).map (fun f => (f.toHeight, f.toTop))),
        0 ≤ v.1 := by
      apply enforceMinHeights_nonneg _ _ _ _ hmf
      intro p hp
      rcases List.mem_map.mp hp with ⟨f, hf, hpe⟩
      rw [← hpe]
      exact hnn f (List.mem_filter.mp hf).1
    have hnn2 : ∀ f ∈ replaceGroupTo n0 (enforceMinHeights minFH
        (pget pos n0).top (pget pos n0).height
        ((cur.filter (fun f => f.target = n0)).map (fun f => (f.toHeight, f.toTop)))) cur,
        0 ≤ f.toHeight :=
      replaceGroupTo_nonneg n0 cur _ hval0 hnn
    by_cases hn0 : n = n0
    · subst hn0
      rw [adjustTo_go_preserve minFH pos rest _ n hnd.1]
      rw [replaceGroupTo_filter_eq n cur _
        (by rw [enforceMinHeights_length, List.length_map])]
      apply enforceMinHeights_sum_le _ _ _ _ _ hmf
      · have hmm : (((cur.filter (fun f => f.target = n)).map
            (fun f => (f.toHeight, f.toTop))).map Prod.fst)
            = (cur.filter (fun f => f.target = n)).map (fun f => f.toHeight) := by
          rw [List.map_map]
          rfl
        rw [hmm]
        exact (hpre n (by simp)).1
      · rw [List.length_map]
        exact (hpre n (by simp)).2
    · have hnrest : n ∈ rest := by
        rcases List.mem_cons.mp hn with h | h
        · exact absurd h hn0
        · exact h
      apply ih hnd.2 _ hnn2 _ n hnrest
      intro n2 hn2
      have hne2 : n2 ≠ n0 := fun h => hnd.1 (h ▸ hn2)
      rw [replaceGroupTo_filter_ne n0 n2 hne2]
      exact hpre n2 (by simp [hn2])

theorem adjustFromPass_bound (minFH : ℚ) (pos : List (Str × Pos)) (H : Str → ℚ)
    (hmf : 0 ≤ minFH) (fl : List FlowGeom)
    (hnn : ∀ f ∈ fl, 0 ≤ f.fromHeight)
    (hpre : ∀ n, (((fl.filter (fun f => f.source = n)).map (fun f => f.fromHeight)).sum ≤ H n
      ∧ (((fl.filter (fun f => f.source = n)).length : ℚ) * minFH ≤ H n))) :
    ∀ n, (((adjustFromPass minFH pos fl).filter (fun f => f.source = n)).map
      (fun f => f.fromHeight)).sum ≤ H n := by
  intro n
  rw [adjustFromPass_eq_fold]
  by_cases hn : n ∈ firstSources fl
  · exact adjustFrom_go_bound minFH pos H hmf (firstSources fl) (firstSources_nodup fl)
      fl hnn (fun n2 _ => hpre n2) n hn
  · rw [adjustFrom_go_preserve _ _ _ _ _ hn]
    exact (hpre n).1

theorem adjustToPass_bound (minFH : ℚ) (pos : List (Str × Pos)) (H : Str → ℚ)
    (hmf : 0 ≤ minFH) (fl : List FlowGeom)
    (hnn : ∀ f ∈ fl, 0 ≤ f.toHeight)
    (hpre : ∀ n, (((fl.filter (fun f => f.target = n)).map (fun f => f.toHeight)).sum ≤ H n
      ∧ (((fl.filter (fun f => f.target = n)).length : ℚ) * minFH ≤ H n))) :
    ∀ n, (((adjustToPass minFH pos fl).filter (fun f => f.target = n)).map
      (fun f => f.toHeight)).sum ≤ H n := by
  intro n
  rw [adjustToPass_eq_fold]
  by_cases hn : n ∈ firstTargets fl
  · exact adjustTo_go_bound minFH pos H hmf (firstTargets fl) (firstTargets_nodup fl)
      fl hnn (fun n2 _ => hpre n2) n hn
  · rw [adjustTo_go_preserve _ _ _ _ _ hn]
    exact (hpre n).1

theorem mkFlows_fromProj (pos : List (Str × Pos)) (T : Str → ℚ) :
    ∀ (es : List Edge) (i : Nat) (oo io : List (Str × ℚ)),
    (mkFlowsGo pos T es i oo io).map (fun f => (f.source, f.fromHeight))
      = es.map (fun e => (e.source, e.value / T e.source * (pget pos e.source).height)) := by
  intro es
  induction es with
  | nil => intro i oo io; rfl
  | cons e rest ih =>
    intro i oo io
    simp only [mkFlowsGo, List.map_cons, ih]

theorem mkFlows_toProj (pos : List (Str × Pos)) (T : Str → ℚ) :
    ∀ (es : List Edge) (i : Nat) (oo io : List (Str × ℚ)),
    (mkFlowsGo pos T es i oo io).map (fun f => (f.target, f.toHeight))
      = es.map (fun e => (e.target, e.value / T e.target * (pget pos e.target).height)) := by
  intro es
  induction es with
  | nil => intro i oo io; rfl
  | cons e rest ih =>
    intro i oo io
    simp only [mkFlowsGo, List.map_cons, ih]

theorem filter_of_pair_map {β α γ : Type} (k1 : β → Str) (v1 : β → γ)
    (k2 : α → Str) (v2 : α → γ) (n : Str) :
    ∀ (l1 : List β) (l2 : List α),
    l1.map (fun x => (k1 x, v1 x)) = l2.map (fun y => (k2 y, v2 y)) →
    (l1.filter (fun x => k1 x = n)).map v1 = (l2.filter (fun y => k2 y = n)).map v2 := by
  intro l1
  induction l1 with
  | nil =>
    intro l2 h
    have h2 : l2 = [] := by
      cases l2 with
      | nil => rfl
      | cons g gs => simp at h
    subst h2
    rfl
  | cons x r1 ih =>
    intro l2 h
    cases l2 with
    | nil => simp at h
    | cons y r2 =>
      simp only [List.map_cons, List.cons.injEq, Prod.mk.injEq] at h
      obtain ⟨⟨hk, hv⟩, hrest⟩ := h
      simp only [List.filter_cons, decide_eq_true_eq]
      by_cases hkn : k1 x = n
      · rw [if_pos hkn, if_pos (by rw [← hk]; exact hkn)]
        simp only [List.map_cons, hv, ih r2 hrest]
      · rw [if_neg hkn, if_neg (by rw [← hk]; exact hkn)]
        exact ih r2 hrest

theorem sum_filter_src (T h : Str → ℚ) (n : Str) : ∀ (es : List Edge),
    ((es.filter (fun e => e.source = n)).map (fun e => e.value / T e.source * h e.source)).sum
      = ((es.filter (fun e => e.source = n)).map (fun e => e.value)).sum / T n * h n := by
  intro es
  induction es with
  | nil => simp
  | cons e rest ih =>
    by_cases he : e.source = n
    · simp [List.filter_cons, he, ih]
      ring
    · simp [List.filter_cons, he, ih]

theorem sum_filter_tgt (T h : Str → ℚ) (n : Str) : ∀ (es : List Edge),
    ((es.filter (fun e => e.target = n)).map (fun e => e.value / T e.target * h e.target)).sum
      = ((es.filter (fun e => e.target = n)).map (fun e => e.value)).sum / T n * h n := by
  intro es
  induction es with
  | nil => simp
  | cons e rest ih =>
    by_cases he : e.target = n
    · simp [List.filter_cons, he, ih]
      ring
    · simp [List.filter_cons, he, ih]

theorem outflow_fold_sum (n : Str) : ∀ (es : List Edge) (m : List (Str × ℚ)),
    (mget (es.foldl (fun m2 e => mset m2 e.source ((mget m2 e.source).getD 0 + e.value)) m)
      n).getD 0
      = (mget m n).getD 0 + ((es.filter (fun e => e.source = n)).map (fun e => e.value)).sum := by
  intro es
  induction es with
  | nil => intro m; simp
  | cons e rest ih =>
    intro m
    rw [List.foldl_cons, ih]
    by_cases he : e.source = n
    · simp [List.filter_cons, he, mget_mset]
      ring
    · simp [List.filter_cons, he, mget_mset]

theorem inflow_fold_sum (n : Str) : ∀ (es : List Edge) (m : List (Str × ℚ)),
    (mget (es.foldl (fun m2 e => mset m2 e.target ((mget m2 e.target).getD 0 + e.value)) m)
      n).getD 0
      = (mget m n).getD 0 + ((es.filter (fun e => e.target = n)).map (fun e => e.value)).sum := by
  intro es
  induction es with
  | nil => intro m; simp
  | cons e rest ih =>
    intro m
    rw [List.foldl_cons, ih]
    by_cases he : e.target = n
    · simp [List.filter_cons, he, mget_mset]
      ring
    · simp [List.filter_cons, he, mget_mset]

theorem nodeOutFlow_sum (es : List Edge) (n : Str) :
    (mget (nodeOutFlow es) n).getD 0
      = ((es.filter (fun e => e.source = n)).map (fun e => e.value)).sum := by
  unfold nodeOutFlow
  rw [outflow_fold_sum]
  simp [mget]

theorem nodeInFlow_sum (es : List Edge) (n : Str) :
    (mget (nodeInFlow es) n).getD 0
      = ((es.filter (fun e => e.target = n)).map (fun e => e.value)).sum := by
  unfold nodeInFlow
  rw [inflow_fold_sum]
  simp [mget]

theorem outcount_fold (n : Str) : ∀ (es : List Edge) (m : List (Str × Nat)),
    (mget (es.foldl (fun m2 e => mset m2 e.source ((mget m2 e.source).getD 0 + 1)) m) n).getD 0
      = (mget m n).getD 0 + (es.filter (fun e => e.source = n)).length := by
  intro es
  induction es with
  | nil => intro m; simp
  | cons e rest ih =>
    intro m
    rw [List.foldl_cons, ih]
    by_cases he : e.source = n
    · simp [List.filter_cons, he, mget_mset]
      omega
    · simp [List.filter_cons, he, mget_mset]

theorem incount_fold (n : Str) : ∀ (es : List Edge) (m : List (Str × Nat)),
    (mget (es.foldl (fun m2 e => mset m2 e.target ((mget m2 e.target).getD 0 + 1)) m) n).getD 0
      = (mget m n).getD 0 + (es.filter (fun e => e.target = n)).length := by
  intro es
  induction es with
  | nil => intro m; simp
  | cons e rest ih =>
    intro m
    rw [List.foldl_cons, ih]
    by_cases he : e.target = n
    · simp [List.filter_cons, he, mget_mset]
      omega
    · simp [List.filter_cons, he, mget_mset]

theorem nodeOutFlowCount_eq (agg : List Edge) (n : Str) :
    (mget (nodeOutFlowCount agg) n).getD 0 = (agg.filter (fun e => e.source = n)).length := by
  unfold nodeOutFlowCount
  rw [outcount_fold]
  simp [mget]

theorem nodeInFlowCount_eq (agg : List Edge) (n : Str) :
    (mget (nodeInFlowCount agg) n).getD 0 = (agg.filter (fun e => e.target = n)).length := by
  unfold nodeInFlowCount
  rw [incount_fold]
  simp [mget]

theorem map_merge_id (e : Edge) : ∀ (l : List Edge),
    (∀ a ∈ l, ¬ (a.source = e.source ∧ a.target = e.target)) →
    l.map (fun a => if a.source = e.source ∧ a.target = e.target
      then (⟨a.source, a.target, a.value + e.value⟩ : Edge) else a) = l := by
  intro l
  induction l with
  | nil => intro _; rfl
  | cons a rest ih =>
    intro h
    rw [List.map_cons, if_neg (h a (by simp)), ih (fun b hb => h b (by simp [hb]))]

theorem map_merge_src_sum (n : Str) (e : Edge) : ∀ (acc : List Edge),
    (pairsOf acc).Nodup →
    acc.any (fun a => a.source = e.source ∧ a.target = e.target) = true →
    (((acc.map (fun a => if a.source = e.source ∧ a.target = e.target
        then (⟨a.source, a.target, a.value + e.value⟩ : Edge) else a)).filter
      (fun a => a.source = n)).map (fun a => a.value)).sum
      = ((acc.filter (fun a => a.source = n)).map (fun a => a.value)).sum
        + (if e.source = n then e.value else 0) := by
  intro acc
  induction acc with
  | nil => intro _ h; simp at h
  | cons a rest ih =>
    intro hnd hany
    have hnd2 : ((a.source, a.target) ∉ pairsOf rest) ∧ (pairsOf rest).Nodup := by
      have := hnd
      unfold pairsOf at this
      simp only [List.map_cons, List.nodup_cons] at this
      exact ⟨this.1, this.2⟩
    by_cases hm : a.source = e.source ∧ a.target = e.target
    · have hrest : ∀ b ∈ rest, ¬ (b.source = e.source ∧ b.target = e.target) := by
        intro b hb hbm
        apply hnd2.1
        have hmem : (b.source, b.target) ∈ pairsOf rest :=
          List.mem_map.mpr ⟨b, hb, rfl⟩
        have heq : (a.source, a.target) = (b.source, b.target) := by
          rw [hm.1, hm.2, hbm.1, hbm.2]
        rw [heq]
        exact hmem
      rw [List.map_cons, if_pos hm, map_merge_id e rest hrest]
      by_cases han : a.source = n
      · have hen : e.source = n := by rw [← hm.1]; exact han
        simp [List.filter_cons, han, hen]
        ring
      · have hen : ¬ e.source = n := by rw [← hm.1]; exact han
        simp [List.filter_cons, han, hen]
    · have hany2 : rest.any (fun a => a.source = e.source ∧ a.target = e.target) = true := by
        rw [List.any_cons] at hany
        simpa [hm] using hany
      rw [List.map_cons, if_neg hm]
      by_cases han : a.source = n
      · simp [List.filter_cons, han, ih hnd2.2 hany2]
        ring
      · simp [List.filter_cons, han, ih hnd2.2 hany2]

theorem map_merge_tgt_sum (n : Str) (e : Edge) : ∀ (acc : List Edge),
    (pairsOf acc).Nodup →
    acc.any (fun a => a.source = e.source ∧ a.target = e.target) = true →
    (((acc.map (fun a => if a.source = e.source ∧ a.target = e.target
        then (⟨a.source, a.target, a.value + e.value⟩ : Edge) else a)).filter
      (fun a => a.target = n)).map (fun a => a.value)).sum
      = ((acc.filter (fun a => a.target = n)).map (fun a => a.value)).sum
        + (if e.target = n then e.value else 0) := by
  intro acc
  induction acc with
  | nil => intro _ h; simp at h
  | cons a rest ih =>
    intro hnd hany
    have hnd2 : ((a.source, a.target) ∉ pairsOf rest) ∧ (pairsOf rest).Nodup := by
      have := hnd
      unfold pairsOf at this
      simp only [List.map_cons, List.nodup_cons] at this
      exact ⟨this.1, this.2⟩
    by_cases hm : a.source = e.source ∧ a.target = e.target
    · have hrest : ∀ b ∈ rest, ¬ (b.source = e.source ∧ b.target = e.target) := by
        intro b hb hbm
        apply hnd2.1
        have hmem : (b.source, b.target) ∈ pairsOf rest :=
          List.mem_map.mpr ⟨b, hb, rfl⟩
        have heq : (a.source, a.target) = (b.source, b.target) := by
          rw [hm.1, hm.2, hbm.1, hbm.2]
        rw [heq]
        exact hmem
      rw [List.map_cons, if_pos hm, map_merge_id e rest hrest]
      by_cases han : a.target = n
      · have hen : e.target = n := by rw [← hm.2]; exact han
        simp [List.filter_cons, han, hen]
        ring
      · have hen : ¬ e.target = n := by rw [← hm.2]; exact han
        simp [List.filter_cons, han, hen]
    · have hany2 : rest.any (fun a => a.source = e.source ∧ a.target = e.target) = true := by
        rw [List.any_cons] at hany
        simpa [hm] using hany
      rw [List.map_cons, if_neg hm]
      by_cases han : a.target = n
      · simp [List.filter_cons, han, ih hnd2.2 hany2]
        ring
      · simp [List.filter_cons, han, ih hnd2.2 hany2]

theorem insertMerge_src_sum (n : Str) (e : Edge) (acc : List Edge)
    (hnd : (pairsOf acc).Nodup) :
    (((insertMerge acc e).filter (fun a => a.source = n)).map (fun a => a.value)).sum
      = ((acc.filter (fun a => a.source = n)).map (fun a => a.value)).sum
        + (if e.source = n then e.value else 0) := by
  unfold insertMerge
  by_cases hany : acc.any (fun a => a.source = e.source ∧ a.target = e.target) = true
  · rw [if_pos hany]
    exact map_merge_src_sum n e acc hnd hany
  · rw [if_neg hany]
    rw [List.filter_append, List.map_append, List.sum_append]
    by_cases hen : e.source = n
    · simp [List.filter_cons, hen]
    · simp [List.filter_cons, hen]

theorem insertMerge_tgt_sum (n : Str) (e : Edge) (acc : List Edge)
    (hnd : (pairsOf acc).Nodup) :
    (((insertMerge acc e).filter (fun a => a.target = n)).map (fun a => a.value)).sum
      = ((acc.filter (fun a => a.target = n)).map (fun a => a.value)).sum
        + (if e.target = n then e.value else 0) := by
  unfold insertMerge
  by_cases hany : acc.any (fun a => a.source = e.source ∧ a.target = e.target) = true
  · rw [if_pos hany]
    exact map_merge_tgt_sum n e acc hnd hany
  · rw [if_neg hany]
    rw [List.filter_append, List.map_append, List.sum_append]
    by_cases hen : e.target = n
    · simp [List.filter_cons, hen]
    · simp [List.filter_cons, hen]

theorem aggregateSpec_src_sum (n : Str) (es : List Edge) :
    (((aggregateSpec es).filter (fun a => a.source = n)).map (fun a => a.value)).sum
      = ((es.filter (fun e => e.source = n)).map (fun e => e.value)).sum := by
  have hgen : ∀ (l : List Edge) (acc : List Edge), (pairsOf acc).Nodup →
      (((l.foldl insertMerge acc).filter (fun a => a.source = n)).map (fun a => a.value)).sum
        = ((acc.filter (fun a => a.source = n)).map (fun a => a.value)).sum
          + ((l.filter (fun e => e.source = n)).map (fun e => e.value)).sum := by
    intro l
    induction l with
    | nil => intro acc _; simp
    | cons e rest ih =>
      intro acc hnd
      rw [List.foldl_cons, ih _ (insertMerge_pairsNodup acc e hnd),
        insertMerge_src_sum n e acc hnd]
      by_cases hen : e.source = n
      · simp [List.filter_cons, hen]
        ring
      · simp [List.filter_cons, hen]
  have h := hgen es [] (by simp [pairsOf])
  unfold aggregateSpec
  simpa using h

theorem aggregateSpec_tgt_sum (n : Str) (es : List Edge) :
    (((aggregateSpec es).filter (fun a => a.target = n)).map (fun a => a.value)).sum
      = ((es.filter (fun e => e.target = n)).map (fun e => e.value)).sum := by
  have hgen : ∀ (l : List Edge) (acc : List Edge), (pairsOf acc).Nodup →
      (((l.foldl insertMerge acc).filter (fun a => a.target = n)).map (fun a => a.value)).sum
        = ((acc.filter (fun a => a.target = n)).map (fun a => a.value)).sum
          + ((l.filter (fun e => e.target = n)).map (fun e => e.value)).sum := by
    intro l
    induction l with
    | nil => intro acc _; simp
    | cons e rest ih =>
      intro acc hnd
      rw [List.foldl_cons, ih _ (insertMerge_pairsNodup acc e hnd),
        insertMerge_tgt_sum n e acc hnd]
      by_cases hen : e.target = n
      · simp [List.filter_cons, hen]
        ring
      · simp [List.filter_cons, hen]
  have h := hgen es [] (by simp [pairsOf])
  unfold aggregateSpec
  simpa using h

theorem insertMerge_value_nonneg (acc : List Edge) (e : Edge)
    (hacc : ∀ a ∈ acc, 0 ≤ a.value) (he : 0 ≤ e.value) :
    ∀ a ∈ insertMerge acc e, 0 ≤ a.value := by
  unfold insertMerge
  by_cases hany : acc.any (fun a => a.source = e.source ∧ a.target = e.target) = true
  · rw [if_pos hany]
    intro a ha
    rcases List.mem_map.mp ha with ⟨b, hb, hbe⟩
    rw [← hbe]
    by_cases hm : b.source = e.source ∧ b.target = e.target
    · rw [if_pos hm]
      have := hacc b hb
      show 0 ≤ b.value + e.value
      linarith
    · rw [if_neg hm]
      exact hacc b hb
  · rw [if_neg hany]
    intro a ha
    rcases List.mem_append.mp ha with h | h
    · exact hacc a h
    · simp only [List.mem_singleton] at h
      rw [h]
      exact he

theorem aggregateSpec_value_nonneg (es : List Edge) (hes : ∀ e ∈ es, 0 ≤ e.value) :
    ∀ a ∈ aggregateSpec es, 0 ≤ a.value := by
  have hgen : ∀ (l : List Edge), (∀ e ∈ l, 0 ≤ e.value) → ∀ (acc : List Edge),
      (∀ a ∈ acc, 0 ≤ a.value) → ∀ a ∈ l.foldl insertMerge acc, 0 ≤ a.value := by
    intro l
    induction l with
    | nil => intro _ acc hacc a ha; exact hacc a ha
    | cons e rest ih =>
      intro hl acc hacc
      rw [List.foldl_cons]
      exact ih (fun x hx => hl x (by simp [hx])) _
        (insertMerge_value_nonneg acc e hacc (hl e (by simp)))
  exact hgen es hes [] (by simp)

theorem insertByLt_perm {α : Type} (lt : α → α → Bool) (x : α) :
    ∀ (l : List α), (insertByLt lt x l).Perm (x :: l) := by
  intro l
  induction l with
  | nil => exact List.Perm.refl _
  | cons y ys ih =>
    unfold insertByLt
    by_cases h : lt y x
    · rw [if_pos h]
      exact (ih.cons y).trans (List.Perm.swap x y ys)
    · rw [if_neg h]

theorem isortByLt_perm {α : Type} (lt : α → α → Bool) :
    ∀ (l : List α), (isortByLt lt l).Perm l := by
  intro l
  induction l with
  | nil => exact List.Perm.refl _
  | cons x xs ih =>
    unfold isortByLt
    exact (insertByLt_perm lt x (isortByLt lt xs)).trans (ih.cons x)

theorem pget_mset (m : List (Str × Pos)) (n k : Str) (v : Pos) :
    pget (mset m n v) k = if n = k then v else pget m k := by
  unfold pget
  rw [mget_mset]
  by_cases h : n = k
  · rw [if_pos h, if_pos h]
    rfl
  · rw [if_neg h, if_neg h]

theorem centerLevel_height : ∀ (L : List Str) (m : List (Str × Pos)) (k : Str),
    (pget (centerLevel L m) k).height = (pget m k).height := by
  have hfold : ∀ (off : ℚ) (L2 : List Str) (m2 : List (Str × Pos)) (k : Str),
      (pget (L2.foldl (fun m3 n =>
        mset m3 n ⟨(pget m3 n).top + off, (pget m3 n).height, (pget m3 n).level⟩) m2) k).height
        = (pget m2 k).height := by
    intro off L2
    induction L2 with
    | nil => intro m2 k; rfl
    | cons n ns ih =>
      intro m2 k
      rw [List.foldl_cons, ih, pget_mset]
      by_cases h : n = k
      · rw [if_pos h, h]
      · rw [if_neg h]
  intro L m k
  unfold centerLevel
  by_cases hL : L = []
  · rw [if_pos hL]
  · rw [if_neg hL]
    by_cases hoff : (100 - L.foldl (fun mb n => max mb ((pget m n).top + (pget m n).height)) 0)
        / 2 > 0
    · rw [if_pos hoff]
      exact hfold _ L m k
    · rw [if_neg hoff]

theorem nodePosition_height (cfg : Config) (edges : List Edge) (lv : List (Str × Nat))
    (k : Str) :
    (pget (nodePosition cfg edges lv) k).height
      = (pget (nodePositionScaled cfg edges lv) k).height := by
  unfold nodePosition
  have hgen : ∀ (Ls : List (List Str)) (m : List (Str × Pos)),
      (pget (Ls.foldl (fun m2 L => centerLevel L m2) m) k).height = (pget m k).height := by
    intro Ls
    induction Ls with
    | nil => intro m; rfl
    | cons L rest ih =>
      intro m
      rw [List.foldl_cons, ih, centerLevel_height]
  exact hgen _ _

theorem posSized_height (cfg : Config) (edges : List Edge) (lv : List (Str × Nat))
    (n : Str) (hn : n ∈ nodeSet edges) :
    (pget (nodePositionSized cfg edges lv) n).height = flooredHeight edges lv n := by
  obtain ⟨v, hv, hmem⟩ := posSized_mem_level cfg edges lv n hn
  have hh := stackLevel_height edges lv (levelOf edges lv n) _ _ 0 (n, v) hmem
  have hp : pget (nodePositionSized cfg edges lv) n = v := by
    unfold pget
    rw [hv]
    rfl
  rw [hp]
  exact hh.1

theorem maxLevelHeight_ge_100 (cfg : Config) (edges : List Edge) (lv : List (Str × Nat)) :
    (100 : ℚ) ≤ maxLevelHeight cfg edges lv := by
  rw [maxLevelHeight_eq]
  exact foldl_if_max_init_le _ _ _

theorem one_le_heightScale (cfg : Config) (edges : List Edge) (lv : List (Str × Nat)) :
    (1 : ℚ) ≤ heightScale cfg edges lv := by
  unfold heightScale
  rw [le_div_iff (by norm_num : (0:ℚ) < 100), one_mul]
  exact maxLevelHeight_ge_100 cfg edges lv

theorem posScaled_height (cfg : Config) (edges : List Edge) (lv : List (Str × Nat))
    (n : Str) (hn : n ∈ nodeSet edges) :
    (pget (nodePositionScaled cfg edges lv) n).height
      = flooredHeight edges lv n
        / (if heightScale cfg edges lv > 1 then heightScale cfg edges lv else 1) := by
  by_cases hhs : heightScale cfg edges lv > 1
  · have hmap := nodePositionScaled_of_gt cfg edges lv hhs
    obtain ⟨v, hv, _⟩ := posSized_mem_level cfg edges lv n hn
    have hps : pget (nodePositionScaled cfg edges lv) n
        = ⟨v.top / heightScale cfg edges lv, v.height / heightScale cfg edges lv, v.level⟩ := by
      unfold pget
      rw [hmap, mget_map_pos, hv]
      rfl
    have hsz : (pget (nodePositionSized cfg edges lv) n).height = v.height := by
      unfold pget
      rw [hv]
      rfl
    have hfl := posSized_height cfg edges lv n hn
    rw [hsz] at hfl
    rw [hps, if_pos hhs]
    show v.height / heightScale cfg edges lv = _
    rw [hfl]
  · have hmap : nodePositionScaled cfg edges lv = nodePositionSized cfg edges lv := by
      simp only [nodePositionScaled]
      rw [if_neg hhs]
    rw [hmap, if_neg hhs, div_one]
    exact posSized_height cfg edges lv n hn

theorem flooredHeight_ge_min (edges : List Edge) (lv : List (Str × Nat)) (n : Str) :
    nodeMinHeight (aggregatedEdges edges) n ≤ flooredHeight edges lv n := by
  show nodeMinHeight (aggregatedEdges edges) n
      ≤ if rawHeight edges lv n < nodeMinHeight (aggregatedEdges edges) n
        then nodeMinHeight (aggregatedEdges edges) n else rawHeight edges lv n
  by_cases h : rawHeight edges lv n < nodeMinHeight (aggregatedEdges edges) n
  · rw [if_pos h]
  · rw [if_neg h]
    exact not_lt.mp h

theorem nodeSet_mem_mono : ∀ (l : List Edge) (acc : List Str) (x : Str), x ∈ acc →
    x ∈ l.foldl (fun a e2 => insertUnique (insertUnique a e2.source) e2.target) acc := by
  intro l
  induction l with
  | nil => intro acc x h; exact h
  | cons e rest ih =>
    intro acc x h
    rw [List.foldl_cons]
    exact ih _ x (insertUnique_mem_mono _ _ _ (insertUnique_mem_mono _ _ _ h))

theorem edge_mem_nodeSet (edges : List Edge) (e : Edge) (he : e ∈ edges) :
    e.source ∈ nodeSet edges ∧ e.target ∈ nodeSet edges := by
  unfold nodeSet
  have hgen : ∀ (l : List Edge) (acc : List Str), e ∈ l →
      e.source ∈ l.foldl (fun a e2 => insertUnique (insertUnique a e2.source) e2.target) acc
      ∧ e.target ∈ l.foldl (fun a e2 => insertUnique (insertUnique a e2.source) e2.target) acc := by
    intro l
    induction l with
    | nil => intro acc h; simp at h
    | cons f rest ih =>
      intro acc h
      rw [List.foldl_cons]
      rcases List.mem_cons.mp h with rfl | h
      · constructor
        · exact nodeSet_mem_mono rest _ _
            (insertUnique_mem_mono _ _ _ (insertUnique_mem_self _ _))
        · exact nodeSet_mem_mono rest _ _ (insertUnique_mem_self _ _)
      · exact ih _ h
  exact hgen edges [] he

theorem insertUnique_mem_inv (l : List Str) (s x : Str) (h : x ∈ insertUnique l s) :
    x ∈ l ∨ x = s := by
  unfold insertUnique at h
  by_cases hs : s ∈ l
  · rw [if_pos hs] at h
    exact Or.inl h
  · rw [if_neg hs] at h
    rcases List.mem_append.mp h with h | h
    · exact Or.inl h
    · simp only [List.mem_singleton] at h
      exact Or.inr h

theorem firstSources_sub (fl : List FlowGeom) (s : Str) (hs : s ∈ firstSources fl) :
    ∃ f ∈ fl, f.source = s := by
  unfold firstSources at hs
  have hgen : ∀ (l : List FlowGeom) (acc : List Str),
      s ∈ l.foldl (fun acc2 f => insertUnique acc2 f.source) acc →
      s ∈ acc ∨ ∃ f ∈ l, f.source = s := by
    intro l
    induction l with
    | nil => intro acc h; exact Or.inl h
    | cons f rest ih =>
      intro acc h
      rw [List.foldl_cons] at h
      rcases ih _ h with h2 | ⟨g, hg, hgs⟩
      · rcases insertUnique_mem_inv _ _ _ h2 with h3 | h3
        · exact Or.inl h3
        · exact Or.inr ⟨f, by simp, h3.symm⟩
      · exact Or.inr ⟨g, by simp [hg], hgs⟩
  rcases hgen fl [] hs with h | h
  · simp at h
  · exact h

theorem firstTargets_sub (fl : List FlowGeom) (s : Str) (hs : s ∈ firstTargets fl) :
    ∃ f ∈ fl, f.target = s := by
  unfold firstTargets at hs
  have hgen : ∀ (l : List FlowGeom) (acc : List Str),
      s ∈ l.foldl (fun acc2 f => insertUnique acc2 f.target) acc →
      s ∈ acc ∨ ∃ f ∈ l, f.target = s := by
    intro l
    induction l with
    | nil => intro acc h; exact Or.inl h
    | cons f rest ih =>
      intro acc h
      rw [List.foldl_cons] at h
      rcases ih _ h with h2 | ⟨g, hg, hgs⟩
      · rcases insertUnique_mem_inv _ _ _ h2 with h3 | h3
        · exact Or.inl h3
        · exact Or.inr ⟨f, by simp, h3.symm⟩
      · exact Or.inr ⟨g, by simp [hg], hgs⟩
  rcases hgen fl [] hs with h | h
  · simp at h
  · exact h

theorem nodeThroughput_nonneg (edges : List Edge) (n : Str)
    (hpos : ∀ e ∈ edges, 0 < e.value) : 0 ≤ nodeThroughput edges n := by
  unfold nodeThroughput
  apply le_max_of_le_right
  rw [nodeOutFlow_sum]
  apply List.sum_nonneg
  intro x hx
  rcases List.mem_map.mp hx with ⟨e, hfe, hxe⟩
  rw [← hxe]
  exact le_of_lt (hpos e (List.mem_filter.mp hfe).1)

theorem divisor_pos (cfg : Config) (edges : List Edge) (lv : List (Str × Nat)) :
    0 < (if heightScale cfg edges lv > 1 then heightScale cfg edges lv else 1) := by
  by_cases h : heightScale cfg edges lv > 1
  · rw [if_pos h]; linarith
  · rw [if_neg h]; norm_num

theorem height_eq (cfg : Config) (edges : List Edge) (lv : List (Str × Nat)) (n : Str)
    (hn : n ∈ nodeSet edges) :
    (pget (nodePosition cfg edges lv) n).height
      = flooredHeight edges lv n
        / (if heightScale cfg edges lv > 1 then heightScale cfg edges lv else 1) := by
  rw [nodePosition_height]
  exact posScaled_height cfg edges lv n hn

theorem height_nonneg (cfg : Config) (edges : List Edge) (lv : List (Str × Nat)) (n : Str)
    (hn : n ∈ nodeSet edges) :
    0 ≤ (pget (nodePosition cfg edges lv) n).height := by
  rw [height_eq cfg edges lv n hn]
  apply div_nonneg _ (le_of_lt (divisor_pos cfg edges lv))
  have := flooredHeight_ge_two edges lv n
  linarith

theorem minFlowHeight_eq (cfg : Config) (edges : List Edge) (lv : List (Str × Nat)) :
    minFlowHeight cfg edges lv
      = minFlowHeightBase
        / (if heightScale cfg edges lv > 1 then heightScale cfg edges lv else 1) := rfl

theorem minFlowHeight_nonneg (cfg : Config) (edges : List Edge) (lv : List (Str × Nat)) :
    0 ≤ minFlowHeight cfg edges lv := by
  rw [minFlowHeight_eq]
  apply div_nonneg _ (le_of_lt (divisor_pos cfg edges lv))
  unfold minFlowHeightBase
  norm_num

theorem sorted_src_sum (edges : List Edge) (lv : List (Str × Nat)) (n : Str)
    (hgood : ∀ e ∈ edges, GoodEdge e) :
    (((sortedAggregatedEdges edges lv).filter (fun e => e.source = n)).map
      (fun e => e.value)).sum = (mget (nodeOutFlow edges) n).getD 0 := by
  have hperm := isortByLt_perm (edgeKeyLt edges lv) (aggregatedEdges edges)
  have h1 : ((((sortedAggregatedEdges edges lv).filter (fun e => e.source = n)).map
      (fun e => e.value)).sum)
      = (((aggregatedEdges edges).filter (fun e => e.source = n)).map (fun e => e.value)).sum :=
    ((hperm.filter _).map _).sum_eq
  rw [h1, aggregatedEdges_eq_spec edges hgood, aggregateSpec_src_sum, ← nodeOutFlow_sum]

theorem sorted_tgt_sum (edges : List Edge) (lv : List (Str × Nat)) (n : Str)
    (hgood : ∀ e ∈ edges, GoodEdge e) :
    (((sortedAggregatedEdges edges lv).filter (fun e => e.target = n)).map
      (fun e => e.value)).sum = (mget (nodeInFlow edges) n).getD 0 := by
  have hperm := isortByLt_perm (edgeKeyLt edges lv) (aggregatedEdges edges)
  have h1 : ((((sortedAggregatedEdges edges lv).filter (fun e => e.target = n)).map
      (fun e => e.value)).sum)
      = (((aggregatedEdges edges).filter (fun e => e.target = n)).map (fun e => e.value)).sum :=
    ((hperm.filter _).map _).sum_eq
  rw [h1, aggregatedEdges_eq_spec edges hgood, aggregateSpec_tgt_sum, ← nodeInFlow_sum]

theorem sorted_src_cnt (edges : List Edge) (lv : List (Str × Nat)) (n : Str) :
    ((sortedAggregatedEdges edges lv).filter (fun e => e.source = n)).length
      = (mget (nodeOutFlowCount (aggregatedEdges edges)) n).getD 0 := by
  have hperm := isortByLt_perm (edgeKeyLt edges lv) (aggregatedEdges edges)
  rw [nodeOutFlowCount_eq]
  exact (hperm.filter _).length_eq

theorem sorted_tgt_cnt (edges : List Edge) (lv : List (Str × Nat)) (n : Str) :
    ((sortedAggregatedEdges edges lv).filter (fun e => e.target = n)).length
      = (mget (nodeInFlowCount (aggregatedEdges edges)) n).getD 0 := by
  have hperm := isortByLt_perm (edgeKeyLt edges lv) (aggregatedEdges edges)
  rw [nodeInFlowCount_eq]
  exact (hperm.filter _).length_eq

theorem cnt_out_le_height (cfg : Config) (edges : List Edge) (lv : List (Str × Nat))
    (n : Str) (hn : n ∈ nodeSet edges) :
    (((mget (nodeOutFlowCount (aggregatedEdges edges)) n).getD 0 : ℚ))
      * minFlowHeight cfg edges lv
      ≤ (pget (nodePosition cfg edges lv) n).height := by
  rw [height_eq cfg edges lv n hn, minFlowHeight_eq]
  have hd := divisor_pos cfg edges lv
  have hmax : (((mget (nodeOutFlowCount (aggregatedEdges edges)) n).getD 0 : ℚ))
      * minFlowHeightBase ≤ flooredHeight edges lv n := by
    have h1 : (((mget (nodeOutFlowCount (aggregatedEdges edges)) n).getD 0 : ℚ))
        ≤ ((max ((mget (nodeOutFlowCount (aggregatedEdges edges)) n).getD 0)
            ((mget (nodeInFlowCount (aggregatedEdges edges)) n).getD 0) : ℚ)) := by
      exact_mod_cast Nat.le_max_left _ _
    have h2 : ((max ((mget (nodeOutFlowCount (aggregatedEdges edges)) n).getD 0)
        ((mget (nodeInFlowCount (aggregatedEdges edges)) n).getD 0) : ℚ))
        * minFlowHeightBase ≤ nodeMinHeight (aggregatedEdges edges) n := by
      unfold nodeMinHeight
      exact le_max_right _ _
    have h3 := flooredHeight_ge_min edges lv n
    have hb : (0:ℚ) ≤ minFlowHeightBase := by unfold minFlowHeightBase; norm_num
    calc (((mget (nodeOutFlowCount (aggregatedEdges edges)) n).getD 0 : ℚ))
        * minFlowHeightBase
        ≤ ((max ((mget (nodeOutFlowCount (aggregatedEdges edges)) n).getD 0)
            ((mget (nodeInFlowCount (aggregatedEdges edges)) n).getD 0) : ℚ))
          * minFlowHeightBase := mul_le_mul_of_nonneg_right h1 hb
      _ ≤ nodeMinHeight (aggregatedEdges edges) n := h2
      _ ≤ flooredHeight edges lv n := h3
  calc (((mget (nodeOutFlowCount (aggregatedEdges edges)) n).getD 0 : ℚ))
      * (minFlowHeightBase
        / (if heightScale cfg edges lv > 1 then heightScale cfg edges lv else 1))
      = (((mget (nodeOutFlowCount (aggregatedEdges edges)) n).getD 0 : ℚ))
        * minFlowHeightBase
        / (if heightScale cfg edges lv > 1 then heightScale cfg edges lv else 1) := by
        rw [mul_div_assoc]
    _ ≤ flooredHeight edges lv n
        / (if heightScale cfg edges lv > 1 then heightScale cfg edges lv else 1) :=
        (div_le_div_right hd).mpr hmax

theorem cnt_in_le_height (cfg : Config) (edges : List Edge) (lv : List (Str × Nat))
    (n : Str) (hn : n ∈ nodeSet edges) :
    (((mget (nodeInFlowCount (aggregatedEdges edges)) n).getD 0 : ℚ))
      * minFlowHeight cfg edges lv
      ≤ (pget (nodePosition cfg edges lv) n).height := by
  rw [height_eq cfg edges lv n hn, minFlowHeight_eq]
  have hd := divisor_pos cfg edges lv
  have hmax : (((mget (nodeInFlowCount (aggregatedEdges edges)) n).getD 0 : ℚ))
      * minFlowHeightBase ≤ flooredHeight edges lv n := by
    have h1 : (((mget (nodeInFlowCount (aggregatedEdges edges)) n).getD 0 : ℚ))
        ≤ ((max ((mget (nodeOutFlowCount (aggregatedEdges edges)) n).getD 0)
            ((mget (nodeInFlowCount (aggregatedEdges edges)) n).getD 0) : ℚ)) := by
      exact_mod_cast Nat.le_max_right _ _
    have h2 : ((max ((mget (nodeOutFlowCount (aggregatedEdges edges)) n).getD 0)
        ((mget (nodeInFlowCount (aggregatedEdges edges)) n).getD 0) : ℚ))
        * minFlowHeightBase ≤ nodeMinHeight (aggregatedEdges edges) n := by
      unfold nodeMinHeight
      exact le_max_right _ _
    have h3 := flooredHeight_ge_min edges lv n
    have hb : (0:ℚ) ≤ minFlowHeightBase := by unfold minFlowHeightBase; norm_num
    calc (((mget (nodeInFlowCount (aggregatedEdges edges)) n).getD 0 : ℚ))
        * minFlowHeightBase
        ≤ ((max ((mget (nodeOutFlowCount (aggregatedEdges edges)) n).getD 0)
            ((mget (nodeInFlowCount (aggregatedEdges edges)) n).getD 0) : ℚ))
          * minFlowHeightBase := mul_le_mul_of_nonneg_right h1 hb
      _ ≤ nodeMinHeight (aggregatedEdges edges) n := h2
      _ ≤ flooredHeight edges lv n := h3
  calc (((mget (nodeInFlowCount (aggregatedEdges edges)) n).getD 0 : ℚ))
      * (minFlowHeightBase
        / (if heightScale cfg edges lv > 1 then heightScale cfg edges lv else 1))
      = (((mget (nodeInFlowCount (aggregatedEdges edges)) n).getD 0 : ℚ))
        * minFlowHeightBase
        / (if heightScale cfg edges lv > 1 then heightScale cfg edges lv else 1) := by
        rw [mul_div_assoc]
    _ ≤ flooredHeight edges lv n
        / (if heightScale cfg edges lv > 1 then heightScale cfg edges lv else 1) :=
        (div_le_div_right hd).mpr hmax

theorem flowsInit_fromPairs (cfg : Config) (edges : List Edge) (lv : List (Str × Nat))
    (n : Str) :
    ((flowsInit cfg edges lv).filter (fun f => f.source = n)).map (fun f => f.fromHeight)
      = ((sortedAggregatedEdges edges lv).filter (fun e => e.source = n)).map
          (fun e => e.value / nodeThroughput edges e.source
            * (pget (nodePosition cfg edges lv) e.source).height) :=
  filter_of_pair_map (fun f : FlowGeom => f.source) (fun f : FlowGeom => f.fromHeight)
    (fun e : Edge => e.source)
    (fun e : Edge => e.value / nodeThroughput edges e.source
      * (pget (nodePosition cfg edges lv) e.source).height) n
    (flowsInit cfg edges lv) (sortedAggregatedEdges edges lv)
    (mkFlows_fromProj (nodePosition cfg edges lv) (nodeThroughput edges)
      (sortedAggregatedEdges edges lv) 0 [] [])

theorem flowsInit_toPairs (cfg : Config) (edges : List Edge) (lv : List (Str × Nat))
    (n : Str) :
    ((flowsInit cfg edges lv).filter (fun f => f.target = n)).map (fun f => f.toHeight)
      = ((sortedAggregatedEdges edges lv).filter (fun e => e.target = n)).map
          (fun e => e.value / nodeThroughput edges e.target
            * (pget (nodePosition cfg edges lv) e.target).height) :=
  filter_of_pair_map (fun f : FlowGeom => f.target) (fun f : FlowGeom => f.toHeight)
    (fun e : Edge => e.target)
    (fun e : Edge => e.value / nodeThroughput edges e.target
      * (pget (nodePosition cfg edges lv) e.target).height) n
    (flowsInit cfg edges lv) (sortedAggregatedEdges edges lv)
    (mkFlows_toProj (nodePosition cfg edges lv) (nodeThroughput edges)
      (sortedAggregatedEdges edges lv) 0 [] [])

theorem srcsum_init_le_height (cfg : Config) (edges : List Edge) (lv : List (Str × Nat))
    (n : Str) (hgood : ∀ e ∈ edges, GoodEdge e) (hpos : ∀ e ∈ edges, 0 < e.value)
    (hn : n ∈ nodeSet edges) :
    (((flowsInit cfg edges lv).filter (fun f => f.source = n)).map
      (fun f => f.fromHeight)).sum ≤ (pget (nodePosition cfg edges lv) n).height := by
  rw [flowsInit_fromPairs]
  have heq : (((sortedAggregatedEdges edges lv).filter (fun e => e.source = n)).map
      (fun e => e.value / nodeThroughput edges e.source
        * (pget (nodePosition cfg edges lv) e.source).height)).sum
      = (((sortedAggregatedEdges edges lv).filter (fun e => e.source = n)).map
        (fun e => e.value)).sum / nodeThroughput edges n
        * (pget (nodePosition cfg edges lv) n).height :=
    sum_filter_src (nodeThroughput edges)
      (fun s => (pget (nodePosition cfg edges lv) s).height) n _
  rw [heq, sorted_src_sum edges lv n hgood]
  have hhn := height_nonneg cfg edges lv n hn
  by_cases hT : nodeThroughput edges n = 0
  · rw [hT, div_zero, zero_mul]
    exact hhn
  · have hTpos : 0 < nodeThroughput edges n :=
      lt_of_le_of_ne (nodeThroughput_nonneg edges n hpos) (Ne.symm hT)
    have hout : (mget (nodeOutFlow edges) n).getD 0 ≤ nodeThroughput edges n :=
      le_max_right _ _
    calc (mget (nodeOutFlow edges) n).getD 0 / nodeThroughput edges n
        * (pget (nodePosition cfg edges lv) n).height
        ≤ 1 * (pget (nodePosition cfg edges lv) n).height := by
          apply mul_le_mul_of_nonneg_right _ hhn
          rw [div_le_one hTpos]
          exact hout
      _ = (pget (nodePosition cfg edges lv) n).height := one_mul _

theorem tgtsum_init_le_height (cfg : Config) (edges : List Edge) (lv : List (Str × Nat))
    (n : Str) (hgood : ∀ e ∈ edges, GoodEdge e) (hpos : ∀ e ∈ edges, 0 < e.value)
    (hn : n ∈ nodeSet edges) :
    (((flowsInit cfg edges lv).filter (fun f => f.target = n)).map
      (fun f => f.toHeight)).sum ≤ (pget (nodePosition cfg edges lv) n).height := by
  rw [flowsInit_toPairs]
  have heq : (((sortedAggregatedEdges edges lv).filter (fun e => e.target = n)).map
      (fun e => e.value / nodeThroughput edges e.target
        * (pget (nodePosition cfg edges lv) e.target).height)).sum
      = (((sortedAggregatedEdges edges lv).filter (fun e => e.target = n)).map
        (fun e => e.value)).sum / nodeThroughput edges n
        * (pget (nodePosition cfg edges lv) n).height :=
    sum_filter_tgt (nodeThroughput edges)
      (fun s => (pget (nodePosition cfg edges lv) s).height) n _
  rw [heq, sorted_tgt_sum edges lv n hgood]
  have hhn := height_nonneg cfg edges lv n hn
  by_cases hT : nodeThroughput edges n = 0
  · rw [hT, div_zero, zero_mul]
    exact hhn
  · have hTpos : 0 < nodeThroughput edges n :=
      lt_of_le_of_ne (nodeThroughput_nonneg edges n hpos) (Ne.symm hT)
    have hout : (mget (nodeInFlow edges) n).getD 0 ≤ nodeThroughput edges n :=
      le_max_left _ _
    calc (mget (nodeInFlow edges) n).getD 0 / nodeThroughput edges n
        * (pget (nodePosition cfg edges lv) n).height
        ≤ 1 * (pget (nodePosition cfg edges lv) n).height := by
          apply mul_le_mul_of_nonneg_right _ hhn
          rw [div_le_one hTpos]
          exact hout
      _ = (pget (nodePosition cfg edges lv) n).height := one_mul _

theorem flowsInit_unfold (cfg : Config) (edges : List Edge) (lv : List (Str × Nat)) :
    flowsInit cfg edges lv
      = mkFlowsGo (nodePosition cfg edges lv) (nodeThroughput edges)
          (sortedAggregatedEdges edges lv) 0 [] [] := rfl

theorem agg_src_nodeSet (edges : List Edge) (lv : List (Str × Nat))
    (hgood : ∀ e ∈ edges, GoodEdge e) (hpos : ∀ e3 ∈ edges, 0 < e3.value) (e : Edge)
    (he : e ∈ sortedAggregatedEdges edges lv) :
    e.source ∈ nodeSet edges ∧ e.target ∈ nodeSet edges ∧ 0 ≤ e.value := by
  have hagg : e ∈ aggregatedEdges edges :=
    (isortByLt_perm (edgeKeyLt edges lv) (aggregatedEdges edges)).mem_iff.mp he
  rw [aggregatedEdges_eq_spec edges hgood] at hagg
  obtain ⟨e2, he2, hpair⟩ := aggregateSpec_pairs_sub edges e hagg
  refine ⟨?_, ?_, ?_⟩
  · rw [← hpair.1]
    exact (edge_mem_nodeSet edges e2 he2).1
  · rw [← hpair.2]
    exact (edge_mem_nodeSet edges e2 he2).2
  · exact aggregateSpec_value_nonneg edges (fun e3 he3 => le_of_lt (hpos e3 he3)) e hagg

theorem flowsInit_node_mem (cfg : Config) (edges : List Edge) (lv : List (Str × Nat))
    (hgood : ∀ e ∈ edges, GoodEdge e) (hpos : ∀ e3 ∈ edges, 0 < e3.value)
    (f : FlowGeom) (hf : f ∈ flowsInit cfg edges lv) :
    f.source ∈ nodeSet edges ∧ f.target ∈ nodeSet edges := by
  constructor
  · have hmem : (f.source, f.fromHeight)
        ∈ (flowsInit cfg edges lv).map (fun f2 => (f2.source, f2.fromHeight)) :=
      List.mem_map.mpr ⟨f, hf, rfl⟩
    rw [flowsInit_unfold, mkFlows_fromProj] at hmem
    rcases List.mem_map.mp hmem with ⟨e, he, heq⟩
    have hse : e.source = f.source := ((Prod.mk.injEq _ _ _ _).mp heq).1
    rw [← hse]
    exact (agg_src_nodeSet edges lv hgood hpos e he).1
  · have hmem : (f.target, f.toHeight)
        ∈ (flowsInit cfg edges lv).map (fun f2 => (f2.target, f2.toHeight)) :=
      List.mem_map.mpr ⟨f, hf, rfl⟩
    rw [flowsInit_unfold, mkFlows_toProj] at hmem
    rcases List.mem_map.mp hmem with ⟨e, he, heq⟩
    have hse : e.target = f.target := ((Prod.mk.injEq _ _ _ _).mp heq).1
    rw [← hse]
    exact (agg_src_nodeSet edges lv hgood hpos e he).2.1

theorem flowsInit_from_nonneg (cfg : Config) (edges : List Edge) (lv : List (Str × Nat))
    (hgood : ∀ e ∈ edges, GoodEdge e) (hpos : ∀ e ∈ edges, 0 < e.value) :
    ∀ f ∈ flowsInit cfg edges lv, 0 ≤ f.fromHeight := by
  intro f hf
  have hmem : (f.source, f.fromHeight)
      ∈ (flowsInit cfg edges lv).map (fun f2 => (f2.source, f2.fromHeight)) :=
    List.mem_map.mpr ⟨f, hf, rfl⟩
  rw [flowsInit_unfold, mkFlows_fromProj] at hmem
  rcases List.mem_map.mp hmem with ⟨e, he, heq⟩
  have hfh : e.value / nodeThroughput edges e.source
      * (pget (nodePosition cfg edges lv) e.source).height = f.fromHeight :=
    ((Prod.mk.injEq _ _ _ _).mp heq).2
  rw [← hfh]
  obtain ⟨hsrc, _, hv⟩ := agg_src_nodeSet edges lv hgood hpos e he
  apply mul_nonneg
  · exact div_nonneg hv (nodeThroughput_nonneg edges e.source hpos)
  · exact height_nonneg cfg edges lv e.source hsrc

theorem flowsInit_to_nonneg (cfg : Config) (edges : List Edge) (lv : List (Str × Nat))
    (hgood : ∀ e ∈ edges, GoodEdge e) (hpos : ∀ e ∈ edges, 0 < e.value) :
    ∀ f ∈ flowsInit cfg edges lv, 0 ≤ f.toHeight := by
  intro f hf
  have hmem : (f.target, f.toHeight)
      ∈ (flowsInit cfg edges lv).map (fun f2 => (f2.target, f2.toHeight)) :=
    List.mem_map.mpr ⟨f, hf, rfl⟩
  rw [flowsInit_unfold, mkFlows_toProj] at hmem
  rcases List.mem_map.mp hmem with ⟨e, he, heq⟩
  have hfh : e.value / nodeThroughput edges e.target
      * (pget (nodePosition cfg edges lv) e.target).height = f.toHeight :=
    ((Prod.mk.injEq _ _ _ _).mp heq).2
  rw [← hfh]
  obtain ⟨_, htgt, hv⟩ := agg_src_nodeSet edges lv hgood hpos e he
  apply mul_nonneg
  · exact div_nonneg hv (nodeThroughput_nonneg edges e.target hpos)
  · exact height_nonneg cfg edges lv e.target htgt

theorem adjustFromPass_toPairs (mf : ℚ) (pos : List (Str × Pos)) (fl : List FlowGeom) :
    (adjustFromPass mf pos fl).map (fun f => (f.target, f.toHeight))
      = fl.map (fun f => (f.target, f.toHeight)) := by
  have h3 : (adjustFromPass mf pos fl).map (fun f => (f.target, f.toHeight, f.toTop))
      = fl.map (fun f => (f.target, f.toHeight, f.toTop)) := by
    rw [adjustFromPass_eq_fold]
    exact adjustFrom_go_toProj mf pos (firstSources fl) fl
  have h := congrArg (List.map (fun p : Str × ℚ × ℚ => (p.1, p.2.1))) h3
  simpa [List.map_map, Function.comp] using h

theorem adjustToPass_fromPairs (mf : ℚ) (pos : List (Str × Pos)) (fl : List FlowGeom) :
    (adjustToPass mf pos fl).map (fun f => (f.source, f.fromHeight))
      = fl.map (fun f => (f.source, f.fromHeight)) := by
  have h3 : (adjustToPass mf pos fl).map (fun f => (f.source, f.fromHeight, f.fromTop))
      = fl.map (fun f => (f.source, f.fromHeight, f.fromTop)) := by
    rw [adjustToPass_eq_fold]
    exact adjustTo_go_fromProj mf pos (firstTargets fl) fl
  have h := congrArg (List.map (fun p : Str × ℚ × ℚ => (p.1, p.2.1))) h3
  simpa [List.map_map, Function.comp] using h

theorem mid_to_filter (mf : ℚ) (pos : List (Str × Pos)) (fl : List FlowGeom) (n : Str) :
    ((adjustFromPass mf pos fl).filter (fun f => f.target = n)).map (fun f => f.toHeight)
      = (fl.filter (fun f => f.target = n)).map (fun f => f.toHeight) :=
  proj_filter_map (fun f => f.target) (fun f => f.toHeight) n _ _
    (adjustFromPass_toPairs mf pos fl)

theorem final_from_filter (mf : ℚ) (pos : List (Str × Pos)) (fl : List FlowGeom) (n : Str) :
    ((adjustToPass mf pos fl).filter (fun f => f.source = n)).map (fun f => f.fromHeight)
      = (fl.filter (fun f => f.source = n)).map (fun f => f.fromHeight) :=
  proj_filter_map (fun f => f.source) (fun f => f.fromHeight) n _ _
    (adjustToPass_fromPairs mf pos fl)

theorem mid_to_nonneg (mf : ℚ) (pos : List (Str × Pos)) (fl : List FlowGeom)
    (h : ∀ f ∈ fl, 0 ≤ f.toHeight) :
    ∀ f ∈ adjustFromPass mf pos fl, 0 ≤ f.toHeight := by
  intro f hf
  have hmem : (f.target, f.toHeight)
      ∈ (adjustFromPass mf pos fl).map (fun f2 => (f2.target, f2.toHeight)) :=
    List.mem_map.mpr ⟨f, hf, rfl⟩
  rw [adjustFromPass_toPairs] at hmem
  rcases List.mem_map.mp hmem with ⟨g, hg, heq⟩
  have hth : g.toHeight = f.toHeight := ((Prod.mk.injEq _ _ _ _).mp heq).2
  rw [← hth]
  exact h g hg

theorem mid_target_mem (mf : ℚ) (pos : List (Str × Pos)) (fl : List FlowGeom) (f : FlowGeom)
    (hf : f ∈ adjustFromPass mf pos fl) :
    ∃ g ∈ fl, g.target = f.target := by
  have hmem : (f.target, f.toHeight)
      ∈ (adjustFromPass mf pos fl).map (fun f2 => (f2.target, f2.toHeight)) :=
    List.mem_map.mpr ⟨f, hf, rfl⟩
  rw [adjustFromPass_toPairs] at hmem
  rcases List.mem_map.mp hmem with ⟨g, hg, heq⟩
  exact ⟨g, hg, ((Prod.mk.injEq _ _ _ _).mp heq).1⟩

/-- C5 (amended): flow conservation after the minimum-height adjustment
passes.  For every input edge list with aggregation-safe labels (no "::"
inside labels, no source label ending in ":", as the builder's self-loop
and positivity filters guarantee positive values), and for every node,
the sum of fromHeight over the node's outgoing flows after both
adjustment passes never exceeds the node's height, and the analogous
bound holds for the sum of toHeight over its incoming flows.  Over exact
rational arithmetic no tolerance is needed, and the node minimum-height
floor makes the bound hold even when every flow at the node is below the
minimum, so no exception clause is needed either. -/
theorem c5_conservation (cfg : Config) (edges : List Edge) (lv : List (Str × Nat))
    (hgood : ∀ e ∈ edges, GoodEdge e) (hpos : ∀ e ∈ edges, 0 < e.value)
    (n : Str) (hn : n ∈ nodeSet edges) :
    (((flowsFinal cfg edges lv).filter (fun f => f.source = n)).map
        (fun f => f.fromHeight)).sum ≤ (pget (nodePosition cfg edges lv) n).height
    ∧ (((flowsFinal cfg edges lv).filter (fun f => f.target = n)).map
        (fun f => f.toHeight)).sum ≤ (pget (nodePosition cfg edges lv) n).height := by
  have hmf := minFlowHeight_nonneg cfg edges lv
  have hff : flowsFinal cfg edges lv
      = adjustToPass (minFlowHeight cfg edges lv) (nodePosition cfg edges lv)
        (adjustFromPass (minFlowHeight cfg edges lv) (nodePosition cfg edges lv)
          (flowsInit cfg edges lv)) := rfl
  constructor
  · rw [hff, final_from_filter, adjustFromPass_eq_fold]
    by_cases hnFS : n ∈ firstSources (flowsInit cfg edges lv)
    · refine adjustFrom_go_bound (minFlowHeight cfg edges lv) (nodePosition cfg edges lv)
        (fun k => (pget (nodePosition cfg edges lv) k).height) hmf _
        (firstSources_nodup _) _ (flowsInit_from_nonneg cfg edges lv hgood hpos)
        ?_ n hnFS
      intro n2 hn2
      have hn2S : n2 ∈ nodeSet edges := by
        obtain ⟨f, hf, hfs⟩ := firstSources_sub _ n2 hn2
        rw [← hfs]
        exact (flowsInit_node_mem cfg edges lv hgood hpos f hf).1
      refine ⟨srcsum_init_le_height cfg edges lv n2 hgood hpos hn2S, ?_⟩
      have hc1 : ((flowsInit cfg edges lv).filter (fun f => f.source = n2)).length
          = ((sortedAggregatedEdges edges lv).filter (fun e => e.source = n2)).length := by
        have h := congrArg List.length (flowsInit_fromPairs cfg edges lv n2)
        simpa using h
      rw [hc1, sorted_src_cnt]
      exact cnt_out_le_height cfg edges lv n2 hn2S
    · rw [adjustFrom_go_preserve _ _ _ _ _ hnFS]
      have hemp : (flowsInit cfg edges lv).filter (fun f => f.source = n) = [] := by
        rw [List.filter_eq_nil]
        intro f hf
        simp only [decide_eq_true_eq]
        intro hfs
        exact hnFS (hfs ▸ mem_firstSources _ f hf)
      rw [hemp]
      simpa using height_nonneg cfg edges lv n hn
  · rw [hff, adjustToPass_eq_fold]
    by_cases hnFT : n ∈ firstTargets (adjustFromPass (minFlowHeight cfg edges lv)
        (nodePosition cfg edges lv) (flowsInit cfg edges lv))
    · refine adjustTo_go_bound (minFlowHeight cfg edges lv) (nodePosition cfg edges lv)
        (fun k => (pget (nodePosition cfg edges lv) k).height) hmf _
        (firstTargets_nodup _) _
        (mid_to_nonneg _ _ _ (flowsInit_to_nonneg cfg edges lv hgood hpos))
        ?_ n hnFT
      intro n2 hn2
      have hn2S : n2 ∈ nodeSet edges := by
        obtain ⟨f, hf, hft⟩ := firstTargets_sub _ n2 hn2
        obtain ⟨g, hg, hgt⟩ := mid_target_mem _ _ _ f hf
        rw [← hft, ← hgt]
        exact (flowsInit_node_mem cfg edges lv hgood hpos g hg).2
      constructor
      · rw [mid_to_filter]
        exact tgtsum_init_le_height cfg edges lv n2 hgood hpos hn2S
      · have hc1 : ((adjustFromPass (minFlowHeight cfg edges lv) (nodePosition cfg edges lv)
            (flowsInit cfg edges lv)).filter (fun f => f.target = n2)).length
            = ((flowsInit cfg edges lv).filter (fun f => f.target = n2)).length := by
          have h := congrArg List.length (mid_to_filter (minFlowHeight cfg edges lv)
            (nodePosition cfg edges lv) (flowsInit cfg edges lv) n2)
          simpa using h
        have hc2 : ((flowsInit cfg edges lv).filter (fun f => f.target = n2)).length
            = ((sortedAggregatedEdges edges lv).filter (fun e => e.target = n2)).length := by
          have h := congrArg List.length (flowsInit_toPairs cfg edges lv n2)
          simpa using h
        rw [hc1, hc2, sorted_tgt_cnt]
        exact cnt_in_le_height cfg edges lv n2 hn2S
    · rw [adjustTo_go_preserve _ _ _ _ _ hnFT]
      have hemp : (adjustFromPass (minFlowHeight cfg edges lv) (nodePosition cfg edges lv)
          (flowsInit cfg edges lv)).filter (fun f => f.target = n) = [] := by
        rw [List.filter_eq_nil]
        intro f hf
        simp only [decide_eq_true_eq]
        intro hft
        exact hnFT (hft ▸ mem_firstTargets _ f hf)
      rw [hemp]
      simpa using height_nonneg cfg edges lv n hn

def aLab : Str := "a".toList
def rowsC5x : List Row := [⟨"a::b".toList, "c".toList, some 5⟩, ⟨aLab, "b".toList, some 7⟩]
def edgesC5x : List Edge := [⟨"a::b".toList, "c".toList, 5⟩, ⟨aLab, "b".toList, 7⟩]


def lvC5x : List (Str × Nat) := [("a::b".toList, 0), (aLab, 0), ("b".toList, 1)]


def aggC5x : List Edge := [⟨aLab, "b".toList, 5⟩, ⟨aLab, "b".toList, 7⟩]

theorem buildC5x : buildEdges rowsC5x = .ok edgesC5x := by
  simp [buildEdges, buildEdgesGo, rowsC5x, edgesC5x, aLab, jsTrim, rowValue]

theorem aggEqC5x : aggregatedEdges edgesC5x = aggC5x := by
  simp [aggregatedEdges, edgeMap, recoverEdge, splitCC, keyOf, mget, mset, edgesC5x, aggC5x, aLab]

theorem srcC5x : sourceNodes edgesC5x = ["a::b".toList, aLab] := by
  simp [sourceNodes, nodeSet, insertUnique, nodeInFlow, mget, mset, edgesC5x, aLab,
    List.filter_cons]

theorem initEqC5x : bfsInit edgesC5x = ⟨[("a::b".toList, 0), (aLab, 0)],
    [("a::b".toList, 0), (aLab, 0)]⟩ := by
  unfold bfsInit
  rw [srcC5x]
  simp [mset, aLab]

theorem runC5x : bfsRun (aggregatedEdges edgesC5x) 10 (bfsInit edgesC5x) = some lvC5x := by
  rw [aggEqC5x, initEqC5x]
  simp [bfsRun, bfsStep, stepEdge, mget, mset, aggC5x, lvC5x, aLab]

theorem levelsC5x : levelsOf edgesC5x lvC5x = [["a::b".toList, "c".toList, aLab], ["b".toList]] := by
  decide

theorem sortC5x : sortedAggregatedEdges edgesC5x lvC5x = aggC5x := by
  unfold sortedAggregatedEdges
  rw [aggEqC5x]
  simp [isortByLt, insertByLt, edgeKeyLt, levelOf, fillLevels, nodeSet, insertUnique,
    mget, mset, edgesC5x, lvC5x, aggC5x, aLab]

def sizedC5x : List (Str × Pos) :=
  [("a::b".toList, ⟨0, 500/17, 0⟩), ("c".toList, ⟨1085/34, 500/17, 0⟩),
   (aLab, ⟨1085/17, 700/17, 0⟩), ("b".toList, ⟨0, 700/17, 1⟩)]

theorem sizedEqC5x : nodePositionSized {} edgesC5x lvC5x = sizedC5x := by
  simp [nodePositionSized, stackLevel, effectivePadding, flooredHeight, nodeMinHeight,
    rawHeight, nodeThroughput, maxLevelThroughput, levelThroughput, levelsOf, levelCount,
    fillLevels, levelOf, nodeSet, insertUnique, nodeInFlow, nodeOutFlow, mget, mset,
    paddingPct, minNodeHeight, minGapHeight, minFlowHeightBase,
    aggregatedEdges, edgeMap, recoverEdge, splitCC, keyOf,
    nodeOutFlowCount, nodeInFlowCount, edgesC5x, lvC5x, sizedC5x, aLab,
    List.range_succ, Function.comp, List.filter_cons, max_def, List.enum, List.enumFrom]
  norm_num

theorem hsEqC5x : heightScale {} edgesC5x lvC5x = 21/20 := by
  have hmx : maxLevelHeight {} edgesC5x lvC5x = 105 := by
    rw [maxLevelHeight_eq, levelsC5x]
    simp [levelHeight, stackEnd, effectivePadding, flooredHeight, nodeMinHeight,
      rawHeight, nodeThroughput, maxLevelThroughput, levelThroughput, levelsOf, levelCount,
      fillLevels, levelOf, nodeSet, insertUnique, nodeInFlow, nodeOutFlow, mget, mset,
      paddingPct, minNodeHeight, minGapHeight, minFlowHeightBase,
      aggregatedEdges, edgeMap, recoverEdge, splitCC, keyOf,
      nodeOutFlowCount, nodeInFlowCount, edgesC5x, lvC5x, aLab,
      List.range_succ, Function.comp, List.filter_cons, max_def]
    norm_num
  rw [heightScale, hmx]
  norm_num

def posC5x : List (Str × Pos) :=
  [("a::b".toList, ⟨0, 10000/357, 0⟩), ("c".toList, ⟨1550/51, 10000/357, 0⟩),
   (aLab, ⟨3100/51, 2000/51, 0⟩), ("b".toList, ⟨1550/51, 2000/51, 1⟩)]

def scaledC5x : List (Str × Pos) :=
  [("a::b".toList, ⟨0, 10000/357, 0⟩), ("c".toList, ⟨1550/51, 10000/357, 0⟩),
   (aLab, ⟨3100/51, 2000/51, 0⟩), ("b".toList, ⟨0, 2000/51, 1⟩)]

theorem scaledEqC5x : nodePositionScaled {} edgesC5x lvC5x = scaledC5x := by
  simp [nodePositionScaled, hsEqC5x, sizedEqC5x, sizedC5x, scaledC5x, aLab]
  norm_num

theorem posEqC5x : nodePosition {} edgesC5x lvC5x = posC5x := by
  simp [nodePosition, levelsC5x, scaledEqC5x, centerLevel, pget, mget, mset, posC5x,
    scaledC5x, aLab, max_def]
  norm_num [centerLevel, pget, mget, mset, posC5x, scaledC5x, aLab, max_def]
  simp [mget, mset, pget, aLab]
  norm_num

def flowsC5x : List FlowGeom :=
  [⟨aLab, "b".toList, 5, 0, 3100/51, 10000/357, 1, 1550/51, 10000/357, 0⟩,
   ⟨aLab, "b".toList, 7, 0, 31700/357, 2000/51, 1, 6950/119, 2000/51, 1⟩]

theorem flowsInitEqC5x : flowsInit {} edgesC5x lvC5x = flowsC5x := by
  rw [flowsInit_unfold, posEqC5x, sortC5x]
  simp [mkFlowsGo, pget, mget, mset, nodeThroughput, nodeInFlow, nodeOutFlow, posC5x,
    flowsC5x, edgesC5x, aggC5x, aLab, max_def]
  norm_num

theorem mfhEqC5x : minFlowHeight {} edgesC5x lvC5x = 10/7 := by
  rw [minFlowHeight_eq, hsEqC5x, minFlowHeightBase]
  norm_num

set_option maxHeartbeats 2000000 in
theorem flowsFinalEqC5x : flowsFinal {} edgesC5x lvC5x = flowsC5x := by
  rw [show flowsFinal {} edgesC5x lvC5x
      = adjustToPass (minFlowHeight {} edgesC5x lvC5x) (nodePosition {} edgesC5x lvC5x)
        (adjustFromPass (minFlowHeight {} edgesC5x lvC5x) (nodePosition {} edgesC5x lvC5x)
          (flowsInit {} edgesC5x lvC5x)) from rfl]
  rw [flowsInitEqC5x, mfhEqC5x, posEqC5x]
  first
  | (simp [adjustFromPass, adjustToPass, firstSources, firstTargets, insertUnique,
      enforceMinHeights, stackTops, replaceGroupFrom, replaceGroupTo, pget, mget, mset,
      List.filter_cons, flowsC5x, posC5x, aLab, min_def])
  | skip
  first
  | (norm_num [adjustFromPass, adjustToPass, firstSources, firstTargets, insertUnique,
      enforceMinHeights, stackTops, replaceGroupFrom, replaceGroupTo, pget, mget, mset,
      List.filter_cons, flowsC5x, posC5x, aLab, min_def])
  | skip
  first
  | (simp [adjustFromPass, adjustToPass, firstSources, firstTargets, insertUnique,
      enforceMinHeights, stackTops, replaceGroupFrom, replaceGroupTo, pget, mget, mset,
      List.filter_cons, flowsC5x, posC5x, aLab, min_def])
  | skip
  first
  | (norm_num [stackTops, List.zip, List.zipWith])
  | skip

theorem renderEqC5x : renderSankey {} (some rowsC5x) 10
    = .ok (some (.layout ⟨nodeSet edgesC5x, nodePosition {} edgesC5x lvC5x,
        flowsFinal {} edgesC5x lvC5x⟩)) := by
  have hne : rowsC5x ≠ [] := by decide
  have hene : edgesC5x ≠ [] := by decide
  simp only [renderSankey, if_neg hne, buildC5x, if_neg hene, runC5x]

/-- C5 counterexample: with the label "a::b" in play the aggregation key
recovery misattributes the 5-unit flow to node "a", whose throughput (7)
and height were computed from the raw labels.  The render completes, the
two final outgoing flows of node "a" sum to 24000/357 while the node's
height is 2000/51 = 14000/357, and every flow of the chart starts at or
above the minimum flow height 10/7, so the claim's only exception clause
(every flow already below the minimum) does not apply; the conservation
bound is violated. -/
theorem c5_conservation_cex :
    buildEdges rowsC5x = .ok edgesC5x
    ∧ renderSankey {} (some rowsC5x) 10
        = .ok (some (.layout ⟨nodeSet edgesC5x, nodePosition {} edgesC5x lvC5x,
            flowsFinal {} edgesC5x lvC5x⟩))
    ∧ (pget (nodePosition {} edgesC5x lvC5x) aLab).height
        < (((flowsFinal {} edgesC5x lvC5x).filter (fun f => f.source = aLab)).map
            (fun f => f.fromHeight)).sum
    ∧ ∀ f ∈ flowsInit {} edgesC5x lvC5x,
        minFlowHeight {} edgesC5x lvC5x ≤ f.fromHeight := by
  refine ⟨buildC5x, renderEqC5x, ?_, ?_⟩
  · rw [flowsFinalEqC5x, posEqC5x]
    simp [flowsC5x, posC5x, pget, mget, aLab, List.filter_cons]
  · rw [flowsInitEqC5x, mfhEqC5x]
    intro f hf
    rcases List.mem_cons.mp hf with rfl | hf
    · show (10:ℚ)/7 ≤ 10000/357
      norm_num
    · rcases List.mem_cons.mp hf with rfl | hf
      · show (10:ℚ)/7 ≤ 2000/51
        norm_num
      · simp [flowsC5x] at hf

theorem c5_conservation_witness :
    ((∀ e ∈ edgesA, GoodEdge e) ∧ (∀ e ∈ edgesA, 0 < e.value) ∧ nA ∈ nodeSet edgesA)
    ∧ ((((flowsFinal {} edgesA lvA).filter (fun f => f.source = nA)).map
        (fun f => f.fromHeight)).sum ≤ (pget (nodePosition {} edgesA lvA) nA).height
      ∧ (((flowsFinal {} edgesA lvA).filter (fun f => f.target = nA)).map
        (fun f => f.toHeight)).sum ≤ (pget (nodePosition {} edgesA lvA) nA).height) :=
  ⟨⟨by decide, by decide, by decide⟩,
    c5_conservation {} edgesA lvA (by decide) (by decide) nA (by decide)⟩
